import Mathlib

/-!
# DataJSON: a schemaless attribute bag (`data_json.go`)

A shallow embedding of the Go type `DataJSON` (`map[string]interface{}`) and of its methods,
followed by theorems about them.

Conventions of the embedding.

* A Go `string` and a Go `[]byte` are byte sequences: `List Nat`, each element a byte.
* A Go `interface{}` value is a `GoValue`: one constructor per dynamic type that the
  methods of `data_json.go` can tell apart, `GoValue.nil` being the nil interface.
* A Go `map[string]T` is `Option (List (GoString × T))`: `none` is the nil map, `some es`
  an allocated map whose entries are `es`. A Go map has no order and no repeated key;
  the entries are kept sorted by key (byte-wise, strictly increasing), which is the
  order in which `encoding/json` writes them.
* A run-time panic is an explicit outcome (`Except GoPanic _`).
* `encoding/json` and `strconv` are not part of `data_json.go`; `json.Marshal` and
  `json.Unmarshal` are modelled for the target type `map[string]interface{}` as the Go
  toolchain runs them. Where releases differ (the text written for a byte that is not
  valid UTF-8; a bound on the nesting depth when encoding) the model follows the current
  encoder, and no theorem depends on the choice.
-/

/-- Go `string`: a sequence of bytes. -/
abbrev GoString := List Nat

/-- Bytes of an ASCII literal. -/
def ascii (s : String) : GoString := s.data.map Char.toNat

/-- IEEE-754 binary64 value (Go `float64`), given by its 64-bit pattern:
sign bit, 11 exponent bits, 52 mantissa bits. -/
structure Float64 where
  bits : Nat
deriving DecidableEq, Repr

/-- Go `time.Time`: the three fields of the struct (`loc` stands for the location pointer). -/
structure GoTime where
  wall : Nat
  ext : Int
  loc : Nat
deriving DecidableEq, Repr

/-- The zero `time.Time`. -/
def GoTime.zero : GoTime := ⟨0, 0, 0⟩

/-- Go `interface{}` value, by dynamic type. -/
inductive GoValue where
  /-- The nil interface value. -/
  | nil
  | bool (b : Bool)
  /-- Dynamic type `int`. -/
  | int (i : Int)
  /-- Dynamic type `int64`. -/
  | int64 (i : Int)
  | float64 (f : Float64)
  | string (s : GoString)
  /-- Dynamic type `time.Time`. -/
  | time (t : GoTime)
  /-- Dynamic type `time.Duration` (a named `int64`). -/
  | duration (d : Int)
  /-- Dynamic type `[]byte`. -/
  | bytes (b : List Nat)
  /-- Dynamic type `[]string`; `none` is the nil slice. -/
  | stringSlice (ss : Option (List GoString))
  /-- Dynamic type `[]interface{}`; `none` is the nil slice. -/
  | slice (xs : Option (List GoValue))
  /-- Dynamic type `map[string]interface{}`; `none` is the nil map. -/
  | stringMap (m : Option (List (GoString × GoValue)))
  /-- Dynamic type `map[string]string`. -/
  | stringMapString (m : Option (List (GoString × GoString)))
  /-- Dynamic type `map[string][]string`. -/
  | stringMapStringSlice (m : Option (List (GoString × Option (List GoString))))
  /-- A value of any other dynamic type, taken to be comparable (`int32`, `uint8`, a named
  scalar type, ...), given by a number for the type and a number for the value. -/
  | other (typeId : Nat) (payload : Nat)

/-- The bag: `type DataJSON map[string]interface{}`. `none` is the nil (unallocated) map. -/
abbrev DataJSON := Option (List (GoString × GoValue))

/-- Run-time panics of the modelled code. -/
inductive GoPanic where
  /-- Runtime error "assignment to entry in nil map". -/
  | assignNilMap
  /-- Runtime error "invalid memory address or nil pointer dereference". -/
  | nilDereference
  /-- Runtime error "comparing uncomparable type". -/
  | uncomparable
  /-- The call `panic(msg)` with a string. -/
  | custom (msg : GoString)
deriving DecidableEq, Repr

/-- Go `error` values the modelled code can return. -/
inductive GoError where
  /-- The value `errors.New(text)`. -/
  | errorsNew (text : GoString)
  /-- A `*json.SyntaxError` (text and offset are not modelled). -/
  | syntaxErr
  /-- A `*json.UnmarshalTypeError`; `value` is its `Value` field ("array", "number 1e999", ...). -/
  | unmarshalTypeErr (value : GoString)
  /-- A `*json.UnsupportedValueError` (a NaN or an infinite float). -/
  | unsupportedValueErr
  /-- The error of `json.Marshal` for a value nested deeper than `maxNestingDepth` levels
  ("exceeded max depth"). -/
  | depthErr
  /-- Not an error of the code: it marks a value whose encoding this model does not
  determine (`[]byte`, `time.Time` and the dynamic types gathered under
  `GoValue.other`, which `encoding/json` does encode). -/
  | unmodelled
deriving DecidableEq, Repr

/-- A pointer `*T`: nil, or the address of a variable holding a `T`. -/
inductive Ptr (α : Type) where
  | null
  | to (a : α)

/-! ## Byte strings and maps -/

/-- Go `a < b` on strings: byte-wise lexicographic order. -/
def strLt : GoString → GoString → Bool
  | [], [] => false
  | [], _ :: _ => true
  | _ :: _, [] => false
  | a :: as, b :: bs => if a < b then true else if b < a then false else strLt as bs

/-- Go `m[key]` on the entries of a map, comma-ok form. -/
def mapLookup {α : Type} : List (GoString × α) → GoString → Option α
  | [], _ => none
  | (k, v) :: rest, key => if k = key then some v else mapLookup rest key

/-- Go `m[key] = value` on the entries of an allocated map: overwrite the entry when the
key is there, add it otherwise (at its place in key order). -/
def mapInsert {α : Type} : List (GoString × α) → GoString → α → List (GoString × α)
  | [], key, value => [(key, value)]
  | (k, v) :: rest, key, value =>
    if k = key then (key, value) :: rest
    else if strLt key k then (key, value) :: (k, v) :: rest
    else (k, v) :: mapInsert rest key value

/-- Go `x == nil` for an interface value `x`. -/
def GoValue.isNil : GoValue → Bool
  | .nil => true
  | _ => false

/-! ## Basic methods -/

/-- Method `func (d DataJSON) Set(key string, value interface{})`: `d[key] = value`.
Assignment to an entry of a nil map panics. -/
def DataJSON.Set (d : DataJSON) (key : GoString) (value : GoValue) : Except GoPanic DataJSON :=
  match d with
  | none => .error .assignNilMap
  | some es => .ok (some (mapInsert es key value))

/-- Go `value, exists = d[key]`; reading a nil map gives the zero value and `false`. -/
def DataJSON.index (d : DataJSON) (key : GoString) : GoValue × Bool :=
  match d with
  | none => (.nil, false)
  | some es =>
    match mapLookup es key with
    | some v => (v, true)
    | none => (.nil, false)

/-- Method `func (d DataJSON) Get(key string) (value interface{}, exists bool)`. -/
def DataJSON.Get (d : DataJSON) (key : GoString) : GoValue × Bool :=
  match DataJSON.index d key with
  | (value, true) => (value, true)
  | (_, false) => (.nil, false)

/-- Method `func (d DataJSON) MustGet(key string) interface{}`. -/
def DataJSON.MustGet (d : DataJSON) (key : GoString) : Except GoPanic GoValue :=
  match DataJSON.Get d key with
  | (value, true) => .ok value
  | (_, false) => .error (.custom (ascii "Key \"" ++ key ++ ascii "\" does not exist"))

/-- Method `func (d DataJSON) GetString(key string) (s string)`. -/
def DataJSON.GetString (d : DataJSON) (key : GoString) : GoString :=
  match DataJSON.Get d key with
  | (val, ok) =>
    if ok && !val.isNil then
      match val with
      | .string s => s
      | _ => []
    else []

/-- Method `func (d DataJSON) GetBool(key string) (b bool)`. -/
def DataJSON.GetBool (d : DataJSON) (key : GoString) : Bool :=
  match DataJSON.Get d key with
  | (val, ok) =>
    if ok && !val.isNil then
      match val with
      | .bool b => b
      | _ => false
    else false

/-- Method `func (d DataJSON) GetInt(key string) (i int)`. -/
def DataJSON.GetInt (d : DataJSON) (key : GoString) : Int :=
  match DataJSON.Get d key with
  | (val, ok) =>
    if ok && !val.isNil then
      match val with
      | .int i => i
      | _ => 0
    else 0

/-- Method `func (d DataJSON) GetInt64(key string) (i64 int64)`. -/
def DataJSON.GetInt64 (d : DataJSON) (key : GoString) : Int :=
  match DataJSON.Get d key with
  | (val, ok) =>
    if ok && !val.isNil then
      match val with
      | .int64 i => i
      | _ => 0
    else 0

/-- The `float64` zero value `+0`. -/
def Float64.zero : Float64 := ⟨0⟩

/-- Method `func (d DataJSON) GetFloat64(key string) (f64 float64)`. -/
def DataJSON.GetFloat64 (d : DataJSON) (key : GoString) : Float64 :=
  match DataJSON.Get d key with
  | (val, ok) =>
    if ok && !val.isNil then
      match val with
      | .float64 f => f
      | _ => Float64.zero
    else Float64.zero

/-- Method `func (d DataJSON) GetTime(key string) (t time.Time)`. -/
def DataJSON.GetTime (d : DataJSON) (key : GoString) : GoTime :=
  match DataJSON.Get d key with
  | (val, ok) =>
    if ok && !val.isNil then
      match val with
      | .time t => t
      | _ => GoTime.zero
    else GoTime.zero

/-- Method `func (d DataJSON) GetDuration(key string) (duration time.Duration)`. -/
def DataJSON.GetDuration (d : DataJSON) (key : GoString) : Int :=
  match DataJSON.Get d key with
  | (val, ok) =>
    if ok && !val.isNil then
      match val with
      | .duration x => x
      | _ => 0
    else 0

/-- Method `func (d DataJSON) GetStringSlice(key string) (ss []string)`. -/
def DataJSON.GetStringSlice (d : DataJSON) (key : GoString) : Option (List GoString) :=
  match DataJSON.Get d key with
  | (val, ok) =>
    if ok && !val.isNil then
      match val with
      | .stringSlice ss => ss
      | _ => none
    else none

/-- Method `func (d DataJSON) GetStringMap(key string) (sm map[string]interface{})`. -/
def DataJSON.GetStringMap (d : DataJSON) (key : GoString) :
    Option (List (GoString × GoValue)) :=
  match DataJSON.Get d key with
  | (val, ok) =>
    if ok && !val.isNil then
      match val with
      | .stringMap m => m
      | _ => none
    else none

/-- Method `func (d DataJSON) GetStringMapString(key string) (sms map[string]string)`. -/
def DataJSON.GetStringMapString (d : DataJSON) (key : GoString) :
    Option (List (GoString × GoString)) :=
  match DataJSON.Get d key with
  | (val, ok) =>
    if ok && !val.isNil then
      match val with
      | .stringMapString m => m
      | _ => none
    else none

/-- Method `func (d DataJSON) GetStringMapStringSlice(key string) (smss map[string][]string)`. -/
def DataJSON.GetStringMapStringSlice (d : DataJSON) (key : GoString) :
    Option (List (GoString × Option (List GoString))) :=
  match DataJSON.Get d key with
  | (val, ok) =>
    if ok && !val.isNil then
      match val with
      | .stringMapStringSlice m => m
      | _ => none
    else none

/-- Method `func (d DataJSON) IsNull() bool`: `d == nil`. -/
def DataJSON.IsNull (d : DataJSON) : Bool :=
  match d with
  | none => true
  | some _ => false

/-- Go `len(d)`; the length of a nil map is 0. -/
def DataJSON.len (d : DataJSON) : Nat :=
  match d with
  | none => 0
  | some es => es.length

/-- Method `func (d DataJSON) IsEmpty() bool`. -/
def DataJSON.IsEmpty (d : DataJSON) : Bool :=
  DataJSON.IsNull d || DataJSON.len d == 0

/-! ## UTF-8 (package `unicode/utf8`) -/

/-- The rune `utf8.RuneError`, U+FFFD. -/
def runeError : Nat := 0xFFFD

/-- Continuation byte test: `0x80 ≤ b ≤ 0xBF`. -/
def isContinuation (b : Nat) : Bool := decide (0x80 ≤ b) && decide (b ≤ 0xBF)

/-- Function `utf8.DecodeRune(p)`: the rune at the head of `p` and its width in bytes;
`(RuneError, 0)` on empty input and `(RuneError, 1)` on an invalid encoding. -/
def decodeRune : List Nat → Nat × Nat
  | [] => (runeError, 0)
  | p0 :: rest =>
    if p0 < 0x80 then (p0, 1)
    else if p0 < 0xC2 then (runeError, 1)
    else if p0 < 0xE0 then
      match rest with
      | b1 :: _ =>
        if isContinuation b1 then ((p0 % 32) * 64 + b1 % 64, 2) else (runeError, 1)
      | _ => (runeError, 1)
    else if p0 < 0xF0 then
      match rest with
      | b1 :: b2 :: _ =>
        if decide ((if p0 = 0xE0 then 0xA0 else 0x80) ≤ b1) &&
            decide (b1 ≤ (if p0 = 0xED then 0x9F else 0xBF)) && isContinuation b2 then
          ((p0 % 16) * 4096 + (b1 % 64) * 64 + b2 % 64, 3)
        else (runeError, 1)
      | _ => (runeError, 1)
    else if p0 < 0xF5 then
      match rest with
      | b1 :: b2 :: b3 :: _ =>
        if decide ((if p0 = 0xF0 then 0x90 else 0x80) ≤ b1) &&
            decide (b1 ≤ (if p0 = 0xF4 then 0x8F else 0xBF)) && isContinuation b2 &&
            isContinuation b3 then
          ((p0 % 8) * 262144 + (b1 % 64) * 4096 + (b2 % 64) * 64 + b3 % 64, 4)
        else (runeError, 1)
      | _ => (runeError, 1)
    else (runeError, 1)

/-- Function `utf8.AppendRune(nil, r)` for a rune `r ≥ 0`: the UTF-8 encoding of `r`, that
of U+FFFD when `r` is a surrogate or is above U+10FFFF. -/
def encodeRune (r : Nat) : List Nat :=
  if r ≤ 0x7F then [r]
  else if r ≤ 0x7FF then [0xC0 + r / 64, 0x80 + r % 64]
  else if 0x10FFFF < r ∨ (0xD800 ≤ r ∧ r ≤ 0xDFFF) then [0xEF, 0xBF, 0xBD]
  else if r ≤ 0xFFFF then [0xE0 + r / 4096, 0x80 + r / 64 % 64, 0x80 + r % 64]
  else [0xF0 + r / 262144, 0x80 + r / 4096 % 64, 0x80 + r / 64 % 64, 0x80 + r % 64]

/-- Function `utf8.Valid(p)`, with the length of `p` as the bound of the loop. -/
def validUTF8Loop : Nat → List Nat → Bool
  | 0, p => p.isEmpty
  | fuel + 1, p =>
    match p with
    | [] => true
    | _ :: rest =>
      match decodeRune p with
      | (c, size) =>
        if c = runeError ∧ size = 1 then false
        else validUTF8Loop fuel (rest.drop (size - 1))

/-- Function `utf8.Valid(p)`. -/
def validUTF8 (p : List Nat) : Bool := validUTF8Loop p.length p

/-! ## Encoding strings (`encoding/json`, `appendString` with `escapeHTML = true`) -/

/-- The digit `hex[n]` of `"0123456789abcdef"`. -/
def hexDigit (n : Nat) : Nat := if n < 10 then 0x30 + n else 0x61 + (n - 10)

/-- Entry `htmlSafeSet[b]` for an ASCII byte: every byte from 0x20 on except the double
quote, `&`, `<`, `>` and the backslash. -/
def htmlSafe (b : Nat) : Bool :=
  decide (0x20 ≤ b) && b != 0x22 && b != 0x26 && b != 0x3C && b != 0x3E && b != 0x5C

/-- What `appendString` writes for one ASCII byte `b` (`b < 0x80`). -/
def escapeByte (b : Nat) : List Nat :=
  if htmlSafe b then [b]
  else if b = 0x5C ∨ b = 0x22 then [0x5C, b]
  else if b = 0x08 then [0x5C, 0x62]
  else if b = 0x0C then [0x5C, 0x66]
  else if b = 0x0A then [0x5C, 0x6E]
  else if b = 0x0D then [0x5C, 0x72]
  else if b = 0x09 then [0x5C, 0x74]
  else [0x5C, 0x75, 0x30, 0x30, hexDigit (b / 16), hexDigit (b % 16)]

/-- The loop of `appendString` over the bytes of `src`; each turn consumes at least one
byte, so `src.length` turns are enough. A byte that does not start a valid UTF-8
sequence is written as the replacement character U+FFFD, in its three bytes `EF BF BD`
(earlier releases of `encoding/json` wrote the escape `\ufffd`; both are read back as
U+FFFD). -/
def appendStringLoop : Nat → List Nat → List Nat
  | 0, _ => []
  | fuel + 1, src =>
    match src with
    | [] => []
    | b :: rest =>
      if b < 0x80 then escapeByte b ++ appendStringLoop fuel rest
      else
        match decodeRune src with
        | (c, size) =>
          if c = runeError ∧ size = 1 then
            [0xEF, 0xBF, 0xBD] ++ appendStringLoop fuel rest
          else if c = 0x2028 ∨ c = 0x2029 then
            [0x5C, 0x75, 0x32, 0x30, 0x32, hexDigit (c % 16)] ++
              appendStringLoop fuel (rest.drop (size - 1))
          else b :: rest.take (size - 1) ++ appendStringLoop fuel (rest.drop (size - 1))

/-- Function `appendString(dst, src, escapeHTML = true)` of `encoding/json`: the JSON string
literal for `src`, quotes included. -/
def appendString (src : GoString) : List Nat :=
  [0x22] ++ appendStringLoop src.length src ++ [0x22]

/-! ## Floating point (`float64`, package `strconv`) -/

/-- Sign bit of a `float64`. -/
def Float64.signBit (f : Float64) : Bool := f.bits / 2 ^ 63 % 2 = 1

/-- Biased exponent field of a `float64` (11 bits). -/
def Float64.expField (f : Float64) : Nat := f.bits / 2 ^ 52 % 2048

/-- Mantissa field of a `float64` (52 bits). -/
def Float64.mantField (f : Float64) : Nat := f.bits % 2 ^ 52

/-- Function `math.IsNaN(f)`. -/
def Float64.isNaN (f : Float64) : Bool := f.expField = 2047 && f.mantField != 0

/-- Function `math.IsInf(f, 0)`. -/
def Float64.isInf (f : Float64) : Bool := f.expField = 2047 && f.mantField = 0

/-- Integer significand `m` of a finite `float64` whose absolute value is `m * 2 ^ e`. -/
def Float64.significand (f : Float64) : Nat :=
  if f.expField = 0 then f.mantField else 2 ^ 52 + f.mantField

/-- Binary exponent `e` of a finite `float64` whose absolute value is `m * 2 ^ e`. -/
def Float64.exponent (f : Float64) : Int :=
  if f.expField = 0 then -1074 else (f.expField : Int) - 1075

/-- Go `a == b` on `float64`: a NaN equals nothing, `+0 == -0`, otherwise equal bits. -/
def Float64.eq (a b : Float64) : Bool :=
  if a.isNaN || b.isNaN then false
  else if a.bits % 2 ^ 63 = 0 ∧ b.bits % 2 ^ 63 = 0 then true
  else a.bits % 2 ^ 64 = b.bits % 2 ^ 64

/-- Number of digits of `n` in base `base`, at most `fuel`; `1` for `n < base`. -/
def digitCount (base : Nat) : Nat → Nat → Nat
  | 0, _ => 0
  | fuel + 1, n => if n < base then 1 else 1 + digitCount base fuel (n / base)

/-- Quotient, remainder and divisor of `num / (den * 2 ^ e2)`, for an integer `e2`. -/
def scaledDiv (num den : Nat) (e2 : Int) : Nat × Nat × Nat :=
  match e2 with
  | Int.ofNat k => (num / (den * 2 ^ k), num % (den * 2 ^ k), den * 2 ^ k)
  | Int.negSucc k => (num * 2 ^ (k + 1) / den, num * 2 ^ (k + 1) % den, den)

/-- The `float64` nearest to `±num / den` (`den > 0`), ties to the even significand;
`none` when the rounded value is out of range (`strconv.ErrRange`, result `±Inf`). -/
def roundFloat64 (neg : Bool) (num den : Nat) : Option Float64 :=
  let sign := if neg then 2 ^ 63 else 0
  if num = 0 then some ⟨sign⟩
  else
    let e0 : Int := (digitCount 2 num num : Int) - (digitCount 2 den den : Int) - 52
    let e1 : Int := if (scaledDiv num den e0).1 < 2 ^ 52 then e0 - 1 else e0
    let e2 : Int := if e1 < -1074 then -1074 else e1
    match scaledDiv num den e2 with
    | (q, r, d) =>
      let q' := if d < 2 * r ∨ (2 * r = d ∧ q % 2 = 1) then q + 1 else q
      let bits := (e2 + 1074).toNat * 2 ^ 52 + q'
      if bits < 2047 * 2 ^ 52 then some ⟨sign + bits⟩ else none

/-- The `float64` nearest to `±mant * 10 ^ exp10`, or `none` when out of range. -/
def decimalToFloat64 (neg : Bool) (mant : Nat) (exp10 : Int) : Option Float64 :=
  match exp10 with
  | Int.ofNat k => roundFloat64 neg (mant * 10 ^ k) 1
  | Int.negSucc k => roundFloat64 neg mant (10 ^ (k + 1))

/-- ASCII decimal digit test. -/
def isDigit (c : Nat) : Bool := decide (0x30 ≤ c) && decide (c ≤ 0x39)

/-- Value of a run of decimal digits, most significant first. -/
def digitsValue (ds : List Nat) : Nat := ds.foldl (fun acc c => acc * 10 + (c - 0x30)) 0

/-- Exponent digits as `strconv` reads them: `if e < 10000 { e = e*10 + digit }`. -/
def exponentValue (ds : List Nat) : Nat :=
  ds.foldl (fun e c => if e < 10000 then e * 10 + (c - 0x30) else e) 0

/-- Function `strconv.ParseFloat(s, 64)` on a number literal of JSON syntax
(`-? int frac? exp?`): `none` stands for the range error. -/
def parseFloat64 (s : List Nat) : Option Float64 :=
  let neg := s.head? = some 0x2D
  let s1 := if neg then s.drop 1 else s
  let intDigits := s1.takeWhile isDigit
  let s2 := s1.dropWhile isDigit
  let fracDigits := if s2.head? = some 0x2E then (s2.drop 1).takeWhile isDigit else []
  let s3 := if s2.head? = some 0x2E then (s2.drop 1).dropWhile isDigit else s2
  let s4 := s3.drop 1
  let eneg := s4.head? = some 0x2D
  let expDigits := if s4.head? = some 0x2D ∨ s4.head? = some 0x2B then s4.drop 1 else s4
  let e : Int := if eneg then -(exponentValue expDigits : Int) else (exponentValue expDigits : Int)
  decimalToFloat64 neg (digitsValue (intDigits ++ fracDigits)) (e - (fracDigits.length : Int))

/-- ASCII decimal digits of `n`, most significant first, through at most `fuel` divisions. -/
def decimalDigits : Nat → Nat → List Nat → List Nat
  | 0, _, acc => acc
  | fuel + 1, n, acc =>
    if n < 10 then (0x30 + n) :: acc
    else decimalDigits fuel (n / 10) ((0x30 + n % 10) :: acc)

/-- ASCII decimal digits of `n`. -/
def natToDecimal (n : Nat) : List Nat := decimalDigits (n + 1) n []

/-- Search for the shortest decimal `d * 10 ^ k` that `strconv.ParseFloat` reads back as
the positive finite value `target = num / den`: from the decimal exponent `k` downwards,
the candidates are the two multiples of `10 ^ k` around the value; the first exponent
at which one of them is read back as `target` gives the result, the closer of the two
when both are (the even one on a tie). `none` when the bound on the number of exponents
tried is reached. -/
def shortestSearch (target : Float64) (num den : Nat) : Nat → Int → Option (Nat × Int)
  | 0, _ => none
  | fuel + 1, k =>
    let qrd : Nat × Nat × Nat :=
      match k with
      | Int.ofNat j => (num / (den * 10 ^ j), num % (den * 10 ^ j), den * 10 ^ j)
      | Int.negSucc j => (num * 10 ^ (j + 1) / den, num * 10 ^ (j + 1) % den, den)
    match qrd with
    | (lo, r, d) =>
      let okLo : Bool := lo != 0 && decimalToFloat64 false lo k == some target
      let okHi : Bool := decimalToFloat64 false (lo + 1) k == some target
      if okLo && okHi then
        (if 2 * r < d ∨ (2 * r = d ∧ lo % 2 = 0) then some (lo, k) else some (lo + 1, k))
      else if okLo then some (lo, k)
      else if okHi then some (lo + 1, k)
      else shortestSearch target num den fuel (k - 1)

/-- The shortest decimal of a finite non-zero `float64`: digits `d` and exponent `k` with
`|f|` the `float64` nearest to `d * 10 ^ k` (the digits that `strconv.FormatFloat` with
precision `-1` produces; a search, not a port of its digit generation). The search starts
at an exponent `k` with `10 ^ k > |f|` and tries 20 exponents: 17 significant digits
tell any two `float64` apart, so it ends within them; the exact decimal expansion of
`|f|` stands as the result should it not. -/
def Float64.shortest (f : Float64) : Nat × Int :=
  let m := f.significand
  let abs : Float64 := ⟨f.bits % 2 ^ 63⟩
  match f.exponent with
  | Int.ofNat e =>
    (shortestSearch abs (m * 2 ^ e) 1 20 (digitCount 10 (m * 2 ^ e) (m * 2 ^ e))).getD
      (m * 2 ^ e, 0)
  | Int.negSucc e =>
    (if 2 ^ (e + 1) ≤ m then
      shortestSearch abs m (2 ^ (e + 1)) 20
        (digitCount 10 (m / 2 ^ (e + 1)) (m / 2 ^ (e + 1)))
    else
      shortestSearch abs m (2 ^ (e + 1)) 20
        (2 - (digitCount 10 (2 ^ (e + 1) / m) (2 ^ (e + 1) / m) : Int))).getD
      (m * 5 ^ (e + 1), Int.negSucc e)

/-- Layout `%e` of `strconv` for digits `digs` and decimal point position `dp`
(value `0.digs * 10 ^ dp`): `d.ddde±xx`, the exponent with at least two digits. -/
def formatE (digs : List Nat) (dp : Int) : List Nat :=
  let mantissa :=
    match digs with
    | [] => [0x30]
    | [d0] => [d0]
    | d0 :: rest => d0 :: 0x2E :: rest
  let exp : Int := if digs = [] then 0 else dp - 1
  let sign := if exp < 0 then 0x2D else 0x2B
  let e := exp.natAbs
  mantissa ++ [0x65, sign] ++ (if e < 10 then [0x30, 0x30 + e] else natToDecimal e)

/-- Layout `%f` of `strconv` with the shortest precision, for non-empty digits `digs` and
decimal point position `dp`. -/
def formatF (digs : List Nat) (dp : Int) : List Nat :=
  match dp with
  | Int.ofNat 0 => [0x30, 0x2E] ++ digs
  | Int.ofNat (p + 1) =>
    if p + 1 < digs.length then digs.take (p + 1) ++ [0x2E] ++ digs.drop (p + 1)
    else digs ++ List.replicate (p + 1 - digs.length) 0x30
  | Int.negSucc p => [0x30, 0x2E] ++ List.replicate (p + 1) 0x30 ++ digs

/-- The clean-up of `e-09` to `e-9` that `encoding/json` applies to the `%e` layout. -/
def cleanExponent (b : List Nat) : List Nat :=
  match b.reverse with
  | x :: 0x30 :: s :: 0x65 :: rest =>
    if s = 0x2D ∨ s = 0x2B then (x :: s :: 0x65 :: rest).reverse else b
  | _ => b

/-- The `float64` encoder of `encoding/json` on a finite value: `strconv.AppendFloat`
with format `'f'`, or `'e'` when `|f| < 1e-6` or `|f| ≥ 1e21`, precision `-1`. -/
def formatFloat64 (f : Float64) : List Nat :=
  let sign := if f.signBit then [0x2D] else []
  let abs := f.bits % 2 ^ 63
  if abs = 0 then sign ++ [0x30]
  else
    match f.shortest with
    | (d, k) =>
      let digs := natToDecimal d
      let dp : Int := (digs.length : Int) + k
      if abs < 0x3EB0C6F7A0B5ED8D ∨ 0x444B1AE4D6E2EF50 ≤ abs then
        sign ++ cleanExponent (formatE digs dp)
      else sign ++ formatF digs dp

/-! ## Reading JSON text (`encoding/json`: scanner and `unquote`) -/

/-- A JSON document as the scanner of `encoding/json` delimits it: number literals are
kept as text, string literals are unquoted, object members are in document order. -/
inductive JSON where
  | null
  | bool (b : Bool)
  | number (lit : List Nat)
  | string (s : GoString)
  | array (xs : List JSON)
  | object (members : List (GoString × JSON))

/-- The constant `maxNestingDepth` of `encoding/json`. -/
def maxNestingDepth : Nat := 10000

/-- JSON white space: space, tab, carriage return, line feed. -/
def isSpace (c : Nat) : Bool := c = 0x20 || c = 0x09 || c = 0x0D || c = 0x0A

/-- Drop leading white space. -/
def skipSpace : List Nat → List Nat
  | [] => []
  | c :: rest => if isSpace c then skipSpace rest else c :: rest

/-- Value of a hexadecimal digit, either case. -/
def hexValue (c : Nat) : Option Nat :=
  if 0x30 ≤ c ∧ c ≤ 0x39 then some (c - 0x30)
  else if 0x61 ≤ c ∧ c ≤ 0x66 then some (c - 0x61 + 10)
  else if 0x41 ≤ c ∧ c ≤ 0x46 then some (c - 0x41 + 10)
  else none

/-- Function `getu4`: the rune of a `\uXXXX` escape at the head of the input, and the
rest of the input. -/
def getu4 : List Nat → Option (Nat × List Nat)
  | 0x5C :: 0x75 :: h1 :: h2 :: h3 :: h4 :: rest =>
    match hexValue h1, hexValue h2, hexValue h3, hexValue h4 with
    | some a, some b, some c, some d => some (a * 4096 + b * 256 + c * 16 + d, rest)
    | _, _, _, _ => none
  | _ => none

/-- Function `utf16.DecodeRune(r1, r2)`: the rune of a surrogate pair, U+FFFD when the
pair is not valid. -/
def utf16DecodeRune (r1 r2 : Nat) : Nat :=
  if 0xD800 ≤ r1 ∧ r1 < 0xDC00 ∧ 0xDC00 ≤ r2 ∧ r2 < 0xE000 then
    (r1 - 0xD800) * 1024 + (r2 - 0xDC00) + 0x10000
  else runeError

/-- The body of a string literal, after the opening quote: the unquoted string (as
`unquote` builds it) and the input after the closing quote. `none` when the scanner
rejects the literal. Each turn consumes at least one byte. -/
def scanString : Nat → List Nat → Option (GoString × List Nat)
  | 0, _ => none
  | fuel + 1, input =>
    match input with
    | [] => none
    | c :: rest =>
      if c = 0x22 then some ([], rest)
      else if c = 0x5C then
        match rest with
        | [] => none
        | e :: rest' =>
          if e = 0x75 then
            match getu4 input with
            | none => none
            | some (rr, after) =>
              if 0xD800 ≤ rr ∧ rr < 0xE000 then
                match getu4 after with
                | some (rr1, after') =>
                  if utf16DecodeRune rr rr1 ≠ runeError then
                    (scanString fuel after').map
                      (fun p => (encodeRune (utf16DecodeRune rr rr1) ++ p.1, p.2))
                  else
                    (scanString fuel after).map (fun p => (encodeRune runeError ++ p.1, p.2))
                | none =>
                  (scanString fuel after).map (fun p => (encodeRune runeError ++ p.1, p.2))
              else (scanString fuel after).map (fun p => (encodeRune rr ++ p.1, p.2))
          else
            let simple : Option Nat :=
              if e = 0x22 ∨ e = 0x5C ∨ e = 0x2F then some e
              else if e = 0x62 then some 0x08
              else if e = 0x66 then some 0x0C
              else if e = 0x6E then some 0x0A
              else if e = 0x72 then some 0x0D
              else if e = 0x74 then some 0x09
              else none
            match simple with
            | none => none
            | some b => (scanString fuel rest').map (fun p => (b :: p.1, p.2))
      else if c < 0x20 then none
      else if c < 0x80 then (scanString fuel rest).map (fun p => (c :: p.1, p.2))
      else
        match decodeRune input with
        | (rr, size) =>
          (scanString fuel (rest.drop (size - 1))).map (fun p => (encodeRune rr ++ p.1, p.2))

/-- A number literal without sign at the head of the input (`(0 | [1-9][0-9]*) (. [0-9]+)?
([eE] [+-]? [0-9]+)?`), as the scanner delimits it, and the rest of the input. -/
def scanUnsigned (input : List Nat) : Option (List Nat × List Nat) :=
  match input with
  | [] => none
  | c :: rest1 =>
    if !isDigit c then none
    else
      let intPart := if c = 0x30 then [c] else c :: rest1.takeWhile isDigit
      let s2 := if c = 0x30 then rest1 else rest1.dropWhile isDigit
      let fracOk : Bool :=
        match s2 with
        | 0x2E :: d :: _ => isDigit d
        | 0x2E :: _ => false
        | _ => true
      let fracPart :=
        match s2 with
        | 0x2E :: rest2 => 0x2E :: rest2.takeWhile isDigit
        | _ => []
      let s3 :=
        match s2 with
        | 0x2E :: rest2 => rest2.dropWhile isDigit
        | _ => s2
      if !fracOk then none
      else
        match s3 with
        | e :: rest3 =>
          if e = 0x65 ∨ e = 0x45 then
            let esign := if rest3.head? = some 0x2D ∨ rest3.head? = some 0x2B
              then rest3.take 1 else []
            let s4 := if rest3.head? = some 0x2D ∨ rest3.head? = some 0x2B
              then rest3.drop 1 else rest3
            match s4 with
            | d :: _ =>
              if isDigit d then
                some (intPart ++ fracPart ++ [e] ++ esign ++ s4.takeWhile isDigit,
                  s4.dropWhile isDigit)
              else none
            | [] => none
          else some (intPart ++ fracPart, s3)
        | [] => some (intPart ++ fracPart, s3)

/-- A number literal at the head of the input (an optional minus sign, then a literal
without sign), as the scanner delimits it, and the rest of the input. -/
def scanNumber (input : List Nat) : Option (List Nat × List Nat) :=
  match input with
  | 0x2D :: rest => (scanUnsigned rest).map (fun p => (0x2D :: p.1, p.2))
  | _ => scanUnsigned input

/-- The input after the literal `lit`, when the input starts with it. -/
def expectLiteral : List Nat → List Nat → Option (List Nat)
  | [], input => some input
  | _ :: _, [] => none
  | c :: lit, x :: input => if c = x then expectLiteral lit input else none

mutual
/-- One JSON value at the head of the input (no leading white space), inside `depth`
open arrays and objects; returns the value and the input after it. The first argument
bounds the number of nested calls. -/
def parseValue : Nat → Nat → List Nat → Except GoError (JSON × List Nat)
  | 0, _, _ => .error .syntaxErr
  | fuel + 1, depth, input =>
    match input with
    | [] => .error .syntaxErr
    | c :: rest =>
      if c = 0x7B then
        if maxNestingDepth < depth + 1 then .error .syntaxErr
        else
          match skipSpace rest with
          | 0x7D :: rest' => .ok (.object [], rest')
          | rest' =>
            match parseMembers fuel (depth + 1) rest' with
            | .ok (ms, rest'') => .ok (.object ms, rest'')
            | .error e => .error e
      else if c = 0x5B then
        if maxNestingDepth < depth + 1 then .error .syntaxErr
        else
          match skipSpace rest with
          | 0x5D :: rest' => .ok (.array [], rest')
          | rest' =>
            match parseElements fuel (depth + 1) rest' with
            | .ok (xs, rest'') => .ok (.array xs, rest'')
            | .error e => .error e
      else if c = 0x22 then
        match scanString rest.length rest with
        | some (s, rest') => .ok (.string s, rest')
        | none => .error .syntaxErr
      else if c = 0x74 then
        match expectLiteral [0x72, 0x75, 0x65] rest with
        | some rest' => .ok (.bool true, rest')
        | none => .error .syntaxErr
      else if c = 0x66 then
        match expectLiteral [0x61, 0x6C, 0x73, 0x65] rest with
        | some rest' => .ok (.bool false, rest')
        | none => .error .syntaxErr
      else if c = 0x6E then
        match expectLiteral [0x75, 0x6C, 0x6C] rest with
        | some rest' => .ok (.null, rest')
        | none => .error .syntaxErr
      else
        match scanNumber input with
        | some (lit, rest') => .ok (.number lit, rest')
        | none => .error .syntaxErr
/-- The elements of an array from the first byte of an element on, up to and including
the closing bracket. -/
def parseElements : Nat → Nat → List Nat → Except GoError (List JSON × List Nat)
  | 0, _, _ => .error .syntaxErr
  | fuel + 1, depth, input =>
    match parseValue fuel depth input with
    | .error e => .error e
    | .ok (v, rest) =>
      match skipSpace rest with
      | c :: rest' =>
        if c = 0x2C then
          match parseElements fuel depth (skipSpace rest') with
          | .ok (vs, rest'') => .ok (v :: vs, rest'')
          | .error e => .error e
        else if c = 0x5D then .ok ([v], rest')
        else .error .syntaxErr
      | [] => .error .syntaxErr
/-- The members of an object from the opening quote of a key on, up to and including
the closing brace. -/
def parseMembers : Nat → Nat → List Nat → Except GoError (List (GoString × JSON) × List Nat)
  | 0, _, _ => .error .syntaxErr
  | fuel + 1, depth, input =>
    match input with
    | 0x22 :: afterQuote =>
      match scanString afterQuote.length afterQuote with
      | none => .error .syntaxErr
      | some (key, afterKey) =>
        match skipSpace afterKey with
        | 0x3A :: afterColon =>
          match parseValue fuel depth (skipSpace afterColon) with
          | .error e => .error e
          | .ok (v, rest) =>
            match skipSpace rest with
            | c :: rest' =>
              if c = 0x2C then
                match parseMembers fuel depth (skipSpace rest') with
                | .ok (ms, rest'') => .ok ((key, v) :: ms, rest'')
                | .error e => .error e
              else if c = 0x7D then .ok ([(key, v)], rest')
              else .error .syntaxErr
            | [] => .error .syntaxErr
        | _ => .error .syntaxErr
    | _ => .error .syntaxErr
end

/-- The check `checkValid(data)` together with the delimiting of the document: white
space, one value, white space, end of input. Two nested calls per byte are enough. -/
def parseJSON (data : List Nat) : Except GoError JSON :=
  match parseValue (2 * data.length + 2) 0 (skipSpace data) with
  | .error e => .error e
  | .ok (v, rest) =>
    match skipSpace rest with
    | [] => .ok v
    | _ :: _ => .error .syntaxErr

mutual
/-- The value `encoding/json` stores in an `interface{}` for a JSON value
(`valueInterface`): nil, `bool`, `float64`, `string`, `[]interface{}` or
`map[string]interface{}`. A number that `strconv.ParseFloat` rejects is an
`UnmarshalTypeError`. -/
def JSON.toInterface : JSON → Except GoError GoValue
  | .null => .ok .nil
  | .bool b => .ok (.bool b)
  | .number lit =>
    match parseFloat64 lit with
    | some f => .ok (.float64 f)
    | none => .error (.unmarshalTypeErr (ascii "number " ++ lit))
  | .string s => .ok (.string s)
  | .array xs =>
    match JSON.toInterfaceList xs with
    | .ok vs => .ok (.slice (some vs))
    | .error e => .error e
  | .object ms =>
    match JSON.toInterfaceMap [] ms with
    | .ok es => .ok (.stringMap (some es))
    | .error e => .error e
/-- The elements of `arrayInterface`, in order. -/
def JSON.toInterfaceList : List JSON → Except GoError (List GoValue)
  | [] => .ok []
  | x :: xs =>
    match JSON.toInterface x with
    | .error e => .error e
    | .ok v =>
      match JSON.toInterfaceList xs with
      | .ok vs => .ok (v :: vs)
      | .error e => .error e
/-- The loop of `objectInterface` / `object`: `m[key] = value` for each member in document
order, starting from the entries `acc`. -/
def JSON.toInterfaceMap : List (GoString × GoValue) → List (GoString × JSON) →
    Except GoError (List (GoString × GoValue))
  | acc, [] => .ok acc
  | acc, (k, x) :: ms =>
    match JSON.toInterface x with
    | .error e => .error e
    | .ok v => JSON.toInterfaceMap (mapInsert acc k v) ms
end

/-- Function `json.Unmarshal(data, &ref)` for a variable `ref` of type
`map[string]interface{}` holding an allocated map with entries `ref`: the new value of the
variable, or the error. A top-level object is decoded into the map, a top-level `null`
sets the variable to the nil map, any other top-level value is an `UnmarshalTypeError`. -/
def jsonUnmarshal (data : List Nat) (ref : List (GoString × GoValue)) :
    Except GoError (Option (List (GoString × GoValue))) :=
  match parseJSON data with
  | .error e => .error e
  | .ok doc =>
    match doc with
    | .object ms =>
      match JSON.toInterfaceMap ref ms with
      | .ok es => .ok (some es)
      | .error e => .error e
    | .null => .ok none
    | .array _ => .error (.unmarshalTypeErr (ascii "array"))
    | .bool _ => .error (.unmarshalTypeErr (ascii "bool"))
    | .string _ => .error (.unmarshalTypeErr (ascii "string"))
    | .number _ => .error (.unmarshalTypeErr (ascii "number"))

/-- Method `func (d *DataJSON) UnmarshalJSON(data []byte) error`. The receiver is a
pointer; the outcome is the pointer with the bag it points at afterwards, and the
returned error. -/
def DataJSON.UnmarshalJSON (d : Ptr DataJSON) (data : List Nat) :
    Except GoPanic (Ptr DataJSON × Option GoError) :=
  match jsonUnmarshal data [] with
  | .error err => .ok (d, some err)
  | .ok ref =>
    match d with
    | .null => .error .nilDereference
    | .to _ => .ok (.to ref, none)

/-! ## Writing JSON text (`encoding/json`: `Marshal`) -/

/-- Decimal text of a Go integer. -/
def intToDecimal (i : Int) : List Nat :=
  match i with
  | Int.ofNat n => natToDecimal n
  | Int.negSucc n => 0x2D :: natToDecimal (n + 1)

/-- Byte sequences joined by commas. -/
def joinComma : List (List Nat) → List Nat
  | [] => []
  | [x] => x
  | x :: y :: rest => x ++ 0x2C :: joinComma (y :: rest)

/-- The encoding of a `[]string`: `null` for the nil slice. -/
def marshalStringSlice : Option (List GoString) → List Nat
  | none => ascii "null"
  | some ss => [0x5B] ++ joinComma (ss.map appendString) ++ [0x5D]

mutual
/-- The encoding `encoding/json` writes for an `interface{}` value. For the dynamic types
`[]byte` and `time.Time` and the types gathered under `GoValue.other` the code writes
a text (base64, RFC 3339, the text of the type) that this model does not determine:
the result `.error .unmodelled` marks them, it is not an error of the code. -/
def marshalValue : GoValue → Except GoError (List Nat)
  | .nil => .ok (ascii "null")
  | .bool b => .ok (if b then ascii "true" else ascii "false")
  | .int i => .ok (intToDecimal i)
  | .int64 i => .ok (intToDecimal i)
  | .duration i => .ok (intToDecimal i)
  | .float64 f =>
    if f.isNaN || f.isInf then .error .unsupportedValueErr else .ok (formatFloat64 f)
  | .string s => .ok (appendString s)
  | .stringSlice ss => .ok (marshalStringSlice ss)
  | .slice none => .ok (ascii "null")
  | .slice (some xs) =>
    match marshalElements xs with
    | .ok encs => .ok ([0x5B] ++ joinComma encs ++ [0x5D])
    | .error e => .error e
  | .stringMap none => .ok (ascii "null")
  | .stringMap (some es) =>
    match marshalMembers es with
    | .ok encs => .ok ([0x7B] ++ joinComma encs ++ [0x7D])
    | .error e => .error e
  | .stringMapString none => .ok (ascii "null")
  | .stringMapString (some es) =>
    .ok ([0x7B] ++ joinComma (es.map (fun e => appendString e.1 ++ 0x3A :: appendString e.2))
      ++ [0x7D])
  | .stringMapStringSlice none => .ok (ascii "null")
  | .stringMapStringSlice (some es) =>
    .ok ([0x7B] ++
      joinComma (es.map (fun e => appendString e.1 ++ 0x3A :: marshalStringSlice e.2))
      ++ [0x7D])
  | .bytes _ => .error .unmodelled
  | .time _ => .error .unmodelled
  | .other _ _ => .error .unmodelled
/-- The encodings of the elements of a slice, in order. -/
def marshalElements : List GoValue → Except GoError (List (List Nat))
  | [] => .ok []
  | x :: xs =>
    match marshalValue x with
    | .error e => .error e
    | .ok enc =>
      match marshalElements xs with
      | .ok encs => .ok (enc :: encs)
      | .error e => .error e
/-- The encodings `"key":value` of the entries of a map, in key order. -/
def marshalMembers : List (GoString × GoValue) → Except GoError (List (List Nat))
  | [] => .ok []
  | (k, x) :: es =>
    match marshalValue x with
    | .error e => .error e
    | .ok enc =>
      match marshalMembers es with
      | .ok encs => .ok ((appendString k ++ 0x3A :: enc) :: encs)
      | .error e => .error e
end

mutual
/-- Nesting depth of a value: the number of sequences and mappings around its innermost
value, itself included; the number of levels of brackets in its encoding. -/
def GoValue.depth : GoValue → Nat
  | .slice (some xs) => 1 + GoValue.depthList xs
  | .stringMap (some es) => 1 + GoValue.depthMembers es
  | .stringSlice (some _) => 1
  | .stringMapString (some _) => 1
  | .stringMapStringSlice (some es) => if es.any (fun e => e.2.isSome) then 2 else 1
  | _ => 0
/-- Greatest depth of an element. -/
def GoValue.depthList : List GoValue → Nat
  | [] => 0
  | x :: xs => max (GoValue.depth x) (GoValue.depthList xs)
/-- Greatest depth of the value of an entry. -/
def GoValue.depthMembers : List (GoString × GoValue) → Nat
  | [] => 0
  | (_, x) :: es => max (GoValue.depth x) (GoValue.depthMembers es)
end

/-- Function `json.Marshal(v)` for `v` of type `map[string]interface{}`. The encoder
refuses a value nested deeper than `maxNestingDepth` levels; the model tests the depth
before it encodes. -/
def jsonMarshal (m : Option (List (GoString × GoValue))) : Except GoError (List Nat) :=
  if maxNestingDepth < GoValue.depth (.stringMap m) then .error .depthErr
  else marshalValue (.stringMap m)

/-- Method `func (d DataJSON) MarshalJSON() ([]byte, error)`. -/
def DataJSON.MarshalJSON (d : DataJSON) : Except GoError (List Nat) :=
  jsonMarshal d

/-- Method `func (d *DataJSON) Scan(value interface{}) error`. The receiver is a pointer;
the outcome is the pointer with the bag it points at afterwards, and the returned
error. -/
def DataJSON.Scan (d : Ptr DataJSON) (value : GoValue) :
    Except GoPanic (Ptr DataJSON × Option GoError) :=
  if value.isNil then
    match d with
    | .null => .error .nilDereference
    | .to _ => .ok (.to none, none)
  else
    match d with
    -- `if d == nil { *d = DataJSON{} }`: the store goes through the nil pointer
    | .null => .error .nilDereference
    | .to b =>
      match value with
      | .bytes v => DataJSON.UnmarshalJSON (.to b) v
      | .string _ => .ok (.to b, none)
      | _ => .ok (.to b, some (.errorsNew (ascii "invalid scan source")))

/-- Method `func (d DataJSON) Value() (driver.Value, error)`. -/
def DataJSON.Value (d : DataJSON) : Except GoError (List Nat) :=
  DataJSON.MarshalJSON d

/-- Method `func (d DataJSON) String() string`. -/
def DataJSON.String (d : DataJSON) : GoString :=
  match DataJSON.MarshalJSON d with
  | .error _ => []
  | .ok val => val

/-- Go `a == b` on interface values: `false` when the dynamic types differ, the
comparison of the values when the type is comparable, a run-time panic when both hold
the same uncomparable type (slice or map). -/
def GoValue.interfaceEq : GoValue → GoValue → Except GoPanic Bool
  | .nil, .nil => .ok true
  | .bool a, .bool b => .ok (a == b)
  | .int a, .int b => .ok (a == b)
  | .int64 a, .int64 b => .ok (a == b)
  | .float64 a, .float64 b => .ok (Float64.eq a b)
  | .string a, .string b => .ok (a == b)
  | .time a, .time b => .ok (a == b)
  | .duration a, .duration b => .ok (a == b)
  | .bytes _, .bytes _ => .error .uncomparable
  | .stringSlice _, .stringSlice _ => .error .uncomparable
  | .slice _, .slice _ => .error .uncomparable
  | .stringMap _, .stringMap _ => .error .uncomparable
  | .stringMapString _, .stringMapString _ => .error .uncomparable
  | .stringMapStringSlice _, .stringMapStringSlice _ => .error .uncomparable
  | .other t a, .other u b => .ok (t == u && a == b)
  | _, _ => .ok false

/-- The loop `for k, v := range d` of `Equals` over the entries of `d`, in the order of
the list. Go visits the entries of a map in an unspecified order; the outcome depends
on the order only when one comparison panics and another one makes the loop return
`false`. -/
def DataJSON.equalsLoop (meta : DataJSON) : List (GoString × GoValue) → Except GoPanic Bool
  | [] => .ok true
  | (k, v) :: rest =>
    match DataJSON.index meta k with
    | (v2, true) =>
      match GoValue.interfaceEq v v2 with
      | .error p => .error p
      | .ok true => DataJSON.equalsLoop meta rest
      | .ok false => .ok false
    | (_, false) => DataJSON.equalsLoop meta rest

/-- Method `func (d DataJSON) Equals(meta DataJSON) bool`. The test `&d == &meta` compares
the addresses of two distinct variables (the receiver and the parameter), so it is
false. -/
def DataJSON.Equals (d meta : DataJSON) : Except GoPanic Bool :=
  if false then .ok true
  else if DataJSON.len d != DataJSON.len meta then .ok false
  else
    match d with
    | none => .ok true
    | some es => DataJSON.equalsLoop meta es

/-! ## Notions used to state the properties -/

/-- The member of an object that decides the value of `key`: the last one with that name
in document order (each member is stored with `m[key] = value`, a later one overwriting
an earlier one). -/
def lastMember : List (GoString × JSON) → GoString → Option JSON
  | [], _ => none
  | (k, x) :: ms, key =>
    match lastMember ms key with
    | some y => some y
    | none => if k = key then some x else none

/-- Keys strictly increasing (byte-wise): the entries of a map, without a repeated key,
in the order in which `encoding/json` writes them. -/
def keysSorted {α : Type} : List (GoString × α) → Bool
  | [] => true
  | [_] => true
  | e1 :: e2 :: rest => strLt e1.1 e2.1 && keysSorted (e2 :: rest)

/-- A `float64` that is neither a NaN nor an infinity, given by a 64-bit pattern. -/
def Float64.isFinite (f : Float64) : Bool :=
  decide (f.bits < 2 ^ 64) && !f.isNaN && !f.isInf

mutual
/-- The values the JSON data model names: nil, booleans, `float64` numbers, strings,
`[]interface{}` sequences and `map[string]interface{}` mappings of such values. -/
def GoValue.isJSONKind : GoValue → Bool
  | .nil => true
  | .bool _ => true
  | .float64 _ => true
  | .string _ => true
  | .slice none => true
  | .slice (some xs) => GoValue.allJSONKind xs
  | .stringMap none => true
  | .stringMap (some es) => GoValue.allMembersJSONKind es
  | _ => false
/-- Every element is of JSON kind. -/
def GoValue.allJSONKind : List GoValue → Bool
  | [] => true
  | x :: xs => GoValue.isJSONKind x && GoValue.allJSONKind xs
/-- Every entry has a value of JSON kind. -/
def GoValue.allMembersJSONKind : List (GoString × GoValue) → Bool
  | [] => true
  | (_, x) :: es => GoValue.isJSONKind x && GoValue.allMembersJSONKind es
end

mutual
/-- The values that `encoding/json` writes and reads back unchanged: nil, booleans, finite
`float64` numbers, strings that are valid UTF-8, allocated `[]interface{}` sequences
and allocated `map[string]interface{}` mappings with valid UTF-8 keys, of such values. -/
def GoValue.isPlainJSON : GoValue → Bool
  | .nil => true
  | .bool _ => true
  | .float64 f => f.isFinite
  | .string s => validUTF8 s
  | .slice (some xs) => GoValue.allPlainJSON xs
  | .stringMap (some es) => keysSorted es && GoValue.allMembersPlainJSON es
  | _ => false
/-- Every element is plain JSON. -/
def GoValue.allPlainJSON : List GoValue → Bool
  | [] => true
  | x :: xs => GoValue.isPlainJSON x && GoValue.allPlainJSON xs
/-- Every entry has a valid UTF-8 key and a plain JSON value. -/
def GoValue.allMembersPlainJSON : List (GoString × GoValue) → Bool
  | [] => true
  | (k, x) :: es => validUTF8 k && GoValue.isPlainJSON x && GoValue.allMembersPlainJSON es
end

/-- The text of a number literal made of a sign, integer digits, fraction digits (none
when empty) and an exponent (its sign and digits), as `strconv` lays a number out. -/
def numberText (neg : Bool) (intDigits fracDigits : List Nat)
    (exp : Option (Bool × List Nat)) : List Nat :=
  (if neg then [0x2D] else []) ++ intDigits ++
    (match fracDigits with
      | [] => []
      | _ :: _ => 0x2E :: fracDigits) ++
    (match exp with
      | none => []
      | some (eneg, ds) => 0x65 :: (if eneg then 0x2D else 0x2B) :: ds)

/-- The input ends here or goes on with a comma, a closing bracket or a closing brace:
what follows a value inside a document that `encoding/json` wrote. -/
def delimited : List Nat → Bool
  | [] => true
  | c :: _ => c = 0x2C || c = 0x5D || c = 0x7D

/-- The text starts with a byte that is neither white space nor a closing bracket: the
first byte of a value that `encoding/json` wrote. -/
def startsValue : List Nat → Bool
  | [] => false
  | c :: _ => !isSpace c && c != 0x5D

/-- The `float64` value 1. -/
def Float64.one : Float64 := ⟨0x3FF0000000000000⟩

/-- The `float64` value 5. -/
def Float64.five : Float64 := ⟨0x4014000000000000⟩

/-- A `float64` NaN. -/
def Float64.nan : Float64 := ⟨0x7FF8000000000001⟩

/-- The text `{"x":5}`. -/
def docX5 : List Nat := ascii "\x7b\"x\":5\x7d"

/-- The text `{"a":1,"b":"x","c":true}`. -/
def docABC : List Nat := ascii "\x7b\"a\":1,\"b\":\"x\",\"c\":true\x7d"

/-- The entries of a bag, as `for k, v := range d` visits them; a nil map has none. -/
def DataJSON.entries (d : DataJSON) : List (GoString × GoValue) :=
  match d with
  | none => []
  | some es => es

/-- The scalar values: nil, booleans, numbers (`int`, `int64`, `float64`) and strings. -/
def GoValue.isScalar : GoValue → Bool
  | .nil => true
  | .bool _ => true
  | .int _ => true
  | .int64 _ => true
  | .float64 _ => true
  | .string _ => true
  | _ => false

/-- The text `{"x":[1]}`. -/
def docNested : List Nat := ascii "\x7b\"x\":[1]\x7d"

/-- Equality of two scalar values as Go's `==` defines it on dynamically typed values:
the same dynamic type and the same value; two `float64` are equal when neither is a
NaN and they are the same number (the same 64 bits, or `+0` and `-0`). It is `false`
when one of the two values is not a scalar. -/
def GoValue.sameScalar : GoValue → GoValue → Bool
  | .nil, .nil => true
  | .bool a, .bool b => decide (a = b)
  | .int a, .int b => decide (a = b)
  | .int64 a, .int64 b => decide (a = b)
  | .string a, .string b => decide (a = b)
  | .float64 f, .float64 g =>
    !f.isNaN && !g.isNaN &&
      (decide (f.bits % 2 ^ 64 = g.bits % 2 ^ 64) ||
        (decide (f.bits % 2 ^ 63 = 0) && decide (g.bits % 2 ^ 63 = 0)))
  | _, _ => false

/-! # Theorems -/

/-! ## Maps: lookup after insert -/

theorem mapLookup_mapInsert_same {α : Type} (es : List (GoString × α)) (k : GoString) (v : α) :
    mapLookup (mapInsert es k v) k = some v := by
  induction es with
  | nil => simp [mapInsert, mapLookup]
  | cons e rest ih =>
    obtain ⟨k0, v0⟩ := e
    by_cases h : k0 = k
    · simp [mapInsert, mapLookup, h]
    · by_cases hlt : strLt k k0 = true
      · simp [mapInsert, mapLookup, h, hlt]
      · simp [mapInsert, mapLookup, h, hlt, ih]

theorem mapLookup_mapInsert_other {α : Type} (es : List (GoString × α)) (k k' : GoString)
    (v : α) (hne : k' ≠ k) : mapLookup (mapInsert es k v) k' = mapLookup es k' := by
  induction es with
  | nil => simp [mapInsert, mapLookup, Ne.symm hne]
  | cons e rest ih =>
    obtain ⟨k0, v0⟩ := e
    by_cases h : k0 = k
    · subst h
      simp [mapInsert, mapLookup, Ne.symm hne]
    · by_cases hlt : strLt k k0 = true
      · simp [mapInsert, mapLookup, h, hlt, Ne.symm hne]
      · by_cases h0 : k0 = k'
        · subst h0
          simp [mapInsert, mapLookup, h, hlt]
        · simp [mapInsert, mapLookup, h, hlt, h0, ih]

/-! ## Set and Get -/

/-- C1: on an allocated bag, `Set(k, v)` returns normally, `Get(k)` then returns `(v, true)`,
and `Get` of every other key returns what it returned before the `Set`. -/
theorem DataJSON.get_after_set (d : DataJSON) (k : GoString) (v : GoValue)
    (halloc : DataJSON.IsNull d = false) :
    ∃ d', DataJSON.Set d k v = .ok d' ∧ DataJSON.IsNull d' = false ∧
      DataJSON.Get d' k = (v, true) ∧
      ∀ k', k' ≠ k → DataJSON.Get d' k' = DataJSON.Get d k' := by
  cases d with
  | none => simp [DataJSON.IsNull] at halloc
  | some es =>
    refine ⟨some (mapInsert es k v), rfl, rfl, ?_, ?_⟩
    · simp [DataJSON.Get, DataJSON.index, mapLookup_mapInsert_same]
    · intro k' hne
      simp [DataJSON.Get, DataJSON.index, mapLookup_mapInsert_other es k k' v hne]

/-- Witness of C1 on the bag with the single entry `"a" = 1`: setting `"b"` to `true`. -/
theorem DataJSON.get_after_set_witness :
    DataJSON.IsNull (some [(ascii "a", GoValue.int 1)]) = false ∧
    ∃ d', DataJSON.Set (some [(ascii "a", GoValue.int 1)]) (ascii "b") (.bool true) = .ok d' ∧
      DataJSON.IsNull d' = false ∧
      DataJSON.Get d' (ascii "b") = (.bool true, true) ∧
      ∀ k', k' ≠ ascii "b" →
        DataJSON.Get d' k' = DataJSON.Get (some [(ascii "a", GoValue.int 1)]) k' :=
  ⟨rfl, DataJSON.get_after_set (some [(ascii "a", GoValue.int 1)]) (ascii "b") (.bool true) rfl⟩

/-! ## Typed accessors -/

theorem getInt_zero_of_not_int (d : DataJSON) (key : GoString)
    (h : ∀ x, DataJSON.Get d key ≠ (.int x, true)) : DataJSON.GetInt d key = 0 := by
  simp only [DataJSON.GetInt]
  rcases hg : DataJSON.Get d key with ⟨val, ok⟩
  rw [hg] at h
  cases ok <;> cases val <;> simp_all [GoValue.isNil]

theorem getInt64_zero_of_not_int64 (d : DataJSON) (key : GoString)
    (h : ∀ x, DataJSON.Get d key ≠ (.int64 x, true)) : DataJSON.GetInt64 d key = 0 := by
  simp only [DataJSON.GetInt64]
  rcases hg : DataJSON.Get d key with ⟨val, ok⟩
  rw [hg] at h
  cases ok <;> cases val <;> simp_all [GoValue.isNil]

theorem getFloat64_of_get (d : DataJSON) (key : GoString) (f : Float64)
    (h : DataJSON.Get d key = (.float64 f, true)) : DataJSON.GetFloat64 d key = f := by
  simp [DataJSON.GetFloat64, h, GoValue.isNil]

/-- C2: each of the eleven typed accessors returns the stored value when `Get` finds the key
with a value whose dynamic type is the accessor's target type, and the zero value of that
type in every other case (key absent, nil value, value of another dynamic type); the
accessors are total functions, so none of them fails. On the empty bag and on the nil bag
`GetStringSlice("missing")` is the nil slice. -/
theorem DataJSON.typed_accessors (d : DataJSON) (key : GoString) :
    ((∀ x, DataJSON.Get d key = (.string x, true) → DataJSON.GetString d key = x) ∧
      ((∀ x, DataJSON.Get d key ≠ (.string x, true)) → DataJSON.GetString d key = [])) ∧
    ((∀ x, DataJSON.Get d key = (.bool x, true) → DataJSON.GetBool d key = x) ∧
      ((∀ x, DataJSON.Get d key ≠ (.bool x, true)) → DataJSON.GetBool d key = false)) ∧
    ((∀ x, DataJSON.Get d key = (.int x, true) → DataJSON.GetInt d key = x) ∧
      ((∀ x, DataJSON.Get d key ≠ (.int x, true)) → DataJSON.GetInt d key = 0)) ∧
    ((∀ x, DataJSON.Get d key = (.int64 x, true) → DataJSON.GetInt64 d key = x) ∧
      ((∀ x, DataJSON.Get d key ≠ (.int64 x, true)) → DataJSON.GetInt64 d key = 0)) ∧
    ((∀ x, DataJSON.Get d key = (.float64 x, true) → DataJSON.GetFloat64 d key = x) ∧
      ((∀ x, DataJSON.Get d key ≠ (.float64 x, true)) →
        DataJSON.GetFloat64 d key = Float64.zero)) ∧
    ((∀ x, DataJSON.Get d key = (.time x, true) → DataJSON.GetTime d key = x) ∧
      ((∀ x, DataJSON.Get d key ≠ (.time x, true)) → DataJSON.GetTime d key = GoTime.zero)) ∧
    ((∀ x, DataJSON.Get d key = (.duration x, true) → DataJSON.GetDuration d key = x) ∧
      ((∀ x, DataJSON.Get d key ≠ (.duration x, true)) → DataJSON.GetDuration d key = 0)) ∧
    ((∀ x, DataJSON.Get d key = (.stringSlice x, true) → DataJSON.GetStringSlice d key = x) ∧
      ((∀ x, DataJSON.Get d key ≠ (.stringSlice x, true)) →
        DataJSON.GetStringSlice d key = none)) ∧
    ((∀ x, DataJSON.Get d key = (.stringMap x, true) → DataJSON.GetStringMap d key = x) ∧
      ((∀ x, DataJSON.Get d key ≠ (.stringMap x, true)) →
        DataJSON.GetStringMap d key = none)) ∧
    ((∀ x, DataJSON.Get d key = (.stringMapString x, true) →
        DataJSON.GetStringMapString d key = x) ∧
      ((∀ x, DataJSON.Get d key ≠ (.stringMapString x, true)) →
        DataJSON.GetStringMapString d key = none)) ∧
    ((∀ x, DataJSON.Get d key = (.stringMapStringSlice x, true) →
        DataJSON.GetStringMapStringSlice d key = x) ∧
      ((∀ x, DataJSON.Get d key ≠ (.stringMapStringSlice x, true)) →
        DataJSON.GetStringMapStringSlice d key = none)) ∧
    DataJSON.GetStringSlice (some []) (ascii "missing") = none ∧
    DataJSON.GetStringSlice none (ascii "missing") = none := by
  refine ⟨⟨?_, ?_⟩, ⟨?_, ?_⟩, ⟨?_, ?_⟩, ⟨?_, ?_⟩, ⟨?_, ?_⟩, ⟨?_, ?_⟩, ⟨?_, ?_⟩, ⟨?_, ?_⟩,
    ⟨?_, ?_⟩, ⟨?_, ?_⟩, ⟨?_, ?_⟩, rfl, rfl⟩
  all_goals
    first
    | (intro x hx
       simp [DataJSON.GetString, DataJSON.GetBool, DataJSON.GetInt, DataJSON.GetInt64,
         DataJSON.GetFloat64, DataJSON.GetTime, DataJSON.GetDuration, DataJSON.GetStringSlice,
         DataJSON.GetStringMap, DataJSON.GetStringMapString, DataJSON.GetStringMapStringSlice,
         hx, GoValue.isNil])
    | (intro hx
       simp only [DataJSON.GetString, DataJSON.GetBool, DataJSON.GetInt, DataJSON.GetInt64,
         DataJSON.GetFloat64, DataJSON.GetTime, DataJSON.GetDuration, DataJSON.GetStringSlice,
         DataJSON.GetStringMap, DataJSON.GetStringMapString, DataJSON.GetStringMapStringSlice]
       rcases hg : DataJSON.Get d key with ⟨val, ok⟩
       rw [hg] at hx
       cases ok <;> cases val <;> simp_all [GoValue.isNil])

/-! ## Decoding -/

theorem toInterfaceMap_lookup (ms : List (GoString × JSON)) :
    ∀ (acc es : List (GoString × GoValue)), JSON.toInterfaceMap acc ms = .ok es →
    ∀ k, (lastMember ms k = none → mapLookup es k = mapLookup acc k) ∧
      (∀ x, lastMember ms k = some x →
        ∃ v, JSON.toInterface x = .ok v ∧ mapLookup es k = some v) := by
  induction ms with
  | nil =>
    intro acc es h k
    simp [JSON.toInterfaceMap] at h
    subst h
    simp [lastMember]
  | cons m ms ih =>
    obtain ⟨k0, x0⟩ := m
    intro acc es h k
    rw [JSON.toInterfaceMap] at h
    cases hx : JSON.toInterface x0 with
    | error e => simp [hx] at h
    | ok v0 =>
      simp only [hx] at h
      obtain ⟨ih1, ih2⟩ := ih (mapInsert acc k0 v0) es h k
      cases hl : lastMember ms k with
      | some y =>
        refine ⟨by simp [lastMember, hl], ?_⟩
        intro x hxl
        simp [lastMember, hl] at hxl
        subst hxl
        exact ih2 y hl
      | none =>
        by_cases hk : k0 = k
        · subst hk
          refine ⟨by simp [lastMember, hl], ?_⟩
          intro x hxl
          simp [lastMember, hl] at hxl
          subst hxl
          exact ⟨v0, hx, by rw [ih1 hl, mapLookup_mapInsert_same]⟩
        · refine ⟨?_, by simp [lastMember, hl, hk]⟩
          intro _
          rw [ih1 hl, mapLookup_mapInsert_other acc k0 k v0 (Ne.symm hk)]

theorem lastMember_none_iff (ms : List (GoString × JSON)) (k : GoString) :
    lastMember ms k = none ↔ k ∉ ms.map Prod.fst := by
  induction ms with
  | nil => simp [lastMember]
  | cons m ms ih =>
    obtain ⟨k0, x0⟩ := m
    cases hl : lastMember ms k with
    | some y =>
      have : ¬ (k ∉ ms.map Prod.fst) := fun hn => by simp [ih.mpr hn] at hl
      simp only [lastMember, hl]
      simp only [List.map_cons, List.mem_cons, not_or]
      constructor
      · intro h; cases h
      · intro h; exact absurd h.2 this
    | none =>
      have hnot := ih.mp hl
      by_cases hk : k0 = k
      · simp [lastMember, hl, hk]
      · simp only [lastMember, hl, hk, if_false, List.map_cons, List.mem_cons, not_or, true_iff]
        exact ⟨Ne.symm hk, hnot⟩

theorem toInterface_not_int (x : JSON) (v : GoValue) (h : JSON.toInterface x = .ok v) :
    (∀ i, v ≠ .int i) ∧ (∀ i, v ≠ .int64 i) := by
  cases x with
  | null => simp [JSON.toInterface] at h; subst h; simp
  | bool b => simp [JSON.toInterface] at h; subst h; simp
  | number lit =>
    simp only [JSON.toInterface] at h
    split at h
    · simp at h; subst h; simp
    · simp at h
  | string s => simp [JSON.toInterface] at h; subst h; simp
  | array xs =>
    simp only [JSON.toInterface] at h
    split at h
    · simp at h; subst h; simp
    · simp at h
  | object ms =>
    simp only [JSON.toInterface] at h
    split at h
    · simp at h; subst h; simp
    · simp at h

theorem unmarshal_ok_cases (b b' : DataJSON) (data : List Nat)
    (hok : DataJSON.UnmarshalJSON (.to b) data = .ok (.to b', none)) :
    jsonUnmarshal data [] = .ok b' := by
  unfold DataJSON.UnmarshalJSON at hok
  cases hj : jsonUnmarshal data [] with
  | error e => simp [hj] at hok
  | ok ref =>
    simp [hj] at hok
    rw [hok]

theorem jsonUnmarshal_ok_shape (data : List Nat) (b' : DataJSON)
    (h : jsonUnmarshal data [] = .ok b') :
    (parseJSON data = .ok .null ∧ b' = none) ∨
    (∃ ms es, parseJSON data = .ok (.object ms) ∧ JSON.toInterfaceMap [] ms = .ok es ∧
      b' = some es) := by
  unfold jsonUnmarshal at h
  cases hp : parseJSON data with
  | error e => simp [hp] at h
  | ok doc =>
    cases doc with
    | null => simp [hp] at h; exact Or.inl ⟨rfl, h.symm⟩
    | object ms =>
      simp only [hp] at h
      cases hm : JSON.toInterfaceMap [] ms with
      | error e => simp [hm] at h
      | ok es =>
        simp [hm] at h
        exact Or.inr ⟨ms, es, rfl, hm, h.symm⟩
    | bool _ => simp [hp] at h
    | number _ => simp [hp] at h
    | string _ => simp [hp] at h
    | array _ => simp [hp] at h

theorem unmarshal_member_lookup (b b' : DataJSON) (data : List Nat)
    (ms : List (GoString × JSON))
    (hdoc : parseJSON data = .ok (.object ms))
    (hok : DataJSON.UnmarshalJSON (.to b) data = .ok (.to b', none)) :
    ∀ k x, lastMember ms k = some x →
      ∃ v, JSON.toInterface x = .ok v ∧ DataJSON.Get b' k = (v, true) := by
  have hj := unmarshal_ok_cases b b' data hok
  rcases jsonUnmarshal_ok_shape data b' hj with ⟨hn, _⟩ | ⟨ms', es, hp, hm, hb⟩
  · rw [hdoc] at hn; cases hn
  · rw [hdoc] at hp
    injection hp with hp
    injection hp with hp
    subst hp
    subst hb
    have hl := toInterfaceMap_lookup ms [] es hm
    intro k x hx
    obtain ⟨v, hv, hlook⟩ := (hl k).2 x hx
    exact ⟨v, hv, by simp [DataJSON.Get, DataJSON.index, hlook]⟩

/-- C5: when the input is a well-formed JSON object and `UnmarshalJSON` (or `Scan` of the
same bytes) succeeds, the bag is allocated, its keys are exactly the member names of the
object, each key maps to the decoded value of the (last) member of that name, and the
result is the same whatever the bag held before: nothing of the prior contents is kept. -/
theorem DataJSON.unmarshal_replaces (b b' : DataJSON) (data : List Nat)
    (ms : List (GoString × JSON))
    (hdoc : parseJSON data = .ok (.object ms))
    (hok : DataJSON.UnmarshalJSON (.to b) data = .ok (.to b', none)) :
    DataJSON.IsNull b' = false ∧
    (∀ k, (DataJSON.Get b' k).2 = true ↔ k ∈ ms.map Prod.fst) ∧
    (∀ k x, lastMember ms k = some x →
      ∃ v, JSON.toInterface x = .ok v ∧ DataJSON.Get b' k = (v, true)) ∧
    (∀ k, k ∉ ms.map Prod.fst → DataJSON.Get b' k = (.nil, false)) ∧
    DataJSON.Scan (.to b) (.bytes data) = .ok (.to b', none) ∧
    (∀ b0, DataJSON.UnmarshalJSON (.to b0) data = .ok (.to b', none)) := by
  have hj := unmarshal_ok_cases b b' data hok
  rcases jsonUnmarshal_ok_shape data b' hj with ⟨hn, _⟩ | ⟨ms', es, hp, hm, hb⟩
  · rw [hdoc] at hn; cases hn
  · rw [hdoc] at hp
    injection hp with hp
    injection hp with hp
    subst hp
    subst hb
    have hl := toInterfaceMap_lookup ms [] es hm
    have hsome : ∀ k x, lastMember ms k = some x →
        ∃ v, JSON.toInterface x = .ok v ∧ DataJSON.Get (some es) k = (v, true) := by
      intro k x hx
      obtain ⟨v, hv, hlook⟩ := (hl k).2 x hx
      exact ⟨v, hv, by simp [DataJSON.Get, DataJSON.index, hlook]⟩
    have hnone : ∀ k, k ∉ ms.map Prod.fst → DataJSON.Get (some es) k = (.nil, false) := by
      intro k hk
      have := (hl k).1 ((lastMember_none_iff ms k).mpr hk)
      simp [DataJSON.Get, DataJSON.index, this, mapLookup]
    refine ⟨rfl, ?_, hsome, hnone, ?_, ?_⟩
    · intro k
      constructor
      · intro hget
        by_contra hk
        rw [hnone k hk] at hget
        cases hget
      · intro hk
        cases hlm : lastMember ms k with
        | none => exact absurd hk ((lastMember_none_iff ms k).mp hlm)
        | some x =>
          obtain ⟨v, _, hg⟩ := hsome k x hlm
          rw [hg]
    · simp [DataJSON.Scan, GoValue.isNil, hok]
    · intro b0
      simp [DataJSON.UnmarshalJSON, hj]

/-- Witness of C5: decoding `{"x":5}` into a bag that held `"old" = true`. -/
theorem DataJSON.unmarshal_replaces_witness :
    DataJSON.Get (some [(ascii "x", .float64 Float64.five)]) (ascii "old") =
      (.nil, false) ∧
    ∀ k, (DataJSON.Get (some [(ascii "x", .float64 Float64.five)]) k).2 = true ↔
      k ∈ [ascii "x"] :=
  ⟨rfl, (DataJSON.unmarshal_replaces (some [(ascii "old", .bool true)])
    (some [(ascii "x", .float64 Float64.five)]) docX5
    [(ascii "x", .number (ascii "5"))] rfl rfl).2.1⟩

/-- C6: in a bag produced by a successful `UnmarshalJSON` every number member is stored as
the `float64` that `strconv.ParseFloat` gives for its text, so `GetFloat64` returns it,
and `GetInt` and `GetInt64` return 0 for every key. Decoding `{"a":1,"b":"x","c":true}`
gives `Get("a") = (float64 1, true)`, `GetString("b") = "x"`, `GetBool("c") = true` and
`GetInt("a") = 0`. -/
theorem DataJSON.unmarshal_numbers_float64 (b b' : DataJSON) (data : List Nat)
    (hok : DataJSON.UnmarshalJSON (.to b) data = .ok (.to b', none)) :
    (∀ k, DataJSON.GetInt b' k = 0 ∧ DataJSON.GetInt64 b' k = 0) ∧
    (∀ ms k lit, parseJSON data = .ok (.object ms) → lastMember ms k = some (.number lit) →
      ∃ f, parseFloat64 lit = some f ∧ DataJSON.Get b' k = (.float64 f, true) ∧
        DataJSON.GetFloat64 b' k = f) ∧
    (∃ d, DataJSON.UnmarshalJSON (.to none) docABC = .ok (.to d, none) ∧
      DataJSON.Get d (ascii "a") = (.float64 Float64.one, true) ∧
      DataJSON.GetString d (ascii "b") = ascii "x" ∧
      DataJSON.GetBool d (ascii "c") = true ∧
      DataJSON.GetInt d (ascii "a") = 0) := by
  have hj := unmarshal_ok_cases b b' data hok
  refine ⟨?_, ?_, ?_⟩
  · intro k
    rcases jsonUnmarshal_ok_shape data b' hj with ⟨_, hb⟩ | ⟨ms, es, hp, hm, hb⟩
    · subst hb
      exact ⟨rfl, rfl⟩
    · subst hb
      have hl := toInterfaceMap_lookup ms [] es hm k
      cases hlm : lastMember ms k with
      | none =>
        have hlook := hl.1 hlm
        have hget : DataJSON.Get (some es) k = (.nil, false) := by
          simp [DataJSON.Get, DataJSON.index, hlook, mapLookup]
        exact ⟨getInt_zero_of_not_int _ k (fun x hx => by rw [hget] at hx; cases hx),
          getInt64_zero_of_not_int64 _ k (fun x hx => by rw [hget] at hx; cases hx)⟩
      | some x =>
        obtain ⟨v, hv, hlook⟩ := hl.2 x hlm
        have hget : DataJSON.Get (some es) k = (v, true) := by
          simp [DataJSON.Get, DataJSON.index, hlook]
        have hni := toInterface_not_int x v hv
        refine ⟨getInt_zero_of_not_int _ k (fun i hx => ?_),
          getInt64_zero_of_not_int64 _ k (fun i hx => ?_)⟩
        · rw [hget] at hx
          injection hx with h1 _
          exact hni.1 i h1
        · rw [hget] at hx
          injection hx with h1 _
          exact hni.2 i h1
  · intro ms k lit hp hlm
    obtain ⟨v, hconv, hget⟩ := unmarshal_member_lookup b b' data ms hp hok k (.number lit) hlm
    simp only [JSON.toInterface] at hconv
    cases hf : parseFloat64 lit with
    | none => simp [hf] at hconv
    | some f =>
      simp [hf] at hconv
      subst hconv
      exact ⟨f, rfl, hget, getFloat64_of_get b' k f hget⟩
  · exact ⟨some [(ascii "a", .float64 Float64.one), (ascii "b", .string (ascii "x")),
      (ascii "c", .bool true)], rfl, rfl, rfl, rfl, rfl⟩

/-- Witness of C6 on the text `{"x":5}`, an integral number in the source text. -/
theorem DataJSON.unmarshal_numbers_float64_witness :
    DataJSON.UnmarshalJSON (.to (some [])) docX5 =
      .ok (.to (some [(ascii "x", .float64 Float64.five)]), none) ∧
    ∀ k, DataJSON.GetInt (some [(ascii "x", .float64 Float64.five)]) k = 0 ∧
      DataJSON.GetInt64 (some [(ascii "x", .float64 Float64.five)]) k = 0 :=
  ⟨rfl, (DataJSON.unmarshal_numbers_float64 (some [])
    (some [(ascii "x", .float64 Float64.five)]) docX5 rfl).1⟩

/-! ## Value and Scan -/

/-- C7 (counterexample): `Value()` on the nil bag returns the text `null`, which is not
the text `{}` that it returns on the allocated empty bag. -/
theorem DataJSON.value_nil_is_not_empty_object :
    DataJSON.Value none = .ok (ascii "null") ∧
    DataJSON.Value none ≠ .ok (ascii "\x7b\x7d") ∧
    DataJSON.Value none ≠ DataJSON.Value (some []) := by
  refine ⟨rfl, ?_, ?_⟩
  · intro h
    have h2 : (Except.ok (ascii "null") : Except GoError (List Nat)) =
        .ok (ascii "\x7b\x7d") := h
    injection h2 with h2
    exact absurd h2 (by decide)
  · intro h
    have h2 : (Except.ok (ascii "null") : Except GoError (List Nat)) =
        .ok (ascii "\x7b\x7d") := h
    injection h2 with h2
    exact absurd h2 (by decide)

/-- C7 (amended): `Value()` on the nil bag succeeds and returns the JSON text `null`, the
encoding `json.Marshal` gives a nil map; on the allocated empty bag it returns `{}`. -/
theorem DataJSON.value_nil_is_null :
    DataJSON.Value none = .ok [0x6E, 0x75, 0x6C, 0x6C] ∧
    DataJSON.Value (some []) = .ok [0x7B, 0x7D] := by
  exact ⟨rfl, rfl⟩

/-- C8: on every bag `Scan(nil)` returns no error and leaves the bag nil, so that `IsNull()`
and `IsEmpty()` are true afterwards. -/
theorem DataJSON.scan_nil (b : DataJSON) :
    ∃ b', DataJSON.Scan (.to b) .nil = .ok (.to b', none) ∧
      DataJSON.IsNull b' = true ∧ DataJSON.IsEmpty b' = true :=
  ⟨none, rfl, rfl, rfl⟩

/-- C9: on every bag and for every string `s`, `Scan(s)` returns no error and leaves the bag
exactly as it was. -/
theorem DataJSON.scan_string_noop (b : DataJSON) (s : GoString) :
    DataJSON.Scan (.to b) (.string s) = .ok (.to b, none) := by
  simp [DataJSON.Scan, GoValue.isNil]

/-- C10: `Scan` returns normally; it returns an error exactly when the raw value is a byte
sequence on which `UnmarshalJSON` returns an error, or is neither nil, a byte sequence
nor a string; and on a byte sequence its outcome is that of `UnmarshalJSON`. -/
theorem DataJSON.scan_error_iff (b : DataJSON) (raw : GoValue) :
    (∃ p e, DataJSON.Scan (.to b) raw = .ok (p, e) ∧
      (e ≠ none ↔
        ((∃ data p' err, raw = .bytes data ∧
            DataJSON.UnmarshalJSON (.to b) data = .ok (p', some err)) ∨
          (raw ≠ .nil ∧ (∀ data, raw ≠ .bytes data) ∧ ∀ s, raw ≠ .string s)))) ∧
    (∀ data, raw = .bytes data →
      DataJSON.Scan (.to b) raw = DataJSON.UnmarshalJSON (.to b) data) := by
  have hum : ∀ data, ∃ p e, DataJSON.UnmarshalJSON (.to b) data = .ok (p, e) := by
    intro data
    unfold DataJSON.UnmarshalJSON
    cases jsonUnmarshal data [] with
    | error e => exact ⟨_, _, rfl⟩
    | ok ref => exact ⟨_, _, rfl⟩
  refine ⟨?_, ?_⟩
  · cases raw with
    | bytes data =>
      obtain ⟨p, e, hpe⟩ := hum data
      refine ⟨p, e, by simp [DataJSON.Scan, GoValue.isNil, hpe], ?_⟩
      constructor
      · intro he
        cases e with
        | none => exact absurd rfl he
        | some err => exact Or.inl ⟨data, p, err, rfl, hpe⟩
      · rintro (⟨data', p', err, hd, hu⟩ | ⟨_, h, _⟩)
        · injection hd with hd
          subst hd
          rw [hpe] at hu
          injection hu with hu
          injection hu with _ hu
          rw [hu]
          simp
        · exact absurd rfl (h data)
    | nil => exact ⟨.to none, none, rfl, by simp⟩
    | string s => exact ⟨.to b, none, by simp [DataJSON.Scan, GoValue.isNil], by simp⟩
    | _ =>
      exact ⟨.to b, some (.errorsNew (ascii "invalid scan source")),
        by simp [DataJSON.Scan, GoValue.isNil], by simp⟩
  · intro data hd
    subst hd
    simp [DataJSON.Scan, GoValue.isNil]

/-- Witness of C10: an integer raw value is an error. -/
theorem DataJSON.scan_error_iff_witness :
    DataJSON.Scan (.to (some [])) (.int64 7) =
      .ok (.to (some []), some (.errorsNew (ascii "invalid scan source"))) ∧
    ∀ data, GoValue.bytes (ascii "[1,2,3]") = .bytes data →
      DataJSON.Scan (.to (some [])) (.bytes (ascii "[1,2,3]")) =
        DataJSON.UnmarshalJSON (.to (some [])) data :=
  ⟨rfl, (DataJSON.scan_error_iff (some []) (.bytes (ascii "[1,2,3]"))).2⟩

/-! ## Decimal digits -/

theorem isDigit_iff (c : Nat) : isDigit c = true ↔ 0x30 ≤ c ∧ c ≤ 0x39 := by
  simp [isDigit]

theorem takeWhile_digits_append (ds rest : List Nat) (hds : ∀ c ∈ ds, isDigit c = true)
    (hrest : ∀ c, rest.head? = some c → isDigit c = false) :
    (ds ++ rest).takeWhile isDigit = ds ∧ (ds ++ rest).dropWhile isDigit = rest := by
  induction ds with
  | nil =>
    cases rest with
    | nil => simp
    | cons c rest' =>
      have := hrest c rfl
      simp [List.takeWhile, List.dropWhile, this]
  | cons d ds ih =>
    have hd := hds d (List.mem_cons_self _ _)
    have ih' := ih (fun c hc => hds c (List.mem_cons_of_mem _ hc))
    simp [List.takeWhile, List.dropWhile, hd, ih'.1, ih'.2]

theorem digitsValue_foldl (ds : List Nat) (a : Nat) :
    ds.foldl (fun acc c => acc * 10 + (c - 0x30)) a =
      a * 10 ^ ds.length + digitsValue ds := by
  induction ds generalizing a with
  | nil => simp [digitsValue]
  | cons d ds ih =>
    simp only [List.foldl_cons, List.length_cons, digitsValue]
    rw [ih, ih (0 * 10 + (d - 48))]
    ring

theorem digitsValue_append (xs ys : List Nat) :
    digitsValue (xs ++ ys) = digitsValue xs * 10 ^ ys.length + digitsValue ys := by
  unfold digitsValue
  rw [List.foldl_append, digitsValue_foldl]
  rfl

theorem digitsValue_cons (d : Nat) (ds : List Nat) :
    digitsValue (d :: ds) = (d - 0x30) * 10 ^ ds.length + digitsValue ds := by
  have := digitsValue_append [d] ds
  simpa [digitsValue] using this

theorem digitsValue_replicate_zero (n : Nat) : digitsValue (List.replicate n 0x30) = 0 := by
  induction n with
  | zero => rfl
  | succ n ih => rw [List.replicate_succ, digitsValue_cons, ih]; simp

theorem decimalDigits_spec (fuel : Nat) : ∀ (n : Nat) (acc : List Nat), n < fuel →
    (∀ c ∈ acc, isDigit c = true) →
    (∀ c ∈ decimalDigits fuel n acc, isDigit c = true) ∧
    digitsValue (decimalDigits fuel n acc) = n * 10 ^ acc.length + digitsValue acc ∧
    (0 < n → (decimalDigits fuel n acc).head? ≠ some 0x30) ∧
    (decimalDigits fuel n acc).length ≥ acc.length + 1 ∧
    (n < 10 → decimalDigits fuel n acc = (0x30 + n) :: acc) := by
  induction fuel with
  | zero => intro n acc h; omega
  | succ fuel ih =>
    intro n acc hfuel hacc
    by_cases hn : n < 10
    · simp only [decimalDigits, hn, if_true]
      refine ⟨?_, ?_, ?_, ?_, ?_⟩
      · intro c hc
        rcases List.mem_cons.mp hc with h | h
        · subst h; simp [isDigit]; omega
        · exact hacc c h
      · rw [digitsValue_cons]; simp
      · intro hpos; simp; omega
      · simp
      · simp
    · simp only [decimalDigits, hn, if_false]
      have hacc' : ∀ c ∈ (0x30 + n % 10) :: acc, isDigit c = true := by
        intro c hc
        rcases List.mem_cons.mp hc with h | h
        · subst h; simp [isDigit]; omega
        · exact hacc c h
      obtain ⟨h1, h2, h3, h4, _⟩ := ih (n / 10) ((0x30 + n % 10) :: acc) (by omega) hacc'
      refine ⟨h1, ?_, ?_, ?_, ?_⟩
      · rw [h2, digitsValue_cons]
        simp only [List.length_cons, pow_succ]
        have : 48 + n % 10 - 48 = n % 10 := by omega
        rw [this]
        have hdiv := Nat.div_add_mod n 10
        have hring : n / 10 * (10 ^ acc.length * 10) + (n % 10 * 10 ^ acc.length +
            digitsValue acc) = (10 * (n / 10) + n % 10) * 10 ^ acc.length +
            digitsValue acc := by ring
        rw [hring, hdiv]
      · intro _; exact h3 (by omega)
      · have h4' := h4
        simp only [List.length_cons] at h4'
        omega
      · intro h
        first
          | exact absurd h hn
          | exact h.elim

theorem natToDecimal_digits (n : Nat) : ∀ c ∈ natToDecimal n, isDigit c = true :=
  (decimalDigits_spec (n + 1) n [] (by omega) (by simp)).1

theorem natToDecimal_value (n : Nat) : digitsValue (natToDecimal n) = n := by
  have := (decimalDigits_spec (n + 1) n [] (by omega) (by simp)).2.1
  simpa [digitsValue, natToDecimal] using this

theorem natToDecimal_head (n : Nat) (h : 0 < n) : (natToDecimal n).head? ≠ some 0x30 :=
  (decimalDigits_spec (n + 1) n [] (by omega) (by simp)).2.2.1 h

theorem natToDecimal_ne_nil (n : Nat) : natToDecimal n ≠ [] := by
  have := (decimalDigits_spec (n + 1) n [] (by omega) (by simp)).2.2.2.1
  intro h
  rw [natToDecimal] at h
  rw [h] at this
  simp at this

theorem natToDecimal_small (n : Nat) (h : n < 10) : natToDecimal n = [0x30 + n] :=
  (decimalDigits_spec (n + 1) n [] (by omega) (by simp)).2.2.2.2 h

/-! ## Number literals: what the scanner and `ParseFloat` see -/

theorem delimited_head (rest : List Nat) (h : delimited rest = true) (c : Nat)
    (hc : rest.head? = some c) : c = 0x2C ∨ c = 0x5D ∨ c = 0x7D := by
  cases rest with
  | nil => simp at hc
  | cons x xs =>
    simp at hc
    subst hc
    simpa [delimited, or_assoc] using h

theorem exponentValue_foldl (ds : List Nat) (hds : ∀ c ∈ ds, isDigit c = true) (a : Nat)
    (h : a * 10 ^ ds.length + digitsValue ds < 10000) :
    ds.foldl (fun e c => if e < 10000 then e * 10 + (c - 0x30) else e) a =
      a * 10 ^ ds.length + digitsValue ds := by
  induction ds generalizing a with
  | nil => simp [digitsValue]
  | cons d ds ih =>
    rw [digitsValue_cons] at h
    simp only [List.length_cons, pow_succ] at h
    have hpos : 0 < 10 ^ ds.length := Nat.pow_pos (by norm_num)
    have ha : a < 10000 := by
      by_contra hcon
      have : 10000 * (10 ^ ds.length * 10) ≤ a * (10 ^ ds.length * 10) :=
        Nat.mul_le_mul_right _ (by omega)
      have h10 : 10000 ≤ 10000 * (10 ^ ds.length * 10) := by
        have : 1 ≤ 10 ^ ds.length * 10 := by omega
        nlinarith
      omega
    simp only [List.foldl_cons, ha, if_true]
    rw [ih (fun c hc => hds c (List.mem_cons_of_mem _ hc))]
    · rw [digitsValue_cons]
      simp only [List.length_cons, pow_succ]
      ring
    · have : (a * 10 + (d - 48)) * 10 ^ ds.length + digitsValue ds =
          a * (10 ^ ds.length * 10) + ((d - 48) * 10 ^ ds.length + digitsValue ds) := by ring
      omega

theorem exponentValue_eq (ds : List Nat) (hds : ∀ c ∈ ds, isDigit c = true)
    (h : digitsValue ds < 10000) : exponentValue ds = digitsValue ds := by
  unfold exponentValue
  rw [exponentValue_foldl ds hds 0 (by simpa using h)]
  simp


/-! ## Number literals: what `ParseFloat` reads -/

theorem parseFloat64_numberText (neg : Bool) (ints fracs : List Nat)
    (exp : Option (Bool × List Nat))
    (hne : ints ≠ []) (hints : ∀ c ∈ ints, isDigit c = true)
    (hfracs : ∀ c ∈ fracs, isDigit c = true) :
    parseFloat64 (numberText neg ints fracs exp) =
      decimalToFloat64 neg (digitsValue (ints ++ fracs))
        ((match exp with
          | none => (0 : Int)
          | some (eneg, ds) =>
            if eneg then -(exponentValue ds : Int) else (exponentValue ds : Int)) -
          (fracs.length : Int)) := by
  obtain ⟨i0, ints', rfl⟩ := List.exists_cons_of_ne_nil hne
  have hi0 : isDigit i0 = true := hints i0 (List.mem_cons_self _ _)
  have hi0' : ¬ (i0 = 0x2D) := by
    intro h; rw [h] at hi0; simp [isDigit] at hi0
  have hE : isDigit 0x65 = false := by decide
  have hdot : isDigit 0x2E = false := by decide
  have h45 : ¬ ((43 : Nat) = 45) := by decide
  cases fracs with
  | nil =>
    cases exp with
    | none =>
      have hk := takeWhile_digits_append (i0 :: ints') [] hints (by simp)
      simp only [List.cons_append, List.nil_append, List.append_assoc, List.append_nil] at hk
      cases neg <;>
        simp only [parseFloat64, numberText, List.cons_append, List.nil_append,
          List.append_assoc, List.append_nil, if_true, if_false, List.head?_cons,
          List.drop_succ_cons, List.drop_zero, Option.some.injEq, hi0', hk.1, hk.2,
          List.head?_nil, List.drop_nil, false_or, or_false, or_self, reduceCtorEq] <;>
        simp [exponentValue]
    | some p =>
      obtain ⟨eneg, ds⟩ := p
      have hk := fun sg => takeWhile_digits_append (i0 :: ints') (0x65 :: sg :: ds) hints
        (by intro c hc; simp at hc; subst hc; exact hE)
      simp only [List.cons_append, List.nil_append, List.append_assoc, List.append_nil] at hk
      cases neg <;> cases eneg <;>
        simp only [parseFloat64, numberText, List.cons_append, List.nil_append,
          List.append_assoc, List.append_nil, if_true, if_false, List.head?_cons,
          List.drop_succ_cons, List.drop_zero, Option.some.injEq, hi0', (hk _).1, (hk _).2,
          List.head?_nil, List.drop_nil, false_or, or_false, or_self, true_or, or_true,
          reduceCtorEq, Bool.false_eq_true, h45] <;>
        simp
  | cons f0 fracs' =>
    cases exp with
    | none =>
      have hk := takeWhile_digits_append (i0 :: ints') (0x2E :: f0 :: fracs') hints
        (by intro c hc; simp at hc; subst hc; exact hdot)
      have hk' := takeWhile_digits_append (f0 :: fracs') [] hfracs (by simp)
      simp only [List.cons_append, List.nil_append, List.append_assoc, List.append_nil]
        at hk hk'
      cases neg <;>
        simp only [parseFloat64, numberText, List.cons_append, List.nil_append,
          List.append_assoc, List.append_nil, if_true, if_false, List.head?_cons,
          List.drop_succ_cons, List.drop_zero, Option.some.injEq, hi0', hk.1, hk.2,
          hk'.1, hk'.2,
          List.head?_nil, List.drop_nil, false_or, or_false, or_self, reduceCtorEq] <;>
        simp [exponentValue]
    | some p =>
      obtain ⟨eneg, ds⟩ := p
      have hk := fun sg => takeWhile_digits_append (i0 :: ints')
        (0x2E :: f0 :: fracs' ++ 0x65 :: sg :: ds) hints
        (by intro c hc; simp at hc; subst hc; exact hdot)
      have hk' := fun sg => takeWhile_digits_append (f0 :: fracs') (0x65 :: sg :: ds) hfracs
        (by intro c hc; simp at hc; subst hc; exact hE)
      simp only [List.cons_append, List.nil_append, List.append_assoc, List.append_nil]
        at hk hk'
      cases neg <;> cases eneg <;>
        simp only [parseFloat64, numberText, List.cons_append, List.nil_append,
          List.append_assoc, List.append_nil, if_true, if_false, List.head?_cons,
          List.drop_succ_cons, List.drop_zero, Option.some.injEq, hi0', (hk _).1, (hk _).2,
          (hk' _).1, (hk' _).2,
          List.head?_nil, List.drop_nil, false_or, or_false, or_self, true_or, or_true,
          reduceCtorEq, Bool.false_eq_true, h45] <;>
        simp

/-! ## Number literals: what the scanner delimits -/

theorem scanUnsigned_numberText (ints fracs : List Nat)
    (exp : Option (Bool × List Nat)) (rest : List Nat)
    (hints : ints = [0x30] ∨
      ∃ c ints', ints = c :: ints' ∧ isDigit c = true ∧ c ≠ 0x30 ∧
        ∀ x ∈ ints', isDigit x = true)
    (hfracs : ∀ c ∈ fracs, isDigit c = true)
    (hexp : ∀ p, exp = some p → p.2 ≠ [] ∧ ∀ c ∈ p.2, isDigit c = true)
    (hrest : delimited rest = true) :
    scanUnsigned (numberText false ints fracs exp ++ rest) =
      some (numberText false ints fracs exp, rest) := by
  have hE : isDigit 0x65 = false := by decide
  have hdot : isDigit 0x2E = false := by decide
  have h45 : ¬ ((43 : Nat) = 45) := by decide
  have hrest' : ∀ c, rest.head? = some c → isDigit c = false := by
    intro c hc
    rcases delimited_head rest hrest c hc with h | h | h <;> subst h <;> decide
  have hrestE : ∀ c rest', rest = c :: rest' → ¬ (c = 0x65 ∨ c = 0x45) ∧ c ≠ 0x2E := by
    intro c rest' hc
    rcases delimited_head rest hrest c (by rw [hc]; rfl) with h | h | h <;> subst h <;> decide
  -- the exponent part followed by the rest
  have hexpPart : ∀ (eneg : Bool) (ds : List Nat), exp = some (eneg, ds) →
      ∃ d ds', ds = d :: ds' ∧ isDigit d = true ∧
        (ds' ++ rest).takeWhile isDigit = ds' ∧ (ds' ++ rest).dropWhile isDigit = rest := by
    intro eneg ds he
    obtain ⟨hne, hds⟩ := hexp (eneg, ds) he
    obtain ⟨d, ds', rfl⟩ := List.exists_cons_of_ne_nil hne
    obtain ⟨h1, h2⟩ := takeWhile_digits_append ds' rest
      (fun x hx => hds x (List.mem_cons_of_mem _ hx)) hrest'
    exact ⟨d, ds', rfl, hds d (List.mem_cons_self _ _), h1, h2⟩
  rcases hints with rfl | ⟨c, ints', rfl, hc, hc0, hints'⟩
  · -- integer part "0"
    cases fracs with
    | nil =>
      cases exp with
      | none =>
        cases rest with
        | nil => simp [scanUnsigned, numberText, isDigit]
        | cons r rest' =>
          obtain ⟨hr1, hr2⟩ := hrestE r rest' rfl
          simp [scanUnsigned, numberText, isDigit, hr1, hr2]
      | some p =>
        obtain ⟨eneg, ds⟩ := p
        obtain ⟨d, ds', rfl, hd, htk, hdk⟩ := hexpPart eneg _ rfl
        cases eneg <;>
          simp [scanUnsigned, numberText, hd, htk, hdk, List.takeWhile, List.dropWhile, show isDigit 48 = true from by decide]
    | cons f0 fracs' =>
      have hf0 := hfracs f0 (List.mem_cons_self _ _)
      cases exp with
      | none =>
        have hk' := takeWhile_digits_append fracs' rest
          (fun x hx => hfracs x (List.mem_cons_of_mem _ hx)) hrest'
        cases rest with
        | nil =>
          simp only [List.append_nil] at hk'
          simp [scanUnsigned, numberText, hf0, hk', List.takeWhile, List.dropWhile,
            show isDigit 48 = true from by decide]
        | cons r rest' =>
          obtain ⟨hr1, hr2⟩ := hrestE r rest' rfl
          simp [scanUnsigned, numberText, hf0, hk', List.takeWhile, List.dropWhile,
            show isDigit 48 = true from by decide, hr1]
      | some p =>
        obtain ⟨eneg, ds⟩ := p
        obtain ⟨d, ds', rfl, hd, htk, hdk⟩ := hexpPart eneg _ rfl
        have hk' := fun sg => takeWhile_digits_append fracs' (0x65 :: sg :: d :: ds' ++ rest)
          (fun x hx => hfracs x (List.mem_cons_of_mem _ hx))
          (by intro c hc; simp at hc; subst hc; exact hE)
        simp only [List.cons_append] at hk'
        cases eneg <;>
          simp [scanUnsigned, numberText, hf0, hk', List.takeWhile, List.dropWhile,
            show isDigit 48 = true from by decide, hd, htk, hdk]
  · -- integer part starting with a digit other than 0
    have hcd : (!isDigit c) = false := by simp [hc]
    cases fracs with
    | nil =>
      cases exp with
      | none =>
        have hk := takeWhile_digits_append ints' rest hints' hrest'
        cases rest with
        | nil =>
          simp only [List.append_nil] at hk
          simp [scanUnsigned, numberText, hc, hc0, hk]
        | cons r rest' =>
          obtain ⟨hr1, hr2⟩ := hrestE r rest' rfl
          simp [scanUnsigned, numberText, hc, hc0, hk, hr1, hr2]
      | some p =>
        obtain ⟨eneg, ds⟩ := p
        obtain ⟨d, ds', rfl, hd, htk, hdk⟩ := hexpPart eneg _ rfl
        have hk := fun sg => takeWhile_digits_append ints' (0x65 :: sg :: d :: ds' ++ rest)
          hints' (by intro c hc; simp at hc; subst hc; exact hE)
        simp only [List.cons_append] at hk
        cases eneg <;>
          simp [scanUnsigned, numberText, hc, hc0, hk, hd, htk, hdk, List.takeWhile,
            List.dropWhile]
    | cons f0 fracs' =>
      have hf0 := hfracs f0 (List.mem_cons_self _ _)
      cases exp with
      | none =>
        have hk' := takeWhile_digits_append fracs' rest
          (fun x hx => hfracs x (List.mem_cons_of_mem _ hx)) hrest'
        have hk := takeWhile_digits_append ints' (0x2E :: f0 :: fracs' ++ rest)
          hints' (by intro c hc; simp at hc; subst hc; exact hdot)
        simp only [List.cons_append] at hk
        cases rest with
        | nil =>
          simp only [List.append_nil] at hk' hk
          simp [scanUnsigned, numberText, hc, hc0, hk, hf0, hk', List.takeWhile,
            List.dropWhile]
        | cons r rest' =>
          obtain ⟨hr1, hr2⟩ := hrestE r rest' rfl
          simp [scanUnsigned, numberText, hc, hc0, hk, hf0, hk', List.takeWhile,
            List.dropWhile, hr1]
      | some p =>
        obtain ⟨eneg, ds⟩ := p
        obtain ⟨d, ds', rfl, hd, htk, hdk⟩ := hexpPart eneg _ rfl
        have hk' := fun sg => takeWhile_digits_append fracs' (0x65 :: sg :: d :: ds' ++ rest)
          (fun x hx => hfracs x (List.mem_cons_of_mem _ hx))
          (by intro c hc; simp at hc; subst hc; exact hE)
        have hk := fun sg => takeWhile_digits_append ints'
          (0x2E :: f0 :: fracs' ++ 0x65 :: sg :: d :: ds' ++ rest)
          hints' (by intro c hc; simp at hc; subst hc; exact hdot)
        simp only [List.cons_append, List.append_assoc] at hk' hk
        cases eneg <;>
          simp [scanUnsigned, numberText, hc, hc0, hk, hf0, hk', List.takeWhile,
            List.dropWhile, hd, htk, hdk]

theorem scanNumber_numberText (neg : Bool) (ints fracs : List Nat)
    (exp : Option (Bool × List Nat)) (rest : List Nat)
    (hints : ints = [0x30] ∨
      ∃ c ints', ints = c :: ints' ∧ isDigit c = true ∧ c ≠ 0x30 ∧
        ∀ x ∈ ints', isDigit x = true)
    (hfracs : ∀ c ∈ fracs, isDigit c = true)
    (hexp : ∀ p, exp = some p → p.2 ≠ [] ∧ ∀ c ∈ p.2, isDigit c = true)
    (hrest : delimited rest = true) :
    scanNumber (numberText neg ints fracs exp ++ rest) =
      some (numberText neg ints fracs exp, rest) := by
  have hu := scanUnsigned_numberText ints fracs exp rest hints hfracs hexp hrest
  cases neg with
  | true =>
    have e1 : numberText true ints fracs exp = 0x2D :: numberText false ints fracs exp := by
      simp [numberText]
    rw [e1, List.cons_append]
    simp only [scanNumber, hu, Option.map_some']
  | false =>
    have hhead : ∃ c tl, numberText false ints fracs exp ++ rest = c :: tl ∧ c ≠ 0x2D := by
      rcases hints with rfl | ⟨c, ints', rfl, hc, _, _⟩
      · exact ⟨0x30, _, by simp only [numberText, List.nil_append, List.cons_append,
          List.append_assoc, if_false, Bool.false_eq_true]; rfl, by decide⟩
      · refine ⟨c, _, by simp only [numberText, List.nil_append, List.cons_append,
          List.append_assoc, if_false, Bool.false_eq_true]; rfl, ?_⟩
        intro h; rw [h] at hc; simp [isDigit] at hc
    obtain ⟨c, tl, hct, hc⟩ := hhead
    rw [hct] at hu ⊢
    unfold scanNumber
    split
    · rename_i heq
      injection heq with h1 _
      exact absurd h1 hc
    · exact hu

/-! ## The layouts of `strconv` as number literals -/

theorem decimalDigits_length_ge (fuel : Nat) : ∀ (n : Nat) (acc : List Nat),
    n < fuel → acc.length + 1 ≤ (decimalDigits fuel n acc).length := by
  induction fuel with
  | zero => intro n acc h; omega
  | succ fuel ih =>
    intro n acc hfuel
    by_cases hn : n < 10
    · simp [decimalDigits, hn]
    · simp only [decimalDigits, hn, if_false]
      have := ih (n / 10) ((0x30 + n % 10) :: acc) (by omega)
      simp only [List.length_cons] at this
      omega

theorem decimalDigits_length (fuel : Nat) : ∀ (n : Nat) (acc : List Nat) (N : Nat),
    n < fuel → n < 10 ^ (N + 1) →
    (decimalDigits fuel n acc).length ≤ acc.length + (N + 1) ∧
    (10 ≤ n → acc.length + 2 ≤ (decimalDigits fuel n acc).length) := by
  induction fuel with
  | zero => intro n acc N h; omega
  | succ fuel ih =>
    intro n acc N hfuel hN
    by_cases hn : n < 10
    · simp only [decimalDigits, hn, if_true, List.length_cons]
      exact ⟨by omega, by omega⟩
    · simp only [decimalDigits, hn, if_false]
      cases N with
      | zero => simp at hN; omega
      | succ N =>
        have hdiv : n / 10 < 10 ^ (N + 1) := by
          rw [Nat.div_lt_iff_lt_mul (by norm_num)]
          rw [pow_succ] at hN
          exact hN
        obtain ⟨h1, _⟩ := ih (n / 10) ((0x30 + n % 10) :: acc) N (by omega) hdiv
        have h2 := decimalDigits_length_ge fuel (n / 10) ((0x30 + n % 10) :: acc) (by omega)
        simp only [List.length_cons] at h1 h2
        exact ⟨by omega, by intro _; omega⟩

theorem natToDecimal_length_le (n N : Nat) (h : n < 10 ^ (N + 1)) :
    (natToDecimal n).length ≤ N + 1 := by
  have := (decimalDigits_length (n + 1) n [] N (by omega) h).1
  simpa [natToDecimal] using this

theorem natToDecimal_length_ge (n : Nat) (h : 10 ≤ n) : 2 ≤ (natToDecimal n).length := by
  have := (decimalDigits_length (n + 1) n [] n (by omega)
    (Nat.lt_of_lt_of_le (Nat.lt_pow_self (by norm_num) n)
      (Nat.pow_le_pow_right (by norm_num) (by omega)))).2 h
  simpa [natToDecimal] using this

theorem cleanExponent_last4 (pre : List Nat) (w x y z : Nat) :
    cleanExponent (pre ++ [w, x, y, z]) =
      if w = 0x65 ∧ (x = 0x2D ∨ x = 0x2B) ∧ y = 0x30 then pre ++ [w, x, z]
      else pre ++ [w, x, y, z] := by
  have hrev : (pre ++ [w, x, y, z]).reverse = z :: y :: x :: w :: pre.reverse := by simp
  unfold cleanExponent
  rw [hrev]
  by_cases hw : w = 0x65
  · by_cases hy : y = 0x30
    · subst hw; subst hy
      by_cases hx : x = 0x2D ∨ x = 0x2B
      · simp [hx]
      · simp [hx]
    · simp only [hw, hy, and_false, if_false]
      split
      · rename_i heq
        injection heq with _ heq
        injection heq with h2 _
        exact absurd h2 hy
      · rfl
  · simp only [hw, false_and, if_false]
    split
    · rename_i heq
      injection heq with _ heq
      injection heq with _ heq
      injection heq with _ heq
      injection heq with h4 _
      exact absurd h4 hw
    · rfl

theorem formatF_numberText (c : Nat) (tl : List Nat) (dp : Int)
    (hc : isDigit c = true) (hc0 : c ≠ 0x30) (htl : ∀ x ∈ tl, isDigit x = true) :
    ∃ ints fracs, formatF (c :: tl) dp = numberText false ints fracs none ∧
      (ints = [0x30] ∨ ∃ c' ints', ints = c' :: ints' ∧ isDigit c' = true ∧ c' ≠ 0x30 ∧
        ∀ x ∈ ints', isDigit x = true) ∧
      (∀ x ∈ fracs, isDigit x = true) ∧
      ∀ neg, decimalToFloat64 neg (digitsValue (ints ++ fracs)) (0 - (fracs.length : Int)) =
        decimalToFloat64 neg (digitsValue (c :: tl)) (dp - ((c :: tl).length : Int)) := by
  have hall : ∀ x ∈ c :: tl, isDigit x = true := by
    intro x hx
    rcases List.mem_cons.mp hx with h | h
    · subst h; exact hc
    · exact htl x h
  have h48 : isDigit 0x30 = true := by decide
  match dp with
  | Int.ofNat 0 =>
    refine ⟨[0x30], c :: tl, ?_, Or.inl rfl, hall, ?_⟩
    · simp [formatF, numberText]
    · intro neg
      have hv : digitsValue ([0x30] ++ (c :: tl)) = digitsValue (c :: tl) := by
        rw [digitsValue_append]; simp [digitsValue]
      rw [hv]
      simp
  | Int.ofNat (p + 1) =>
    by_cases hlt : p + 1 < (c :: tl).length
    · refine ⟨(c :: tl).take (p + 1), (c :: tl).drop (p + 1), ?_, Or.inr ⟨c, tl.take p, ?_, hc,
        hc0, ?_⟩, ?_, ?_⟩
      · have hne : (c :: tl).drop (p + 1) ≠ [] := by
          intro h
          have := congrArg List.length h
          simp only [List.length_drop, List.length_nil] at this
          omega
        obtain ⟨f0, fs, hf⟩ := List.exists_cons_of_ne_nil hne
        simp only [formatF, hlt, if_true, numberText, hf]
        simp
      · simp
      · intro x hx
        exact htl x (List.mem_of_mem_take hx)
      · intro x hx
        exact hall x (List.mem_of_mem_drop hx)
      · intro neg
        rw [List.take_append_drop]
        have : (0 : Int) - (((c :: tl).drop (p + 1)).length : Int) =
            Int.ofNat (p + 1) - ((c :: tl).length : Int) := by
          simp only [List.length_drop, Int.ofNat_eq_coe]
          omega
        rw [this]
    · refine ⟨(c :: tl) ++ List.replicate (p + 1 - (c :: tl).length) 0x30, [], ?_,
        Or.inr ⟨c, tl ++ List.replicate (p + 1 - (c :: tl).length) 0x30, rfl, hc, hc0, ?_⟩,
        by simp, ?_⟩
      · have hlt' : ¬ (p < tl.length) := by
          simp only [List.length_cons] at hlt
          omega
        simp [formatF, hlt', numberText]
      · intro x hx
        rcases List.mem_append.mp hx with h | h
        · exact htl x h
        · rw [List.eq_of_mem_replicate h]; exact h48
      · intro neg
        have hk : Int.ofNat (p + 1) - ((c :: tl).length : Int) =
            Int.ofNat (p + 1 - (c :: tl).length) := by
          simp only [Int.ofNat_eq_coe]
          omega
        rw [hk, List.append_nil, digitsValue_append, digitsValue_replicate_zero]
        simp [decimalToFloat64]
  | Int.negSucc p =>
    refine ⟨[0x30], List.replicate (p + 1) 0x30 ++ (c :: tl), ?_, Or.inl rfl, ?_, ?_⟩
    · have : List.replicate (p + 1) 0x30 ++ (c :: tl) =
          0x30 :: (List.replicate p 0x30 ++ (c :: tl)) := by
        simp [List.replicate_succ]
      simp only [formatF, numberText]
      rw [this]
      simp
      exact this
    · intro x hx
      rcases List.mem_append.mp hx with h | h
      · rw [List.eq_of_mem_replicate h]; exact h48
      · exact hall x h
    · intro neg
      have hv : digitsValue ([0x30] ++ (List.replicate (p + 1) 0x30 ++ (c :: tl))) =
          digitsValue (c :: tl) := by
        rw [digitsValue_append, digitsValue_append, digitsValue_replicate_zero]
        simp [digitsValue]
      rw [hv]
      have : (0 : Int) - ((List.replicate (p + 1) 0x30 ++ (c :: tl)).length : Int) =
          Int.negSucc p - ((c :: tl).length : Int) := by
        simp only [List.length_append, List.length_replicate, Int.negSucc_eq]
        push_cast
        omega
      rw [this]

theorem formatE_numberText (c : Nat) (tl : List Nat) (dp : Int)
    (hbound : (dp - 1).natAbs < 10000) :
    cleanExponent (formatE (c :: tl) dp) =
        numberText false [c] tl (some (decide (dp - 1 < 0), natToDecimal (dp - 1).natAbs)) ∧
      ∀ neg, decimalToFloat64 neg (digitsValue ([c] ++ tl))
          ((if decide (dp - 1 < 0) = true then
              -(exponentValue (natToDecimal (dp - 1).natAbs) : Int)
            else (exponentValue (natToDecimal (dp - 1).natAbs) : Int)) - (tl.length : Int)) =
        decimalToFloat64 neg (digitsValue (c :: tl)) (dp - ((c :: tl).length : Int)) := by
  constructor
  · -- the text
    obtain ⟨M, hfe, hnt⟩ : ∃ M, formatE (c :: tl) dp =
        M ++ [0x65, if dp - 1 < 0 then 0x2D else 0x2B] ++
          (if (dp - 1).natAbs < 10 then [0x30, 0x30 + (dp - 1).natAbs]
            else natToDecimal (dp - 1).natAbs) ∧
        numberText false [c] tl
          (some (decide (dp - 1 < 0), natToDecimal (dp - 1).natAbs)) =
        M ++ [0x65, if dp - 1 < 0 then 0x2D else 0x2B] ++ natToDecimal (dp - 1).natAbs := by
      cases tl with
      | nil => exact ⟨[c], by simp [formatE], by simp [numberText]⟩
      | cons t ts => exact ⟨c :: 0x2E :: t :: ts, by simp [formatE], by simp [numberText]⟩
    rw [hfe, hnt]
    generalize hs : (if dp - 1 < 0 then (0x2D : Nat) else 0x2B) = sg
    have hsg : sg = 0x2D ∨ sg = 0x2B := by
      rw [← hs]; split <;> simp
    generalize he : (dp - 1).natAbs = e at hbound ⊢
    by_cases h10 : e < 10
    · simp only [h10, if_true]
      have : M ++ [0x65, sg] ++ [0x30, 0x30 + e] = M ++ [0x65, sg, 0x30, 0x30 + e] := by simp
      rw [this, cleanExponent_last4, natToDecimal_small e h10]
      simp [hsg]
    · simp only [h10, if_false]
      have hlen2 := natToDecimal_length_ge e (by omega)
      have hlen4 := natToDecimal_length_le e 3 (by omega)
      have hdig := natToDecimal_digits e
      have hhead := natToDecimal_head e (by omega)
      generalize natToDecimal e = X at hlen2 hlen4 hdig hhead
      match X, hlen2, hlen4, hdig, hhead with
      | [a, b], _, _, _, hhead =>
        have ha : a ≠ 0x30 := by simpa using hhead
        have : M ++ [0x65, sg] ++ [a, b] = M ++ [0x65, sg, a, b] := by simp
        rw [this, cleanExponent_last4]
        simp [ha]
      | [a, b, c'], _, _, _, _ =>
        have hne : sg ≠ 0x65 := by rcases hsg with h | h <;> rw [h] <;> decide
        have : M ++ [0x65, sg] ++ [a, b, c'] = (M ++ [0x65]) ++ [sg, a, b, c'] := by simp
        rw [this, cleanExponent_last4]
        simp [hne]
      | [a, b, c', d'], _, _, hdig, _ =>
        have hne : a ≠ 0x65 := by
          have := hdig a (by simp)
          intro h; rw [h] at this; simp [isDigit] at this
        have : M ++ [0x65, sg] ++ [a, b, c', d'] = (M ++ [0x65, sg]) ++ [a, b, c', d'] := by
          simp
        rw [this, cleanExponent_last4]
        simp [hne]
  · intro neg
    have hev : exponentValue (natToDecimal (dp - 1).natAbs) = (dp - 1).natAbs := by
      rw [exponentValue_eq _ (natToDecimal_digits _) (by rw [natToDecimal_value]; exact hbound),
        natToDecimal_value]
    rw [hev]
    have hk : (if decide (dp - 1 < 0) = true then -(((dp - 1).natAbs : Nat) : Int)
        else (((dp - 1).natAbs : Nat) : Int)) - (tl.length : Int) =
        dp - ((c :: tl).length : Int) := by
      simp only [List.length_cons, decide_eq_true_eq]
      split
      · rename_i hneg
        rw [Int.ofNat_natAbs_of_nonpos (by omega)]
        push_cast
        omega
      · rename_i hneg
        rw [Int.natAbs_of_nonneg (by omega)]
        push_cast
        omega
    rw [hk]
    rfl

/-! ## Rounding to `float64` -/

theorem roundFloat64_sign (neg : Bool) (num den : Nat) :
    roundFloat64 neg num den =
      (roundFloat64 false num den).map (fun f => ⟨(if neg then 2 ^ 63 else 0) + f.bits⟩) := by
  unfold roundFloat64
  by_cases h0 : num = 0
  · simp [h0]
  · simp only [h0, if_false, Bool.false_eq_true]
    split
    · simp
    · simp

theorem decimalToFloat64_sign (neg : Bool) (mant : Nat) (exp10 : Int) :
    decimalToFloat64 neg mant exp10 =
      (decimalToFloat64 false mant exp10).map
        (fun f => ⟨(if neg then 2 ^ 63 else 0) + f.bits⟩) := by
  unfold decimalToFloat64
  cases exp10 with
  | ofNat k => exact roundFloat64_sign neg _ _
  | negSucc k => exact roundFloat64_sign neg _ _

theorem shortestSearch_step (target : Float64) (num den : Nat) (fuel : Nat) (k0 : Int)
    (lo r dd : Nat)
    (hq : (match k0 with
      | Int.ofNat j => (num / (den * 10 ^ j), num % (den * 10 ^ j), den * 10 ^ j)
      | Int.negSucc j => (num * 10 ^ (j + 1) / den, num * 10 ^ (j + 1) % den, den)) =
      (lo, r, dd)) :
    shortestSearch target num den (fuel + 1) k0 =
      if (lo != 0 && decimalToFloat64 false lo k0 == some target) &&
          (decimalToFloat64 false (lo + 1) k0 == some target) then
        (if 2 * r < dd ∨ (2 * r = dd ∧ lo % 2 = 0) then some (lo, k0) else some (lo + 1, k0))
      else if (lo != 0 && decimalToFloat64 false lo k0 == some target) then some (lo, k0)
      else if (decimalToFloat64 false (lo + 1) k0 == some target) then some (lo + 1, k0)
      else shortestSearch target num den fuel (k0 - 1) := by
  cases k0 with
  | ofNat j =>
    simp only [Prod.mk.injEq] at hq
    obtain ⟨h1, h2, h3⟩ := hq
    subst h1; subst h2; subst h3
    simp only [shortestSearch]
  | negSucc j =>
    simp only [Prod.mk.injEq] at hq
    obtain ⟨h1, h2, h3⟩ := hq
    subst h1; subst h2; subst h3
    simp only [shortestSearch]

theorem shortestSearch_spec (target : Float64) (num den : Nat) (fuel : Nat) :
    ∀ (k0 : Int) (d : Nat) (k : Int), shortestSearch target num den fuel k0 = some (d, k) →
      d ≠ 0 ∧ decimalToFloat64 false d k = some target ∧ k ≤ k0 ∧ k0 - fuel < k ∧
      ((∃ j : Nat, k = j ∧ d ≤ num / (den * 10 ^ j) + 1) ∨
        (∃ j : Nat, k = Int.negSucc j ∧ d ≤ num * 10 ^ (j + 1) / den + 1)) := by
  induction fuel with
  | zero => intro k0 d k h; simp [shortestSearch] at h
  | succ fuel ih =>
    intro k0 d k h
    obtain ⟨lo, r, dd, hq⟩ : ∃ lo r dd, (match k0 with
      | Int.ofNat j => (num / (den * 10 ^ j), num % (den * 10 ^ j), den * 10 ^ j)
      | Int.negSucc j => (num * 10 ^ (j + 1) / den, num * 10 ^ (j + 1) % den, den)) =
      (lo, r, dd) := ⟨_, _, _, rfl⟩
    rw [shortestSearch_step target num den fuel k0 lo r dd hq] at h
    have hlo : (∃ j : Nat, k0 = j ∧ lo = num / (den * 10 ^ j)) ∨
        (∃ j : Nat, k0 = Int.negSucc j ∧ lo = num * 10 ^ (j + 1) / den) := by
      cases k0 with
      | ofNat j =>
        simp only [Prod.mk.injEq] at hq
        exact Or.inl ⟨j, rfl, hq.1.symm⟩
      | negSucc j =>
        simp only [Prod.mk.injEq] at hq
        exact Or.inr ⟨j, rfl, hq.1.symm⟩
    have hfound : ∀ d', (d' = lo ∨ d' = lo + 1) → d' ≠ 0 →
        decimalToFloat64 false d' k0 = some target → (d, k) = (d', k0) →
        d ≠ 0 ∧ decimalToFloat64 false d k = some target ∧ k ≤ k0 ∧ k0 - (fuel + 1 : Nat) < k ∧
        ((∃ j : Nat, k = j ∧ d ≤ num / (den * 10 ^ j) + 1) ∨
          (∃ j : Nat, k = Int.negSucc j ∧ d ≤ num * 10 ^ (j + 1) / den + 1)) := by
      intro d' hd' hne hdec heq
      injection heq with h1 h2
      subst h1; subst h2
      refine ⟨hne, hdec, le_refl _, by push_cast; omega, ?_⟩
      rcases hlo with ⟨j, hj, hl⟩ | ⟨j, hj, hl⟩
      · exact Or.inl ⟨j, hj, by rcases hd' with h | h <;> omega⟩
      · exact Or.inr ⟨j, hj, by rcases hd' with h | h <;> omega⟩
    by_cases hLo : (lo != 0 && decimalToFloat64 false lo k0 == some target) = true
    · have hLo' := hLo
      simp only [Bool.and_eq_true, bne_iff_ne, ne_eq, beq_iff_eq] at hLo'
      by_cases hHi : (decimalToFloat64 false (lo + 1) k0 == some target) = true
      · have hHi' := hHi
        simp only [beq_iff_eq] at hHi'
        simp only [hLo, hHi, Bool.and_self, if_true] at h
        split at h
        · exact hfound lo (Or.inl rfl) hLo'.1 hLo'.2 (by injection h with h; exact h.symm)
        · exact hfound (lo + 1) (Or.inr rfl) (by omega) hHi'
            (by injection h with h; exact h.symm)
      · simp only [hLo, hHi, Bool.and_false, if_true, if_false, Bool.false_eq_true] at h
        exact hfound lo (Or.inl rfl) hLo'.1 hLo'.2 (by injection h with h; exact h.symm)
    · by_cases hHi : (decimalToFloat64 false (lo + 1) k0 == some target) = true
      · have hHi' := hHi
        simp only [beq_iff_eq] at hHi'
        simp only [hLo, hHi, Bool.false_and, if_true, if_false, Bool.false_eq_true] at h
        exact hfound (lo + 1) (Or.inr rfl) (by omega) hHi'
          (by injection h with h; exact h.symm)
      · simp only [hLo, hHi, Bool.false_and, if_false, Bool.false_eq_true] at h
        obtain ⟨h1, h2, h3, h4, h5⟩ := ih (k0 - 1) d k h
        exact ⟨h1, h2, by omega, by push_cast; omega, h5⟩

theorem digitCount_bounds (base : Nat) (hb : 2 ≤ base) (fuel : Nat) :
    ∀ n, 1 ≤ n → n ≤ fuel →
      1 ≤ digitCount base fuel n ∧ base ^ (digitCount base fuel n - 1) ≤ n ∧
        n < base ^ digitCount base fuel n := by
  induction fuel with
  | zero => intro n h1 h2; omega
  | succ fuel ih =>
    intro n h1 h2
    by_cases hn : n < base
    · simp [digitCount, hn]; omega
    · simp only [digitCount, hn, if_false]
      have hdiv1 : 1 ≤ n / base := (Nat.one_le_div_iff (by omega)).mpr (by omega)
      have hdiv2 : n / base ≤ fuel := by
        have : n / base < n := Nat.div_lt_self (by omega) (by omega)
        omega
      obtain ⟨i1, i2, i3⟩ := ih (n / base) hdiv1 hdiv2
      refine ⟨by omega, ?_, ?_⟩
      · have : 1 + digitCount base fuel (n / base) - 1 =
            (digitCount base fuel (n / base) - 1) + 1 := by omega
        rw [this, pow_succ]
        calc base ^ (digitCount base fuel (n / base) - 1) * base
            ≤ (n / base) * base := Nat.mul_le_mul_right _ i2
          _ ≤ n := Nat.div_mul_le_self n base
      · have : 1 + digitCount base fuel (n / base) = digitCount base fuel (n / base) + 1 := by
          omega
        rw [this, pow_succ]
        exact (Nat.div_lt_iff_lt_mul (by omega)).mp i3

theorem bitLength_rat (n : Nat) (h : 1 ≤ n) :
    (2 : ℚ) ^ ((digitCount 2 n n : Int) - 1) ≤ (n : ℚ) ∧
      (n : ℚ) < (2 : ℚ) ^ (digitCount 2 n n : Int) := by
  obtain ⟨h1, h2, h3⟩ := digitCount_bounds 2 (le_refl _) n n h (le_refl _)
  constructor
  · have : ((digitCount 2 n n : Int) - 1) = ((digitCount 2 n n - 1 : Nat) : Int) := by omega
    rw [this, zpow_natCast]
    exact_mod_cast h2
  · rw [zpow_natCast]
    exact_mod_cast h3

theorem scaledDiv_le (num den : Nat) (k : Int) :
    ((scaledDiv num den k).1 : ℚ) ≤ (num : ℚ) / den / (2 : ℚ) ^ k := by
  cases k with
  | ofNat i =>
    simp only [scaledDiv, Int.ofNat_eq_coe, zpow_natCast]
    calc ((num / (den * 2 ^ i) : Nat) : ℚ) ≤ (num : ℚ) / ((den * 2 ^ i : Nat) : ℚ) :=
          Nat.cast_div_le
      _ = (num : ℚ) / den / 2 ^ i := by push_cast; rw [div_div]
  | negSucc i =>
    simp only [scaledDiv]
    have h2 : (2 : ℚ) ^ (Int.negSucc i) = ((2 : ℚ) ^ (i + 1))⁻¹ := by
      rw [zpow_negSucc]
    rw [h2]
    calc ((num * 2 ^ (i + 1) / den : Nat) : ℚ) ≤ ((num * 2 ^ (i + 1) : Nat) : ℚ) / (den : ℚ) :=
          Nat.cast_div_le
      _ = (num : ℚ) / den / ((2 : ℚ) ^ (i + 1))⁻¹ := by
          push_cast
          field_simp

theorem scaledDiv_exact (num den m : Nat) (e : Int) (hden : 0 < den)
    (hX : (num : ℚ) / den = m * (2 : ℚ) ^ e) :
    ∃ d, 0 < d ∧ scaledDiv num den e = (m, 0, d) := by
  have hdenq : (den : ℚ) ≠ 0 := by exact_mod_cast hden.ne'
  cases e with
  | ofNat i =>
    have hnat : num = m * (den * 2 ^ i) := by
      have : (num : ℚ) = m * (den * 2 ^ i) := by
        rw [div_eq_iff hdenq] at hX
        rw [hX]
        simp only [Int.ofNat_eq_coe, zpow_natCast]
        ring
      exact_mod_cast this
    have hpos : 0 < den * 2 ^ i := Nat.mul_pos hden (Nat.pow_pos (by norm_num))
    refine ⟨den * 2 ^ i, hpos, ?_⟩
    simp only [scaledDiv, hnat, Nat.mul_div_cancel _ hpos, Nat.mul_mod_left]
  | negSucc i =>
    have hnat : num * 2 ^ (i + 1) = m * den := by
      have : (num : ℚ) * 2 ^ (i + 1) = m * den := by
        rw [div_eq_iff hdenq, zpow_negSucc] at hX
        rw [hX]
        field_simp
      exact_mod_cast this
    refine ⟨den, hden, ?_⟩
    simp only [scaledDiv, hnat, Nat.mul_div_cancel _ hden, Nat.mul_mod_left]

theorem roundFloat64_exact (num den m : Nat) (e : Int) (hden : 0 < den) (hm : 0 < m)
    (hX : (num : ℚ) / den = m * (2 : ℚ) ^ e)
    (hcase : (2 ^ 52 ≤ m ∧ m < 2 ^ 53 ∧ -1074 ≤ e ∧ e ≤ 971) ∨ (m < 2 ^ 52 ∧ e = -1074)) :
    roundFloat64 false num den = some ⟨(e + 1074).toNat * 2 ^ 52 + m⟩ := by
  have hdenq : (0 : ℚ) < den := by exact_mod_cast hden
  have hmq : (0 : ℚ) < m := by exact_mod_cast hm
  have h2 : (1 : ℚ) < 2 := by norm_num
  have hXpos : (0 : ℚ) < (num : ℚ) / den := by
    rw [hX]; exact mul_pos hmq (zpow_pos (by norm_num) _)
  have hnum : 0 < num := by
    rcases Nat.eq_zero_or_pos num with h | h
    · rw [h] at hXpos; simp at hXpos
    · exact h
  obtain ⟨hn1, hn2⟩ := bitLength_rat num hnum
  obtain ⟨hd1, hd2⟩ := bitLength_rat den hden
  generalize hLn : (digitCount 2 num num : Int) = Ln at hn1 hn2
  generalize hLd : (digitCount 2 den den : Int) = Ld at hd1 hd2
  -- the first estimate of the exponent
  have hlo : (2 : ℚ) ^ (Ln - Ld - 52 + 51) < (num : ℚ) / den := by
    have : (2 : ℚ) ^ (Ln - Ld - 52 + 51) = (2 : ℚ) ^ (Ln - 1) / (2 : ℚ) ^ Ld := by
      rw [← zpow_sub₀ (by norm_num)]; congr 1; ring
    rw [this, div_lt_div_iff₀ (zpow_pos (by norm_num) _) hdenq]
    calc (2 : ℚ) ^ (Ln - 1) * den ≤ num * den := by
          exact mul_le_mul_of_nonneg_right hn1 hdenq.le
      _ < num * (2 : ℚ) ^ Ld := by
          exact mul_lt_mul_of_pos_left hd2 (by exact_mod_cast hnum)
  have hhi : (num : ℚ) / den < (2 : ℚ) ^ (Ln - Ld - 52 + 53) := by
    have : (2 : ℚ) ^ (Ln - Ld - 52 + 53) = (2 : ℚ) ^ Ln / (2 : ℚ) ^ (Ld - 1) := by
      rw [← zpow_sub₀ (by norm_num)]; congr 1; ring
    rw [this, div_lt_div_iff₀ hdenq (zpow_pos (by norm_num) _)]
    calc (num : ℚ) * (2 : ℚ) ^ (Ld - 1) ≤ num * den := by
          exact mul_le_mul_of_nonneg_left hd1 (by exact_mod_cast hnum.le)
      _ < (2 : ℚ) ^ Ln * den := by
          exact mul_lt_mul_of_pos_right hn2 hdenq
  -- the exponent that is used
  have he2 : (if (if (scaledDiv num den (Ln - Ld - 52)).1 < 2 ^ 52 then Ln - Ld - 52 - 1
        else Ln - Ld - 52) < -1074 then (-1074 : Int)
      else (if (scaledDiv num den (Ln - Ld - 52)).1 < 2 ^ 52 then Ln - Ld - 52 - 1
        else Ln - Ld - 52)) = e := by
    rcases hcase with ⟨hm1, hm2, he1, _⟩ | ⟨hm1, he⟩
    · have hm1q : (2 : ℚ) ^ (52 : Int) ≤ m := by
        rw [show (52 : Int) = ((52 : Nat) : Int) from rfl, zpow_natCast]; exact_mod_cast hm1
      have hm2q : (m : ℚ) < (2 : ℚ) ^ (53 : Int) := by
        rw [show (53 : Int) = ((53 : Nat) : Int) from rfl, zpow_natCast]; exact_mod_cast hm2
      have hXlo : (2 : ℚ) ^ (e + 52) ≤ (num : ℚ) / den := by
        rw [hX, zpow_add₀ (by norm_num), mul_comm]
        exact mul_le_mul_of_nonneg_right hm1q (zpow_pos (by norm_num) _).le
      have hXhi : (num : ℚ) / den < (2 : ℚ) ^ (e + 53) := by
        rw [hX, zpow_add₀ (by norm_num), mul_comm ((2 : ℚ) ^ e)]
        exact mul_lt_mul_of_pos_right hm2q (zpow_pos (by norm_num) _)
      have c1 : Ln - Ld - 52 + 51 < e + 53 := (zpow_lt_zpow_iff_right₀ h2).mp (lt_trans hlo hXhi)
      have c2 : e + 52 < Ln - Ld - 52 + 53 := (zpow_lt_zpow_iff_right₀ h2).mp (lt_of_le_of_lt hXlo hhi)
      have hcases : Ln - Ld - 52 = e ∨ Ln - Ld - 52 = e + 1 := by omega
      rcases hcases with hc | hc
      · rw [hc]
        obtain ⟨d, _, hsd⟩ := scaledDiv_exact num den m e hden hX
        rw [hsd]
        have : ¬ (m < 2 ^ 52) := by omega
        simp only [this, if_false]
        have : ¬ (e < -1074) := by omega
        simp only [this, if_false]
      · rw [hc]
        have hq := scaledDiv_le num den (e + 1)
        have hlt : ((scaledDiv num den (e + 1)).1 : ℚ) < ((2 ^ 52 : Nat) : ℚ) := by
          refine lt_of_le_of_lt hq ?_
          rw [hX, zpow_add₀ (by norm_num), zpow_one]
          have hpos : (0 : ℚ) < (2 : ℚ) ^ e := zpow_pos (by norm_num) _
          rw [show (m : ℚ) * (2 : ℚ) ^ e / ((2 : ℚ) ^ e * 2) = m / 2 from by field_simp; ring]
          have : (m : ℚ) < 2 ^ 53 := by exact_mod_cast hm2
          push_cast
          linarith
        have hlt' : (scaledDiv num den (e + 1)).1 < 2 ^ 52 := by exact_mod_cast hlt
        simp only [hlt', if_true]
        have : ¬ (e + 1 - 1 < -1074) := by omega
        simp only [this, if_false]
        omega
    · subst he
      have hm1q : (m : ℚ) < (2 : ℚ) ^ (52 : Int) := by
        rw [show (52 : Int) = ((52 : Nat) : Int) from rfl, zpow_natCast]; exact_mod_cast hm1
      have hXhi : (num : ℚ) / den < (2 : ℚ) ^ ((-1074 : Int) + 52) := by
        rw [hX, zpow_add₀ (by norm_num), mul_comm ((2 : ℚ) ^ (-1074 : Int))]
        exact mul_lt_mul_of_pos_right hm1q (zpow_pos (by norm_num) _)
      have c1 : Ln - Ld - 52 + 51 < (-1074 : Int) + 52 :=
        (zpow_lt_zpow_iff_right₀ h2).mp (lt_trans hlo hXhi)
      by_cases hq : (scaledDiv num den (Ln - Ld - 52)).1 < 2 ^ 52
      · simp only [hq, if_true]
        split <;> omega
      · simp only [hq, if_false]
        split <;> omega
  obtain ⟨d, hdpos, hsd⟩ := scaledDiv_exact num den m e hden hX
  unfold roundFloat64
  simp only [hnum.ne', if_false, Bool.false_eq_true, hLn, hLd, he2, hsd]
  have hbits : (e + 1074).toNat * 2 ^ 52 + m < 2047 * 2 ^ 52 := by
    rcases hcase with ⟨_, hm2, he1, he3⟩ | ⟨hm1, he⟩
    · have : (e + 1074).toNat ≤ 2045 := by omega
      have h52 : (2 : Nat) ^ 53 = 2 * 2 ^ 52 := by norm_num
      nlinarith [Nat.mul_le_mul_right (2 ^ 52) this]
    · subst he
      simp
      omega
  have hr : ¬ (d < 2 * 0 ∨ (2 * 0 = d ∧ m % 2 = 1)) := by omega
  simp only [hr, if_false, hbits, if_true]
  simp

/-! ## The shortest decimal of a `float64` is read back as it -/

theorem finite_fields (f : Float64) (hfin : f.isFinite = true) (hnz : f.bits % 2 ^ 63 ≠ 0) :
    0 < f.significand ∧
    ((2 ^ 52 ≤ f.significand ∧ f.significand < 2 ^ 53 ∧ -1074 ≤ f.exponent ∧
        f.exponent ≤ 971) ∨ (f.significand < 2 ^ 52 ∧ f.exponent = -1074)) ∧
    f.bits % 2 ^ 63 = (f.exponent + 1074).toNat * 2 ^ 52 + f.significand ∧
    f.bits = (if f.signBit then 2 ^ 63 else 0) + f.bits % 2 ^ 63 := by
  obtain ⟨bits⟩ := f
  simp only [Float64.isFinite, Float64.isNaN, Float64.isInf, Float64.expField,
    Float64.mantField, Bool.and_eq_true, decide_eq_true_eq, Bool.not_eq_true',
    Bool.and_eq_false_imp, bne_iff_ne, ne_eq, beq_iff_eq] at hfin
  obtain ⟨⟨hlt, hnan⟩, hinf⟩ := hfin
  have hE : bits / 2 ^ 52 % 2048 ≠ 2047 := by
    intro h
    by_cases hmz : bits % 2 ^ 52 = 0
    · have := hinf h
      simp at this
      exact this hmz
    · have := hnan h
      simp at this
      exact hmz this
  simp only [Float64.significand, Float64.exponent, Float64.expField, Float64.mantField,
    Float64.signBit]
  norm_num at hlt hE hnz ⊢
  by_cases hE0 : bits / 4503599627370496 % 2048 = 0
  · simp only [hE0, if_true]
    refine ⟨by omega, Or.inr ⟨by omega, by simp⟩, by omega, ?_⟩
    split <;> omega
  · simp only [hE0, if_false]
    refine ⟨by omega, Or.inl ⟨by omega, by omega, by omega, by omega⟩, by omega, ?_⟩
    split <;> omega

theorem ten_pow_mono (a b : Nat) (hab : a ≤ b) : 10 ^ a ≤ 10 ^ b :=
  Nat.pow_le_pow_right (by decide) hab

theorem ten_pow_strict_mono (a b : Nat) (hab : a < b) : 10 ^ a < 10 ^ b :=
  Nat.pow_lt_pow_right (by decide) hab

theorem digitCount_ten_le (x N : Nat) (hx : x < 10 ^ N) : digitCount 10 x x ≤ N := by
  rcases Nat.eq_zero_or_pos x with h | h
  · subst h; simp [digitCount]
  · obtain ⟨h1, h2, _⟩ := digitCount_bounds 10 (by norm_num) x x h (le_refl _)
    have : 10 ^ (digitCount 10 x x - 1) < 10 ^ N := lt_of_le_of_lt h2 hx
    have := (Nat.pow_lt_pow_iff_right (by norm_num : 1 < 10)).mp this
    omega

theorem natToDecimal_length_pos (d : Nat) : 1 ≤ (natToDecimal d).length := by
  have := natToDecimal_ne_nil d
  cases hl : natToDecimal d with
  | nil => exact absurd hl this
  | cons a as => simp

theorem getD_cases {α : Type} (o : Option α) (fb : α) (P : α → Prop)
    (h1 : ∀ p, o = some p → P p) (h2 : o = none → P fb) : P (o.getD fb) := by
  cases o with
  | none => exact h2 rfl
  | some p => exact h1 p rfl

theorem exponent_small (len : Nat) (k k0 : Int) (h1 : 1 ≤ len) (h2 : len ≤ 2220 + 1)
    (h3 : k ≤ k0) (h4 : k0 - 20 < k) (h5 : -1100 ≤ k0 ∧ k0 ≤ 1100) :
    ((len : Int) + k - 1).natAbs < 10000 := by
  omega

theorem negSucc_small (j K : Nat) (k0 : Int) (h4 : k0 - 20 < Int.negSucc j)
    (hk0 : -(K : Int) ≤ k0) : j + 1 ≤ K + 20 := by
  rw [Int.negSucc_eq] at h4
  omega

theorem search_digits_bound (target : Float64) (num den : Nat) (k0 : Int) (d : Nat) (k : Int)
    (A K : Nat) (h : shortestSearch target num den 20 k0 = some (d, k))
    (hnum : num < 10 ^ A) (hk0 : -(K : Int) ≤ k0) :
    d < 10 ^ (A + (K + 20) + 1) := by
  obtain ⟨_, _, _, h4, h5⟩ := shortestSearch_spec target num den 20 k0 d k h
  have hstep : (10 : Nat) ^ (A + (K + 20)) < 10 ^ (A + (K + 20) + 1) :=
    Nat.pow_lt_pow_right (by norm_num) (by omega)
  rcases h5 with ⟨j, hj, hdj⟩ | ⟨j, hj, hdj⟩
  · have hq : num / (den * 10 ^ j) ≤ num := Nat.div_le_self _ _
    have h10 : (10 : Nat) ^ A ≤ 10 ^ (A + (K + 20)) :=
      ten_pow_mono _ _ (by omega)
    exact lt_of_le_of_lt (le_trans hdj (Nat.add_le_add_right hq 1))
      (lt_of_le_of_lt (le_trans (Nat.succ_le_of_lt hnum) h10) hstep)
  · have hj' : j + 1 ≤ K + 20 := by
      rw [hj] at h4
      exact negSucc_small j K k0 (by push_cast at h4; exact h4) hk0
    have hq : num * 10 ^ (j + 1) / den ≤ num * 10 ^ (j + 1) := Nat.div_le_self _ _
    have hlt : num * 10 ^ (j + 1) < 10 ^ (A + (K + 20)) := by
      calc num * 10 ^ (j + 1) ≤ num * 10 ^ (K + 20) :=
            Nat.mul_le_mul_left _ (Nat.pow_le_pow_right (by norm_num) hj')
        _ < 10 ^ A * 10 ^ (K + 20) :=
            Nat.mul_lt_mul_of_pos_right hnum (Nat.pow_pos (by norm_num))
        _ = 10 ^ (A + (K + 20)) := by rw [← pow_add]
    exact lt_of_le_of_lt (le_trans hdj (Nat.add_le_add_right hq 1))
      (lt_of_le_of_lt (Nat.succ_le_of_lt hlt) hstep)

theorem search_bounds (target : Float64) (num den : Nat) (k0 : Int) (p : Nat × Int)
    (h : shortestSearch target num den 20 k0 = some p)
    (hnum : num < 10 ^ 1100) (hk0 : -1100 ≤ k0 ∧ k0 ≤ 1100) :
    p.1 ≠ 0 ∧ decimalToFloat64 false p.1 p.2 = some target ∧
      (((natToDecimal p.1).length : Int) + p.2 - 1).natAbs < 10000 := by
  obtain ⟨d, k⟩ := p
  obtain ⟨h1, h2, h3, h4, _⟩ := shortestSearch_spec target num den 20 k0 d k h
  refine ⟨h1, h2, ?_⟩
  have hlen1 := natToDecimal_length_pos d
  have hd := search_digits_bound target num den k0 d k 1100 1100 h hnum
    (by push_cast; exact hk0.1)
  have hlen2 := natToDecimal_length_le d (1100 + (1100 + 20)) hd
  exact exponent_small _ k k0 hlen1 hlen2 h3 (by push_cast at h4; exact h4) hk0

theorem two_pow_le_ten_pow (n : Nat) : (2 : Nat) ^ n ≤ 10 ^ n :=
  Nat.pow_le_pow_left (by norm_num) n

theorem shortest_spec (f : Float64) (hfin : f.isFinite = true) (hnz : f.bits % 2 ^ 63 ≠ 0) :
    f.shortest.1 ≠ 0 ∧
    decimalToFloat64 false f.shortest.1 f.shortest.2 = some ⟨f.bits % 2 ^ 63⟩ ∧
    (((natToDecimal f.shortest.1).length : Int) + f.shortest.2 - 1).natAbs < 10000 := by
  obtain ⟨hm, hcase, habs, _⟩ := finite_fields f hfin hnz
  have hmlt : f.significand < 2 ^ 53 := by
    rcases hcase with ⟨_, h, _, _⟩ | ⟨h, _⟩
    · exact h
    · have : (2 : Nat) ^ 52 < 2 ^ 53 := by norm_num
      omega
  have hm10 : f.significand < 10 ^ 53 := lt_of_lt_of_le hmlt (two_pow_le_ten_pow 53)
  have hmnum : f.significand < 10 ^ 1100 :=
    lt_of_lt_of_le hm10 (ten_pow_mono 53 1100 (by decide))
  unfold Float64.shortest
  split
  · -- exponent ≥ 0
    rename_i i hi
    have hi' : f.exponent = (i : Int) := hi
    have hile : i ≤ 971 := by
      rcases hcase with ⟨_, _, _, h⟩ | ⟨_, h⟩ <;> omega
    have hnum' : f.significand * 2 ^ i < 10 ^ (1023 + 1) := by
      calc f.significand * 2 ^ i < 10 ^ 53 * 2 ^ i :=
            Nat.mul_lt_mul_of_pos_right hm10 (Nat.pow_pos (by norm_num))
        _ ≤ 10 ^ 53 * 10 ^ i := Nat.mul_le_mul_left _ (two_pow_le_ten_pow i)
        _ = 10 ^ (53 + i) := by rw [← pow_add]
        _ ≤ 10 ^ (1023 + 1) := ten_pow_mono _ _ (by omega)
    have hnum : f.significand * 2 ^ i < 10 ^ 1100 :=
      lt_of_lt_of_le hnum' (ten_pow_mono _ _ (by decide))
    refine getD_cases _ _ (fun p : Nat × Int => p.1 ≠ 0 ∧
      decimalToFloat64 false p.1 p.2 = some ⟨f.bits % 2 ^ 63⟩ ∧
      (((natToDecimal p.1).length : Int) + p.2 - 1).natAbs < 10000) ?_ ?_
    · intro p hs
      exact search_bounds _ _ _ _ p hs hnum
        ⟨by omega, by have := digitCount_ten_le _ 1100 hnum; omega⟩
    · intro _
      refine ⟨Nat.mul_ne_zero hm.ne' (by positivity), ?_, ?_⟩
      · have hX : ((f.significand * 2 ^ i * 10 ^ 0 : Nat) : ℚ) / ((1 : Nat) : ℚ) =
            (f.significand : ℚ) * (2 : ℚ) ^ f.exponent := by
          rw [hi', zpow_natCast]; push_cast; ring
        have := roundFloat64_exact _ 1 f.significand f.exponent (by norm_num) hm hX hcase
        rw [habs]
        exact this
      · have := natToDecimal_length_le _ 1023 hnum'
        have := natToDecimal_length_pos (f.significand * 2 ^ i)
        show (((natToDecimal (f.significand * 2 ^ i)).length : Int) + 0 - 1).natAbs < 10000
        omega
  · -- exponent < 0
    rename_i i hi
    have hi' : f.exponent = Int.negSucc i := hi
    have hile : i + 1 ≤ 1074 := by
      rcases hcase with ⟨_, _, h, _⟩ | ⟨_, h⟩ <;> rw [hi', Int.negSucc_eq] at h <;> omega
    have hfallback : (f.significand * 5 ^ (i + 1), Int.negSucc i).1 ≠ 0 ∧
        decimalToFloat64 false (f.significand * 5 ^ (i + 1), Int.negSucc i).1
          (f.significand * 5 ^ (i + 1), Int.negSucc i).2 = some ⟨f.bits % 2 ^ 63⟩ ∧
        (((natToDecimal (f.significand * 5 ^ (i + 1), Int.negSucc i).1).length : Int) +
          (f.significand * 5 ^ (i + 1), Int.negSucc i).2 - 1).natAbs < 10000 := by
      refine ⟨Nat.mul_ne_zero hm.ne' (by positivity), ?_, ?_⟩
      · have hX : ((f.significand * 5 ^ (i + 1) : Nat) : ℚ) / ((10 ^ (i + 1) : Nat) : ℚ) =
            (f.significand : ℚ) * (2 : ℚ) ^ f.exponent := by
          rw [hi', zpow_negSucc]
          push_cast
          have h10 : (10 : ℚ) ^ (i + 1) = 2 ^ (i + 1) * 5 ^ (i + 1) := by
            rw [← mul_pow]; norm_num
          rw [h10]
          field_simp
          ring
        have := roundFloat64_exact _ (10 ^ (i + 1)) f.significand f.exponent
          (Nat.pow_pos (by norm_num)) hm hX hcase
        rw [habs]
        exact this
      · have hd : f.significand * 5 ^ (i + 1) < 10 ^ (1199 + 1) := by
          calc f.significand * 5 ^ (i + 1) < 10 ^ 53 * 5 ^ (i + 1) :=
                Nat.mul_lt_mul_of_pos_right hm10 (Nat.pow_pos (by norm_num))
            _ ≤ 10 ^ 53 * 10 ^ (i + 1) :=
                Nat.mul_le_mul_left _ (Nat.pow_le_pow_left (by norm_num) _)
            _ = 10 ^ (53 + (i + 1)) := by rw [← pow_add]
            _ ≤ 10 ^ (1199 + 1) := ten_pow_mono _ _ (by omega)
        have := natToDecimal_length_le _ 1199 hd
        have := natToDecimal_length_pos (f.significand * 5 ^ (i + 1))
        show (((natToDecimal (f.significand * 5 ^ (i + 1))).length : Int) +
          Int.negSucc i - 1).natAbs < 10000
        rw [Int.negSucc_eq]
        omega
    dsimp only
    split
    · rename_i hge
      refine getD_cases _ _ (fun p : Nat × Int => p.1 ≠ 0 ∧
        decimalToFloat64 false p.1 p.2 = some ⟨f.bits % 2 ^ 63⟩ ∧
        (((natToDecimal p.1).length : Int) + p.2 - 1).natAbs < 10000) ?_ ?_
      · intro p hs
        have hq : f.significand / 2 ^ (i + 1) < 10 ^ 1100 :=
          lt_of_le_of_lt (Nat.div_le_self _ _) hmnum
        exact search_bounds _ _ _ _ p hs hmnum
          ⟨by omega, by have := digitCount_ten_le _ 1100 hq; omega⟩
      · intro _
        exact hfallback
    · rename_i hlt
      refine getD_cases _ _ (fun p : Nat × Int => p.1 ≠ 0 ∧
        decimalToFloat64 false p.1 p.2 = some ⟨f.bits % 2 ^ 63⟩ ∧
        (((natToDecimal p.1).length : Int) + p.2 - 1).natAbs < 10000) ?_ ?_
      · intro p hs
        have hq : 2 ^ (i + 1) / f.significand < 10 ^ 1100 := by
          have h1 : 2 ^ (i + 1) / f.significand ≤ 2 ^ (i + 1) := Nat.div_le_self _ _
          have h2 : (2 : Nat) ^ (i + 1) ≤ 10 ^ (i + 1) := two_pow_le_ten_pow _
          have h3 : (10 : Nat) ^ (i + 1) < 10 ^ 1100 :=
            ten_pow_strict_mono _ _ (by omega)
          omega
        exact search_bounds _ _ _ _ p hs hmnum
          ⟨by have := digitCount_ten_le _ 1100 hq; omega, by omega⟩
      · intro _
        exact hfallback

/-! ## A finite `float64` is written as a number literal that is read back as it -/

theorem numberText_sign (s : Bool) (ints fracs : List Nat) (exp : Option (Bool × List Nat)) :
    (if s = true then [0x2D] else []) ++ numberText false ints fracs exp =
      numberText s ints fracs exp := by
  cases s <;> simp [numberText]

theorem natToDecimal_shape (d : Nat) (hd : d ≠ 0) :
    ∃ c tl, natToDecimal d = c :: tl ∧ isDigit c = true ∧ c ≠ 0x30 ∧
      ∀ x ∈ tl, isDigit x = true := by
  have hne := natToDecimal_ne_nil d
  have hdig := natToDecimal_digits d
  have hhead := natToDecimal_head d (Nat.pos_of_ne_zero hd)
  cases hl : natToDecimal d with
  | nil => exact absurd hl hne
  | cons c tl =>
    rw [hl] at hdig hhead
    refine ⟨c, tl, rfl, hdig c (List.mem_cons_self _ _), ?_,
      fun x hx => hdig x (List.mem_cons_of_mem _ hx)⟩
    intro h
    rw [h] at hhead
    exact hhead rfl

theorem formatFloat64_numberText (f : Float64) (hfin : f.isFinite = true) :
    ∃ ints fracs exp, formatFloat64 f = numberText f.signBit ints fracs exp ∧
      (ints = [0x30] ∨ ∃ c ints', ints = c :: ints' ∧ isDigit c = true ∧ c ≠ 0x30 ∧
        ∀ x ∈ ints', isDigit x = true) ∧
      (∀ x ∈ fracs, isDigit x = true) ∧
      (∀ p, exp = some p → p.2 ≠ [] ∧ ∀ c ∈ p.2, isDigit c = true) ∧
      parseFloat64 (numberText f.signBit ints fracs exp) = some f := by
  have hstruct : ∀ g : Float64, g = ⟨g.bits⟩ := fun g => rfl
  by_cases hz : f.bits % 2 ^ 63 = 0
  · -- zero
    refine ⟨[0x30], [], none, ?_, Or.inl rfl, by simp, by simp, ?_⟩
    · unfold formatFloat64
      simp only [hz, if_true]
      rw [← numberText_sign]
      simp [numberText]
    · rw [parseFloat64_numberText _ _ _ _ (by simp) (by simp [isDigit]) (by simp)]
      have hbits : f.bits = (if f.signBit then 2 ^ 63 else 0) := by
        obtain ⟨bits⟩ := f
        simp only [Float64.isFinite, Bool.and_eq_true, decide_eq_true_eq] at hfin
        have hlt := hfin.1.1
        simp only [Float64.signBit] at hz ⊢
        norm_num at hz hlt ⊢
        split <;> omega
      have : digitsValue ([0x30] ++ []) = 0 := by simp [digitsValue]
      rw [this]
      simp only [List.length_nil, Nat.cast_zero, sub_zero]
      show decimalToFloat64 f.signBit 0 (Int.ofNat 0) = some f
      have hf : f = ⟨if f.signBit then 2 ^ 63 else 0⟩ := by rw [← hbits]
      generalize f.signBit = s at hf ⊢
      rw [hf]
      cases s <;> simp [decimalToFloat64, roundFloat64]
  · obtain ⟨hd0, hdec, hbound⟩ := shortest_spec f hfin hz
    obtain ⟨_, _, _, hbits⟩ := finite_fields f hfin hz
    obtain ⟨c, tl, hdigs, hc, hc0, htl⟩ := natToDecimal_shape f.shortest.1 hd0
    have hval : digitsValue (c :: tl) = f.shortest.1 := by
      rw [← hdigs, natToDecimal_value]
    have hsigned : decimalToFloat64 f.signBit f.shortest.1 f.shortest.2 = some f := by
      rw [decimalToFloat64_sign, hdec]
      simp only [Option.map_some']
      rw [hstruct f]
      congr 1
      congr 1
      exact hbits.symm
    have hlen : ((natToDecimal f.shortest.1).length : Int) = ((c :: tl).length : Int) := by
      rw [hdigs]
    by_cases hfmt : f.bits % 2 ^ 63 < 0x3EB0C6F7A0B5ED8D ∨ 0x444B1AE4D6E2EF50 ≤ f.bits % 2 ^ 63
    · -- layout %e
      have hb : (((c :: tl).length : Int) + f.shortest.2 - 1).natAbs < 10000 := by
        rw [← hlen]; exact hbound
      obtain ⟨htext, hvalue⟩ := formatE_numberText c tl (((c :: tl).length : Int) +
        f.shortest.2) hb
      refine ⟨[c], tl, some (decide (((c :: tl).length : Int) + f.shortest.2 - 1 < 0),
        natToDecimal (((c :: tl).length : Int) + f.shortest.2 - 1).natAbs), ?_,
        Or.inr ⟨c, [], rfl, hc, hc0, by simp⟩, htl, ?_, ?_⟩
      · unfold formatFloat64
        simp only [hz, if_false, hfmt, if_true, hdigs]
        rw [htext, numberText_sign]
      · intro p hp
        injection hp with hp
        subst hp
        exact ⟨natToDecimal_ne_nil _, natToDecimal_digits _⟩
      · rw [parseFloat64_numberText _ _ _ _ (by simp) (by simpa using hc) htl]
        have := hvalue f.signBit
        simp only at this ⊢
        rw [this, hval]
        have hk : ((c :: tl).length : Int) + f.shortest.2 - ((c :: tl).length : Int) =
            f.shortest.2 := by ring
        rw [hk]
        exact hsigned
    · -- layout %f
      obtain ⟨ints, fracs, htext, hints, hfracs, hvalue⟩ := formatF_numberText c tl
        (((c :: tl).length : Int) + f.shortest.2) hc hc0 htl
      refine ⟨ints, fracs, none, ?_, hints, hfracs, by simp, ?_⟩
      · unfold formatFloat64
        simp only [hz, if_false, hfmt, hdigs]
        rw [htext, numberText_sign]
      · have hne : ints ≠ [] := by
          rcases hints with h | ⟨c', i', h, _⟩ <;> rw [h] <;> simp
        have hid : ∀ x ∈ ints, isDigit x = true := by
          rcases hints with h | ⟨c', i', h, h1, _, h2⟩
          · rw [h]; simp [isDigit]
          · rw [h]
            intro x hx
            rcases List.mem_cons.mp hx with hx | hx
            · rw [hx]; exact h1
            · exact h2 x hx
        rw [parseFloat64_numberText _ _ _ _ hne hid hfracs]
        have := hvalue f.signBit
        simp only at this ⊢
        rw [this, hval]
        have hk : ((c :: tl).length : Int) + f.shortest.2 - ((c :: tl).length : Int) =
            f.shortest.2 := by ring
        rw [hk]
        exact hsigned

theorem float64_roundtrip (f : Float64) (hfin : f.isFinite = true) (rest : List Nat)
    (hrest : delimited rest = true) :
    scanNumber (formatFloat64 f ++ rest) = some (formatFloat64 f, rest) ∧
      parseFloat64 (formatFloat64 f) = some f := by
  obtain ⟨ints, fracs, exp, htext, hints, hfracs, hexp, hparse⟩ :=
    formatFloat64_numberText f hfin
  rw [htext]
  exact ⟨scanNumber_numberText _ ints fracs exp rest hints hfracs hexp hrest, hparse⟩

/-! ## UTF-8: a valid encoding is decoded and encoded back to itself -/

theorem decodeRune_valid (b : Nat) (tl : List Nat) (hb : ¬ b < 0x80)
    (hv : ¬ ((decodeRune (b :: tl)).1 = runeError ∧ (decodeRune (b :: tl)).2 = 1)) :
    ∃ bytes ts, tl = bytes ++ ts ∧ (decodeRune (b :: tl)).2 = bytes.length + 1 ∧
      1 ≤ bytes.length ∧
      encodeRune (decodeRune (b :: tl)).1 = b :: bytes ∧
      ∀ X, decodeRune (b :: (bytes ++ X)) = decodeRune (b :: tl) := by
  unfold decodeRune at hv ⊢
  simp only [hb, if_false] at hv ⊢
  by_cases h1 : b < 0xC2
  · simp [h1] at hv
  simp only [h1, if_false] at hv ⊢
  by_cases h2 : b < 0xE0
  · simp only [h2, if_true] at hv ⊢
    cases tl with
    | nil => simp at hv
    | cons b1 ts =>
      by_cases hc1 : isContinuation b1 = true
      · simp only [hc1, if_true] at hv ⊢
        refine ⟨[b1], ts, rfl, rfl, by simp, ?_, fun X => by simp [hc1]⟩
        simp only [isContinuation, Bool.and_eq_true, decide_eq_true_eq] at hc1
        unfold encodeRune
        have e1 : ¬ (b % 32 * 64 + b1 % 64 ≤ 0x7F) := by omega
        have e2 : b % 32 * 64 + b1 % 64 ≤ 0x7FF := by omega
        simp only [e1, e2, if_true, if_false]
        have e3 : 0xC0 + (b % 32 * 64 + b1 % 64) / 64 = b := by omega
        have e4 : 0x80 + (b % 32 * 64 + b1 % 64) % 64 = b1 := by omega
        rw [e3, e4]
      · simp [hc1] at hv
  simp only [h2, if_false] at hv ⊢
  by_cases h3 : b < 0xF0
  · simp only [h3, if_true] at hv ⊢
    match tl, hv with
    | [], hv => simp at hv
    | [_], hv => simp at hv
    | b1 :: b2 :: ts, hv =>
      simp only at hv ⊢
      by_cases hc : (decide ((if b = 0xE0 then 0xA0 else 0x80) ≤ b1) &&
          decide (b1 ≤ (if b = 0xED then 0x9F else 0xBF)) && isContinuation b2) = true
      · simp only [hc, if_true] at hv ⊢
        refine ⟨[b1, b2], ts, rfl, rfl, by simp, ?_, fun X => by simp [hc]⟩
        simp only [isContinuation, Bool.and_eq_true, decide_eq_true_eq] at hc
        obtain ⟨⟨hlo, hhi⟩, hc2, hc3⟩ := hc
        have g1 : 0x80 ≤ b1 ∧ b1 ≤ 0xBF := by
          split at hlo <;> split at hhi <;> omega
        have g2 : b = 0xE0 → 0xA0 ≤ b1 := by
          intro h; rw [if_pos h] at hlo; exact hlo
        have g3 : b = 0xED → b1 ≤ 0x9F := by
          intro h; rw [if_pos h] at hhi; exact hhi
        clear hlo hhi hv
        unfold encodeRune
        have e1 : ¬ (b % 16 * 4096 + b1 % 64 * 64 + b2 % 64 ≤ 0x7F) := by
          omega
        have e2 : ¬ (b % 16 * 4096 + b1 % 64 * 64 + b2 % 64 ≤ 0x7FF) := by
          omega
        have e3 : ¬ (0x10FFFF < b % 16 * 4096 + b1 % 64 * 64 + b2 % 64 ∨
            (0xD800 ≤ b % 16 * 4096 + b1 % 64 * 64 + b2 % 64 ∧
              b % 16 * 4096 + b1 % 64 * 64 + b2 % 64 ≤ 0xDFFF)) := by
          omega
        have e4 : b % 16 * 4096 + b1 % 64 * 64 + b2 % 64 ≤ 0xFFFF := by omega
        simp only [e1, e2, e3, e4, if_true, if_false]
        have f1 : 0xE0 + (b % 16 * 4096 + b1 % 64 * 64 + b2 % 64) / 4096 = b := by omega
        have f2 : 0x80 + (b % 16 * 4096 + b1 % 64 * 64 + b2 % 64) / 64 % 64 = b1 := by
          omega
        have f3 : 0x80 + (b % 16 * 4096 + b1 % 64 * 64 + b2 % 64) % 64 = b2 := by omega
        rw [f1, f2, f3]
      · simp [hc] at hv
  simp only [h3, if_false] at hv ⊢
  by_cases h4 : b < 0xF5
  · simp only [h4, if_true] at hv ⊢
    match tl, hv with
    | [], hv => simp at hv
    | [_], hv => simp at hv
    | [_, _], hv => simp at hv
    | b1 :: b2 :: b3 :: ts, hv =>
      simp only at hv ⊢
      by_cases hc : (decide ((if b = 0xF0 then 0x90 else 0x80) ≤ b1) &&
          decide (b1 ≤ (if b = 0xF4 then 0x8F else 0xBF)) && isContinuation b2 &&
          isContinuation b3) = true
      · simp only [hc, if_true] at hv ⊢
        refine ⟨[b1, b2, b3], ts, rfl, rfl, by simp, ?_, fun X => by simp [hc]⟩
        simp only [isContinuation, Bool.and_eq_true, decide_eq_true_eq] at hc
        obtain ⟨⟨⟨hlo, hhi⟩, hc2, hc3⟩, hc4, hc5⟩ := hc
        have g1 : 0x80 ≤ b1 ∧ b1 ≤ 0xBF := by
          split at hlo <;> split at hhi <;> omega
        have g2 : b = 0xF0 → 0x90 ≤ b1 := by
          intro h; rw [if_pos h] at hlo; exact hlo
        have g3 : b = 0xF4 → b1 ≤ 0x8F := by
          intro h; rw [if_pos h] at hhi; exact hhi
        clear hlo hhi hv
        unfold encodeRune
        have e1 : ¬ (b % 8 * 262144 + b1 % 64 * 4096 + b2 % 64 * 64 + b3 % 64 ≤ 0x7F) := by
          omega
        have e2 : ¬ (b % 8 * 262144 + b1 % 64 * 4096 + b2 % 64 * 64 + b3 % 64 ≤ 0x7FF) := by
          omega
        have e3 : ¬ (0x10FFFF < b % 8 * 262144 + b1 % 64 * 4096 + b2 % 64 * 64 + b3 % 64 ∨
            (0xD800 ≤ b % 8 * 262144 + b1 % 64 * 4096 + b2 % 64 * 64 + b3 % 64 ∧
              b % 8 * 262144 + b1 % 64 * 4096 + b2 % 64 * 64 + b3 % 64 ≤ 0xDFFF)) := by
          omega
        have e4 : ¬ (b % 8 * 262144 + b1 % 64 * 4096 + b2 % 64 * 64 + b3 % 64 ≤ 0xFFFF) := by
          omega
        simp only [e1, e2, e3, e4, if_true, if_false]
        have f1 : 0xF0 + (b % 8 * 262144 + b1 % 64 * 4096 + b2 % 64 * 64 + b3 % 64) / 262144
            = b := by omega
        have f2 : 0x80 + (b % 8 * 262144 + b1 % 64 * 4096 + b2 % 64 * 64 + b3 % 64) / 4096 % 64
            = b1 := by
          omega
        have f3 : 0x80 + (b % 8 * 262144 + b1 % 64 * 4096 + b2 % 64 * 64 + b3 % 64) / 64 % 64
            = b2 := by omega
        have f4 : 0x80 + (b % 8 * 262144 + b1 % 64 * 4096 + b2 % 64 * 64 + b3 % 64) % 64
            = b3 := by omega
        rw [f1, f2, f3, f4]
      · simp [hc] at hv
  · simp [h4] at hv

/-! ## String literals: what `appendString` writes, the scanner reads back -/

theorem scanString_escapeByte (b : Nat) (hb : b < 0x80) (X : List Nat) (fuel : Nat) :
    scanString (fuel + 1) (escapeByte b ++ X) =
      (scanString fuel X).map (fun p => (b :: p.1, p.2)) := by
  interval_cases b <;>
    simp [escapeByte, htmlSafe, hexDigit, scanString, getu4, hexValue, encodeRune, runeError]

theorem escapeByte_length (b : Nat) : 1 ≤ (escapeByte b).length := by
  unfold escapeByte
  split_ifs <;> simp

theorem appendStringLoop_nil (fA : Nat) : appendStringLoop fA [] = [] := by
  cases fA <;> rfl

theorem scanString_appendStringLoop (n : Nat) :
    ∀ (s : List Nat) (fV fA fS : Nat) (rest : List Nat),
      s.length ≤ n → s.length ≤ fV → s.length ≤ fA → validUTF8Loop fV s = true →
      (appendStringLoop fA s).length + 1 ≤ fS →
      scanString fS (appendStringLoop fA s ++ 0x22 :: rest) = some (s, rest) := by
  induction n with
  | zero =>
    intro s fV fA fS rest hn _ _ _ hfS
    have hs : s = [] := List.eq_nil_of_length_eq_zero (by omega)
    subst hs
    rw [appendStringLoop_nil] at hfS ⊢
    obtain ⟨fS', rfl⟩ : ∃ k, fS = k + 1 := ⟨fS - 1, by simp at hfS; omega⟩
    simp [scanString]
  | succ n ih =>
    intro s fV fA fS rest hn hfV hfA hv hfS
    cases s with
    | nil =>
      rw [appendStringLoop_nil] at hfS ⊢
      obtain ⟨fS', rfl⟩ : ∃ k, fS = k + 1 := ⟨fS - 1, by simp at hfS; omega⟩
      simp [scanString]
    | cons b tl =>
      simp only [List.length_cons] at hn hfV hfA
      obtain ⟨fV', rfl⟩ : ∃ k, fV = k + 1 := ⟨fV - 1, by omega⟩
      obtain ⟨fA', rfl⟩ : ∃ k, fA = k + 1 := ⟨fA - 1, by omega⟩
      obtain ⟨fS', rfl⟩ : ∃ k, fS = k + 1 := ⟨fS - 1, by omega⟩
      rcases hdr : decodeRune (b :: tl) with ⟨c, size⟩
      simp only [validUTF8Loop, hdr] at hv
      by_cases hb : b < 0x80
      · have hd1 : decodeRune (b :: tl) = (b, 1) := by simp [decodeRune, hb]
        rw [hd1] at hdr
        injection hdr with hc hsz
        subst hc; subst hsz
        have hbne : b ≠ runeError := by
          simp only [runeError]; omega
        simp [hbne] at hv
        have hstep : appendStringLoop (fA' + 1) (b :: tl) =
            escapeByte b ++ appendStringLoop fA' tl := by
          simp [appendStringLoop, hb]
        rw [hstep] at hfS ⊢
        rw [List.append_assoc, scanString_escapeByte b hb]
        have hlen := escapeByte_length b
        rw [ih tl fV' fA' fS' rest (by omega) (by omega) (by omega) hv
          (by simp only [List.length_append] at hfS; omega)]
        rfl
      · have hvalid : ¬ ((decodeRune (b :: tl)).1 = runeError ∧
            (decodeRune (b :: tl)).2 = 1) := by
          rw [hdr]
          intro h
          simp only at h
          rw [if_pos h] at hv
          cases hv
        obtain ⟨bytes, ts, htl, hsize, hlen1, henc, hpre⟩ := decodeRune_valid b tl hb hvalid
        rw [hdr] at hsize henc hvalid
        simp only at hsize henc hvalid
        subst hsize
        subst htl
        have hdrop : (bytes ++ ts).drop (bytes.length + 1 - 1) = ts := by simp
        have htake : (bytes ++ ts).take (bytes.length + 1 - 1) = bytes := by simp
        simp only [hvalid, if_false, hdrop] at hv
        simp only [List.length_append] at hn hfV hfA
        have hb22 : ¬ (b = 0x22) := by omega
        have hb5C : ¬ (b = 0x5C) := by omega
        have hb20 : ¬ (b < 0x20) := by omega
        by_cases hsep : c = 0x2028 ∨ c = 0x2029
        · have hstep : appendStringLoop (fA' + 1) (b :: (bytes ++ ts)) =
              [0x5C, 0x75, 0x32, 0x30, 0x32, hexDigit (c % 16)] ++ appendStringLoop fA' ts := by
            simp only [appendStringLoop, hb, if_false, hdr, hvalid, hsep, if_true, hdrop]
          rw [hstep] at hfS ⊢
          have hrec := ih ts fV' fA' fS' rest (by omega) (by omega) (by omega) hv
            (by simp only [List.length_append, List.length_cons, List.length_nil] at hfS; omega)
          rcases hsep with h | h <;> subst h <;>
            simp [scanString, getu4, hexValue, hexDigit, hrec] <;>
            rw [henc] <;> simp
        · have hstep : appendStringLoop (fA' + 1) (b :: (bytes ++ ts)) =
              b :: bytes ++ appendStringLoop fA' ts := by
            simp only [appendStringLoop, hb, if_false, hdr, hvalid, hsep, hdrop, htake]
          rw [hstep] at hfS ⊢
          have hrec := ih ts fV' fA' fS' rest (by omega) (by omega) (by omega) hv
            (by simp only [List.length_append, List.length_cons] at hfS; omega)
          have hdec := hpre (appendStringLoop fA' ts ++ 0x22 :: rest)
          rw [hdr] at hdec
          have hdrop2 : (bytes ++ (appendStringLoop fA' ts ++ 0x22 :: rest)).drop
              (bytes.length + 1 - 1) = appendStringLoop fA' ts ++ 0x22 :: rest := by simp
          simp only [List.cons_append, List.append_assoc, scanString, hb22, hb5C, hb20, hb,
            if_false, hdec, hdrop2, hrec, Option.map_some', henc]

/-! ## Sorted keys: decoding the members of an object rebuilds the map -/

theorem strLt_irrefl (a : GoString) : strLt a a = false := by
  induction a with
  | nil => rfl
  | cons x xs ih => simp [strLt, ih]

theorem strLt_trans : ∀ (a b c : GoString), strLt a b = true → strLt b c = true →
    strLt a c = true
  | [], [], _, h, _ => by simp [strLt] at h
  | [], _ :: _, [], _, h => by simp [strLt] at h
  | [], _ :: _, _ :: _, _, _ => by simp [strLt]
  | _ :: _, [], _, h, _ => by simp [strLt] at h
  | _ :: _, _ :: _, [], _, h => by simp [strLt] at h
  | x :: xs, y :: ys, z :: zs, h1, h2 => by
    simp only [strLt] at h1 h2 ⊢
    by_cases hxy : x < y
    · by_cases hyz : y < z
      · have : x < z := by omega
        simp [this]
      · by_cases hzy : z < y
        · simp [hyz, hzy] at h2
        · have : x < z := by omega
          simp [this]
    · by_cases hyx : y < x
      · simp [hxy, hyx] at h1
      · simp only [hxy, hyx, if_false] at h1
        have hxy' : x = y := by omega
        subst hxy'
        by_cases hyz : x < z
        · simp [hyz]
        · by_cases hzy : z < x
          · simp [hyz, hzy] at h2
          · simp only [hyz, hzy, if_false] at h2 ⊢
            exact strLt_trans xs ys zs h1 h2

theorem keysSorted_tail {α : Type} (e : GoString × α) (l : List (GoString × α))
    (h : keysSorted (e :: l) = true) : keysSorted l = true := by
  cases l with
  | nil => rfl
  | cons e2 l' =>
    simp only [keysSorted, Bool.and_eq_true] at h
    exact h.2

theorem keysSorted_head_lt {α : Type} (e : GoString × α) (l : List (GoString × α))
    (h : keysSorted (e :: l) = true) : ∀ x ∈ l, strLt e.1 x.1 = true := by
  induction l generalizing e with
  | nil => intro x hx; cases hx
  | cons e2 l' ih =>
    intro x hx
    simp only [keysSorted, Bool.and_eq_true] at h
    rcases List.mem_cons.mp hx with hx | hx
    · subst hx; exact h.1
    · exact strLt_trans _ _ _ h.1 (ih e2 h.2 x hx)

theorem mapInsert_append_sorted {α : Type} (acc : List (GoString × α)) (k : GoString) (v : α)
    (h : keysSorted (acc ++ [(k, v)]) = true) : mapInsert acc k v = acc ++ [(k, v)] := by
  induction acc with
  | nil => rfl
  | cons e acc' ih =>
    obtain ⟨k0, v0⟩ := e
    have hlt : strLt k0 k = true :=
      keysSorted_head_lt (k0, v0) (acc' ++ [(k, v)]) h (k, v) (by simp)
    have hne : ¬ (k0 = k) := by
      intro heq
      rw [heq, strLt_irrefl] at hlt
      cases hlt
    have hnlt : ¬ (strLt k k0 = true) := by
      intro hkk
      have := strLt_trans _ _ _ hlt hkk
      rw [strLt_irrefl] at this
      cases this
    simp only [mapInsert, List.cons_append, hne, hnlt, if_false, Bool.false_eq_true]
    rw [ih (keysSorted_tail _ _ h)]

theorem toInterfaceMap_sorted (ms : List (GoString × JSON)) :
    ∀ (es acc : List (GoString × GoValue)),
      List.Forall₂ (fun m e => m.1 = e.1 ∧ JSON.toInterface m.2 = .ok e.2) ms es →
      keysSorted (acc ++ es) = true → JSON.toInterfaceMap acc ms = .ok (acc ++ es) := by
  induction ms with
  | nil =>
    intro es acc hf _
    cases hf
    simp [JSON.toInterfaceMap]
  | cons m ms ih =>
    intro es acc hf hs
    cases hf with
    | cons hhead htail =>
      rename_i e es'
      obtain ⟨mk, mj⟩ := m
      obtain ⟨ek, ev⟩ := e
      obtain ⟨hk, hv⟩ := hhead
      simp only at hk hv
      subst hk
      have hpre : keysSorted (acc ++ [(mk, ev)]) = true := by
        have : acc ++ (mk, ev) :: es' = (acc ++ [(mk, ev)]) ++ es' := by simp
        rw [this] at hs
        clear this
        generalize acc ++ [(mk, ev)] = l at hs
        induction l with
        | nil => rfl
        | cons a l ihl =>
          cases l with
          | nil => rfl
          | cons a2 l2 =>
            simp only [List.cons_append, keysSorted, Bool.and_eq_true] at hs ⊢
            exact ⟨hs.1, ihl hs.2⟩
      simp only [JSON.toInterfaceMap, hv]
      rw [mapInsert_append_sorted acc mk ev hpre]
      have := ih es' (acc ++ [(mk, ev)]) htail (by simpa using hs)
      simpa using this

/-! ## Reading back what `Marshal` wrote: one step of each loop -/

theorem skipSpace_startsValue (l r : List Nat) (h : startsValue l = true) :
    skipSpace (l ++ r) = l ++ r := by
  cases l with
  | nil => simp [startsValue] at h
  | cons c tl =>
    simp only [startsValue, Bool.and_eq_true, Bool.not_eq_true'] at h
    simp [skipSpace, h.1]

theorem skipSpace_cons (c : Nat) (l : List Nat) (h : isSpace c = false) :
    skipSpace (c :: l) = c :: l := by
  simp [skipSpace, h]

theorem startsValue_append (l r : List Nat) (h : startsValue l = true) :
    startsValue (l ++ r) = true := by
  cases l with
  | nil => simp [startsValue] at h
  | cons c tl => simpa [startsValue] using h

theorem parseElements_single (fuel depth : Nat) (encx : List Nat) (jx : JSON)
    (rest : List Nat)
    (hx : parseValue fuel depth (encx ++ 0x5D :: rest) = .ok (jx, 0x5D :: rest)) :
    parseElements (fuel + 1) depth (encx ++ 0x5D :: rest) = .ok ([jx], rest) := by
  simp [parseElements, hx, skipSpace, isSpace]

theorem parseElements_cons (fuel depth : Nat) (encx : List Nat) (jx : JSON) (J : List Nat)
    (js : List JSON) (rest : List Nat)
    (hx : parseValue fuel depth (encx ++ 0x2C :: (J ++ 0x5D :: rest)) =
      .ok (jx, 0x2C :: (J ++ 0x5D :: rest)))
    (hJ : startsValue J = true)
    (hrec : parseElements fuel depth (J ++ 0x5D :: rest) = .ok (js, rest)) :
    parseElements (fuel + 1) depth (encx ++ 0x2C :: (J ++ 0x5D :: rest)) =
      .ok (jx :: js, rest) := by
  have hsk : skipSpace (J ++ 0x5D :: rest) = J ++ 0x5D :: rest :=
    skipSpace_startsValue J _ hJ
  simp [parseElements, hx, skipSpace, isSpace, hsk, hrec]

theorem parseValue_array_empty (fuel depth : Nat) (rest : List Nat)
    (hdepth : depth + 1 ≤ maxNestingDepth) :
    parseValue (fuel + 1) depth (0x5B :: 0x5D :: rest) = .ok (.array [], rest) := by
  have hd : ¬ (maxNestingDepth < depth + 1) := by omega
  simp [parseValue, hd, skipSpace, isSpace]

theorem parseValue_array (fuel depth : Nat) (J : List Nat) (js : List JSON)
    (rest : List Nat) (hdepth : depth + 1 ≤ maxNestingDepth) (hJ : startsValue J = true)
    (hrec : parseElements fuel (depth + 1) (J ++ 0x5D :: rest) = .ok (js, rest)) :
    parseValue (fuel + 1) depth (0x5B :: (J ++ 0x5D :: rest)) = .ok (.array js, rest) := by
  have hd : ¬ (maxNestingDepth < depth + 1) := by omega
  have hsk : skipSpace (J ++ 0x5D :: rest) = J ++ 0x5D :: rest :=
    skipSpace_startsValue J _ hJ
  cases J with
  | nil => simp [startsValue] at hJ
  | cons c tl =>
    simp only [startsValue, Bool.and_eq_true, Bool.not_eq_true', bne_iff_ne, ne_eq] at hJ
    simp only [List.cons_append] at hsk hrec
    simp only [parseValue, List.cons_append, hd, if_false, hsk]
    simp [hJ.2, hrec]

theorem scanString_body (k : GoString) (hv : validUTF8 k = true) (R : List Nat) :
    scanString (appendStringLoop k.length k ++ 0x22 :: R).length
      (appendStringLoop k.length k ++ 0x22 :: R) = some (k, R) :=
  scanString_appendStringLoop k.length k k.length k.length _ R (le_refl _) (le_refl _)
    (le_refl _) hv (by simp)

theorem appendString_eq (k : GoString) (R : List Nat) :
    appendString k ++ R = 0x22 :: (appendStringLoop k.length k ++ 0x22 :: R) := by
  simp [appendString]

theorem parseMembers_single (fuel depth : Nat) (k : GoString) (encv : List Nat) (jv : JSON)
    (rest : List Nat) (hk : validUTF8 k = true) (hsv : startsValue encv = true)
    (hx : parseValue fuel depth (encv ++ 0x7D :: rest) = .ok (jv, 0x7D :: rest)) :
    parseMembers (fuel + 1) depth (appendString k ++ 0x3A :: (encv ++ 0x7D :: rest)) =
      .ok ([(k, jv)], rest) := by
  rw [appendString_eq]
  have hsk : skipSpace (encv ++ 0x7D :: rest) = encv ++ 0x7D :: rest :=
    skipSpace_startsValue encv _ hsv
  simp only [parseMembers, scanString_body k hk]
  simp [skipSpace, isSpace, hsk, hx]

theorem parseMembers_cons (fuel depth : Nat) (k : GoString) (encv : List Nat) (jv : JSON)
    (J : List Nat) (ms : List (GoString × JSON)) (rest : List Nat)
    (hk : validUTF8 k = true) (hsv : startsValue encv = true)
    (hx : parseValue fuel depth (encv ++ 0x2C :: (J ++ 0x7D :: rest)) =
      .ok (jv, 0x2C :: (J ++ 0x7D :: rest)))
    (hJ : startsValue J = true)
    (hrec : parseMembers fuel depth (J ++ 0x7D :: rest) = .ok (ms, rest)) :
    parseMembers (fuel + 1) depth
        (appendString k ++ 0x3A :: (encv ++ 0x2C :: (J ++ 0x7D :: rest))) =
      .ok ((k, jv) :: ms, rest) := by
  rw [appendString_eq]
  have hsk : skipSpace (encv ++ 0x2C :: (J ++ 0x7D :: rest)) =
      encv ++ 0x2C :: (J ++ 0x7D :: rest) := skipSpace_startsValue encv _ hsv
  have hsk2 : skipSpace (J ++ 0x7D :: rest) = J ++ 0x7D :: rest :=
    skipSpace_startsValue J _ hJ
  simp only [parseMembers, scanString_body k hk]
  simp [skipSpace, isSpace, hsk, hx, hsk2, hrec]

theorem parseValue_object_empty (fuel depth : Nat) (rest : List Nat)
    (hdepth : depth + 1 ≤ maxNestingDepth) :
    parseValue (fuel + 1) depth (0x7B :: 0x7D :: rest) = .ok (.object [], rest) := by
  have hd : ¬ (maxNestingDepth < depth + 1) := by omega
  simp [parseValue, hd, skipSpace, isSpace]

theorem parseValue_object (fuel depth : Nat) (J : List Nat) (ms : List (GoString × JSON))
    (rest : List Nat) (hdepth : depth + 1 ≤ maxNestingDepth)
    (hJ : ∃ tl, J = 0x22 :: tl)
    (hrec : parseMembers fuel (depth + 1) (J ++ 0x7D :: rest) = .ok (ms, rest)) :
    parseValue (fuel + 1) depth (0x7B :: (J ++ 0x7D :: rest)) = .ok (.object ms, rest) := by
  have hd : ¬ (maxNestingDepth < depth + 1) := by omega
  obtain ⟨tl, rfl⟩ := hJ
  simp only [List.cons_append] at hrec
  simp [parseValue, hd, skipSpace, isSpace, hrec]

theorem parseValue_null (fuel depth : Nat) (rest : List Nat) :
    parseValue (fuel + 1) depth (ascii "null" ++ rest) = .ok (.null, rest) := by
  have : ascii "null" = [0x6E, 0x75, 0x6C, 0x6C] := by rfl
  rw [this]
  simp [parseValue, expectLiteral]

theorem parseValue_true (fuel depth : Nat) (rest : List Nat) :
    parseValue (fuel + 1) depth (ascii "true" ++ rest) = .ok (.bool true, rest) := by
  have : ascii "true" = [0x74, 0x72, 0x75, 0x65] := by rfl
  rw [this]
  simp [parseValue, expectLiteral]

theorem parseValue_false (fuel depth : Nat) (rest : List Nat) :
    parseValue (fuel + 1) depth (ascii "false" ++ rest) = .ok (.bool false, rest) := by
  have : ascii "false" = [0x66, 0x61, 0x6C, 0x73, 0x65] := by rfl
  rw [this]
  simp [parseValue, expectLiteral]

theorem parseValue_string (fuel depth : Nat) (s : GoString) (hv : validUTF8 s = true)
    (rest : List Nat) :
    parseValue (fuel + 1) depth (appendString s ++ rest) = .ok (.string s, rest) := by
  rw [appendString_eq]
  simp only [parseValue, scanString_body s hv]
  simp

theorem numberText_head (neg : Bool) (ints fracs : List Nat) (exp : Option (Bool × List Nat))
    (hints : ints = [0x30] ∨ ∃ c ints', ints = c :: ints' ∧ isDigit c = true ∧ c ≠ 0x30 ∧
      ∀ x ∈ ints', isDigit x = true) :
    ∃ c tl, numberText neg ints fracs exp = c :: tl ∧ (c = 0x2D ∨ isDigit c = true) := by
  cases neg with
  | true =>
    refine ⟨0x2D, (numberText true ints fracs exp).tail, ?_, Or.inl rfl⟩
    simp [numberText]
  | false =>
    rcases hints with rfl | ⟨c, ints', rfl, hc, _, _⟩
    · refine ⟨0x30, (numberText false [0x30] fracs exp).tail, ?_, Or.inr (by decide)⟩
      simp [numberText]
    · refine ⟨c, (numberText false (c :: ints') fracs exp).tail, ?_, Or.inr hc⟩
      simp [numberText]

theorem parseValue_number (fuel depth : Nat) (f : Float64) (hfin : f.isFinite = true)
    (rest : List Nat) (hrest : delimited rest = true) :
    parseValue (fuel + 1) depth (formatFloat64 f ++ rest) =
        .ok (.number (formatFloat64 f), rest) ∧
      startsValue (formatFloat64 f) = true := by
  obtain ⟨hscan, _⟩ := float64_roundtrip f hfin rest hrest
  obtain ⟨ints, fracs, exp, htext, hints, _, _, _⟩ := formatFloat64_numberText f hfin
  obtain ⟨c, tl, hct, hc⟩ := numberText_head f.signBit ints fracs exp hints
  rw [htext, hct] at hscan ⊢
  have hcases : c ≠ 0x7B ∧ c ≠ 0x5B ∧ c ≠ 0x22 ∧ c ≠ 0x74 ∧ c ≠ 0x66 ∧ c ≠ 0x6E ∧
      isSpace c = false ∧ c ≠ 0x5D := by
    rcases hc with h | h
    · subst h; decide
    · simp only [isDigit, Bool.and_eq_true, decide_eq_true_eq] at h
      simp only [isSpace]
      refine ⟨by omega, by omega, by omega, by omega, by omega, by omega, ?_, by omega⟩
      have h1 : c ≠ 0x20 := by omega
      have h2 : c ≠ 0x09 := by omega
      have h3 : c ≠ 0x0D := by omega
      have h4 : c ≠ 0x0A := by omega
      simp [h1, h2, h3, h4]
  obtain ⟨h1, h2, h3, h4, h5, h6, h7, h8⟩ := hcases
  constructor
  · simp only [List.cons_append] at hscan ⊢
    simp only [parseValue, h1, h2, h3, h4, h5, h6, if_false, hscan]
  · simp [startsValue, h7, h8]

/-! ## Reading back what `Marshal` wrote -/

theorem joinComma_cons_cons (x y : List Nat) (r : List (List Nat)) :
    joinComma (x :: y :: r) = x ++ 0x2C :: joinComma (y :: r) := rfl

theorem delimited_comma (l : List Nat) : delimited (0x2C :: l) = true := rfl

theorem delimited_bracket (l : List Nat) : delimited (0x5D :: l) = true := rfl

theorem delimited_brace (l : List Nat) : delimited (0x7D :: l) = true := rfl

theorem startsValue_appendString (k : GoString) (R : List Nat) :
    startsValue (appendString k ++ R) = true := by
  rw [appendString_eq]
  rfl

theorem toInterfaceList_nil_inv (js : List JSON) (h : JSON.toInterfaceList js = .ok []) :
    js = [] := by
  cases js with
  | nil => rfl
  | cons j js' =>
    simp only [JSON.toInterfaceList] at h
    split at h
    · simp at h
    · split at h <;> simp at h

mutual
theorem roundtrip_value : (v : GoValue) → v.isPlainJSON = true →
    ∃ enc j, marshalValue v = .ok enc ∧ JSON.toInterface j = .ok v ∧
      startsValue enc = true ∧
      ∀ (depth fuel : Nat) (rest : List Nat), depth + v.depth ≤ maxNestingDepth →
        2 * enc.length ≤ fuel → delimited rest = true →
        parseValue fuel depth (enc ++ rest) = .ok (j, rest)
  | .nil, _ => by
    refine ⟨ascii "null", .null, rfl, rfl, rfl, ?_⟩
    intro depth fuel rest _ hfuel _
    obtain ⟨f, rfl⟩ : ∃ f, fuel = f + 1 := ⟨fuel - 1, by
      have : (ascii "null").length = 4 := rfl
      omega⟩
    exact parseValue_null f depth rest
  | .bool true, _ => by
    refine ⟨ascii "true", .bool true, rfl, rfl, rfl, ?_⟩
    intro depth fuel rest _ hfuel _
    obtain ⟨f, rfl⟩ : ∃ f, fuel = f + 1 := ⟨fuel - 1, by
      have : (ascii "true").length = 4 := rfl
      omega⟩
    exact parseValue_true f depth rest
  | .bool false, _ => by
    refine ⟨ascii "false", .bool false, rfl, rfl, rfl, ?_⟩
    intro depth fuel rest _ hfuel _
    obtain ⟨f, rfl⟩ : ∃ f, fuel = f + 1 := ⟨fuel - 1, by
      have : (ascii "false").length = 5 := rfl
      omega⟩
    exact parseValue_false f depth rest
  | .float64 f, h => by
    have hfin : f.isFinite = true := by simpa [GoValue.isPlainJSON] using h
    have hne : ¬ ((f.isNaN || f.isInf) = true) := by
      simp only [Float64.isFinite, Bool.and_eq_true, Bool.not_eq_true'] at hfin
      simp [hfin.1.2, hfin.2]
    obtain ⟨_, hparse⟩ := float64_roundtrip f hfin [] rfl
    refine ⟨formatFloat64 f, .number (formatFloat64 f), by simp [marshalValue, hne],
      by simp [JSON.toInterface, hparse], (parseValue_number 0 0 f hfin [] rfl).2, ?_⟩
    intro depth fuel rest _ hfuel hrest
    have hpos : 1 ≤ (formatFloat64 f).length := by
      have := (parseValue_number 0 0 f hfin [] rfl).2
      cases hl : formatFloat64 f with
      | nil => rw [hl] at this; simp [startsValue] at this
      | cons a l => simp
    obtain ⟨f', rfl⟩ : ∃ k, fuel = k + 1 := ⟨fuel - 1, by omega⟩
    exact (parseValue_number f' depth f hfin rest hrest).1
  | .string s, h => by
    have hv : validUTF8 s = true := by simpa [GoValue.isPlainJSON] using h
    refine ⟨appendString s, .string s, rfl, rfl, ?_, ?_⟩
    · have := startsValue_appendString s []
      simpa using this
    · intro depth fuel rest _ hfuel _
      have hpos : 1 ≤ (appendString s).length := by simp [appendString]
      obtain ⟨f', rfl⟩ : ∃ k, fuel = k + 1 := ⟨fuel - 1, by omega⟩
      exact parseValue_string f' depth s hv rest
  | .slice (some xs), h => by
    have hxs : GoValue.allPlainJSON xs = true := by simpa [GoValue.isPlainJSON] using h
    obtain ⟨encs, js, hm, hconv, hstart, hparse⟩ := roundtrip_list xs hxs
    refine ⟨[0x5B] ++ joinComma encs ++ [0x5D], .array js, by simp [marshalValue, hm],
      by simp [JSON.toInterface, hconv], by simp [startsValue, isSpace], ?_⟩
    intro depth fuel rest hdepth hfuel _
    simp only [GoValue.depth] at hdepth
    obtain ⟨f', rfl⟩ : ∃ k, fuel = k + 1 := ⟨fuel - 1, by
      simp only [List.length_append, List.length_cons, List.length_nil] at hfuel; omega⟩
    cases hx : xs with
    | nil =>
      subst hx
      simp only [marshalElements] at hm
      injection hm with hm
      subst hm
      have hjs := toInterfaceList_nil_inv js hconv
      subst hjs
      exact parseValue_array_empty f' depth rest (by omega)
    | cons x xs' =>
      have hne : xs ≠ [] := by rw [hx]; simp
      have := parseValue_array f' depth (joinComma encs) js rest (by omega) (hstart hne)
        (hparse (depth + 1) f' rest hne (by omega) (by
          simp only [List.length_append, List.length_cons, List.length_nil] at hfuel; omega))
      simpa using this
  | .stringMap (some es), h => by
    have hes : keysSorted es = true ∧ GoValue.allMembersPlainJSON es = true := by
      simpa [GoValue.isPlainJSON] using h
    obtain ⟨encs, ms, hm, hconv, hstart, hparse⟩ := roundtrip_members es hes.2
    have hmap := toInterfaceMap_sorted ms es [] hconv (by simpa using hes.1)
    refine ⟨[0x7B] ++ joinComma encs ++ [0x7D], .object ms, by simp [marshalValue, hm],
      by simp [JSON.toInterface, hmap], by simp [startsValue, isSpace], ?_⟩
    intro depth fuel rest hdepth hfuel _
    simp only [GoValue.depth] at hdepth
    obtain ⟨f', rfl⟩ : ∃ k, fuel = k + 1 := ⟨fuel - 1, by
      simp only [List.length_append, List.length_cons, List.length_nil] at hfuel; omega⟩
    cases hx : es with
    | nil =>
      subst hx
      simp only [marshalMembers] at hm
      injection hm with hm
      subst hm
      cases hconv
      exact parseValue_object_empty f' depth rest (by omega)
    | cons e es' =>
      have hne : es ≠ [] := by rw [hx]; simp
      have := parseValue_object f' depth (joinComma encs) ms rest (by omega) (hstart hne)
        (hparse (depth + 1) f' rest hne (by omega) (by
          simp only [List.length_append, List.length_cons, List.length_nil] at hfuel; omega))
      simpa using this
  | .int _, h => by simp [GoValue.isPlainJSON] at h
  | .int64 _, h => by simp [GoValue.isPlainJSON] at h
  | .time _, h => by simp [GoValue.isPlainJSON] at h
  | .duration _, h => by simp [GoValue.isPlainJSON] at h
  | .bytes _, h => by simp [GoValue.isPlainJSON] at h
  | .stringSlice _, h => by simp [GoValue.isPlainJSON] at h
  | .slice none, h => by simp [GoValue.isPlainJSON] at h
  | .stringMap none, h => by simp [GoValue.isPlainJSON] at h
  | .stringMapString _, h => by simp [GoValue.isPlainJSON] at h
  | .stringMapStringSlice _, h => by simp [GoValue.isPlainJSON] at h
  | .other _ _, h => by simp [GoValue.isPlainJSON] at h
theorem roundtrip_list : (xs : List GoValue) → GoValue.allPlainJSON xs = true →
    ∃ encs js, marshalElements xs = .ok encs ∧ JSON.toInterfaceList js = .ok xs ∧
      (xs ≠ [] → startsValue (joinComma encs) = true) ∧
      ∀ (depth fuel : Nat) (rest : List Nat), xs ≠ [] →
        depth + GoValue.depthList xs ≤ maxNestingDepth →
        2 * (joinComma encs).length + 1 ≤ fuel →
        parseElements fuel depth (joinComma encs ++ 0x5D :: rest) = .ok (js, rest)
  | [], _ => ⟨[], [], rfl, rfl, fun h => absurd rfl h, fun _ _ _ h => absurd rfl h⟩
  | x :: xs, h => by
    have hx : x.isPlainJSON = true ∧ GoValue.allPlainJSON xs = true := by
      simpa [GoValue.allPlainJSON] using h
    obtain ⟨encx, jx, hmx, hcx, hsx, hpx⟩ := roundtrip_value x hx.1
    obtain ⟨encs, js, hms, hcs, hss, hps⟩ := roundtrip_list xs hx.2
    refine ⟨encx :: encs, jx :: js, by simp [marshalElements, hmx, hms],
      by simp [JSON.toInterfaceList, hcx, hcs], ?_, ?_⟩
    · intro _
      cases encs with
      | nil => simpa [joinComma] using hsx
      | cons e es => rw [joinComma_cons_cons]; exact startsValue_append _ _ hsx
    · intro depth fuel rest _ hdepth hfuel
      simp only [GoValue.depthList] at hdepth
      obtain ⟨f', rfl⟩ : ∃ k, fuel = k + 1 := ⟨fuel - 1, by omega⟩
      cases hxs : xs with
      | nil =>
        subst hxs
        simp only [marshalElements] at hms
        injection hms with hms
        subst hms
        have hjs := toInterfaceList_nil_inv js hcs
        subst hjs
        simp only [joinComma] at hfuel ⊢
        exact parseElements_single f' depth encx jx rest
          (hpx depth f' (0x5D :: rest) (by omega) (by omega) rfl)
      | cons y ys =>
        have hne : xs ≠ [] := by rw [hxs]; simp
        obtain ⟨e1, encs', hencs⟩ : ∃ e1 encs', encs = e1 :: encs' := by
          cases encs with
          | nil =>
            rw [hxs] at hms
            simp only [marshalElements] at hms
            split at hms
            · simp at hms
            · split at hms <;> simp at hms
          | cons e1 encs' => exact ⟨e1, encs', rfl⟩
        rw [hencs, joinComma_cons_cons] at hfuel ⊢
        rw [hencs] at hps hss
        simp only [List.length_append, List.length_cons] at hfuel
        rw [List.append_assoc]
        exact parseElements_cons f' depth encx jx (joinComma (e1 :: encs')) js rest
          (by
            have := hpx depth f' (0x2C :: (joinComma (e1 :: encs') ++ 0x5D :: rest))
              (by omega) (by omega) rfl
            simpa using this)
          (hss hne)
          (hps depth f' rest hne (by omega) (by omega))
theorem roundtrip_members : (es : List (GoString × GoValue)) →
    GoValue.allMembersPlainJSON es = true →
    ∃ encs ms, marshalMembers es = .ok encs ∧
      List.Forall₂ (fun m e => m.1 = e.1 ∧ JSON.toInterface m.2 = .ok e.2) ms es ∧
      (es ≠ [] → ∃ tl, joinComma encs = 0x22 :: tl) ∧
      ∀ (depth fuel : Nat) (rest : List Nat), es ≠ [] →
        depth + GoValue.depthMembers es ≤ maxNestingDepth →
        2 * (joinComma encs).length + 1 ≤ fuel →
        parseMembers fuel depth (joinComma encs ++ 0x7D :: rest) = .ok (ms, rest)
  | [], _ => ⟨[], [], rfl, List.Forall₂.nil, fun h => absurd rfl h,
      fun _ _ _ h => absurd rfl h⟩
  | (k, x) :: es, h => by
    have hx : (validUTF8 k = true ∧ x.isPlainJSON = true) ∧
        GoValue.allMembersPlainJSON es = true := by
      simpa [GoValue.allMembersPlainJSON] using h
    obtain ⟨encx, jx, hmx, hcx, hsx, hpx⟩ := roundtrip_value x hx.1.2
    obtain ⟨encs, ms, hms, hcs, hss, hps⟩ := roundtrip_members es hx.2
    refine ⟨(appendString k ++ 0x3A :: encx) :: encs, (k, jx) :: ms,
      by simp [marshalMembers, hmx, hms], List.Forall₂.cons ⟨rfl, hcx⟩ hcs, ?_, ?_⟩
    · intro _
      cases encs with
      | nil => exact ⟨appendStringLoop k.length k ++ 0x22 :: 0x3A :: encx, by
          simp [joinComma, appendString]⟩
      | cons e es' =>
        rw [joinComma_cons_cons]
        exact ⟨appendStringLoop k.length k ++ 0x22 :: 0x3A :: (encx ++ 0x2C ::
          joinComma (e :: es')), by simp [appendString]⟩
    · intro depth fuel rest _ hdepth hfuel
      simp only [GoValue.depthMembers] at hdepth
      obtain ⟨f', rfl⟩ : ∃ k, fuel = k + 1 := ⟨fuel - 1, by omega⟩
      cases hes : es with
      | nil =>
        subst hes
        simp only [marshalMembers] at hms
        injection hms with hms
        subst hms
        cases hcs
        simp only [joinComma, List.length_append, List.length_cons] at hfuel ⊢
        have := parseMembers_single f' depth k encx jx rest hx.1.1 hsx
          (hpx depth f' (0x7D :: rest) (by omega) (by omega) rfl)
        simpa using this
      | cons y ys =>
        have hne : es ≠ [] := by rw [hes]; simp
        obtain ⟨e1, encs', hencs⟩ : ∃ e1 encs', encs = e1 :: encs' := by
          cases encs with
          | nil =>
            rw [hes] at hms
            obtain ⟨yk, yv⟩ := y
            simp only [marshalMembers] at hms
            split at hms
            · simp at hms
            · split at hms <;> simp at hms
          | cons e1 encs' => exact ⟨e1, encs', rfl⟩
        rw [hencs, joinComma_cons_cons] at hfuel ⊢
        rw [hencs] at hps hss
        simp only [List.length_append, List.length_cons] at hfuel
        obtain ⟨tl, htl⟩ := hss hne
        have hJ : startsValue (joinComma (e1 :: encs')) = true := by rw [htl]; rfl
        have := parseMembers_cons f' depth k encx jx (joinComma (e1 :: encs')) ms rest
          hx.1.1 hsx
          (by
            have := hpx depth f' (0x2C :: (joinComma (e1 :: encs') ++ 0x7D :: rest))
              (by omega) (by omega) rfl
            simpa using this)
          hJ (hps depth f' rest hne (by omega) (by omega))
        simpa using this
end

theorem scan_bytes_eq (b : DataJSON) (data : List Nat) :
    DataJSON.Scan (.to b) (.bytes data) = DataJSON.UnmarshalJSON (.to b) data := by
  simp [DataJSON.Scan, GoValue.isNil]

/-! ## Encoding and decoding back -/

/-- C11 (counterexample): for an integer raw value and for a boolean raw value `Scan`
returns one and the same error, `errors.New("invalid scan source")`: the message names
neither representation and does not depend on the one presented. -/
theorem DataJSON.scan_error_same_message :
    DataJSON.Scan (.to (some [])) (.int 7) =
      .ok (.to (some []), some (.errorsNew (ascii "invalid scan source"))) ∧
    DataJSON.Scan (.to (some [])) (.bool true) =
      .ok (.to (some []), some (.errorsNew (ascii "invalid scan source"))) ∧
    DataJSON.Scan (.to (some [])) (.int 7) = DataJSON.Scan (.to (some [])) (.bool true) :=
  ⟨rfl, rfl, rfl⟩

/-- C11 (amended): when the raw value is neither nil, a byte sequence nor a string, `Scan`
returns the error `errors.New("invalid scan source")`, the same fixed message for every
unsupported representation, and leaves the bag as it was. -/
theorem DataJSON.scan_unsupported_fixed_error (b : DataJSON) (raw : GoValue)
    (hnil : raw ≠ .nil) (hbytes : ∀ data, raw ≠ .bytes data) (hstr : ∀ s, raw ≠ .string s) :
    DataJSON.Scan (.to b) raw =
      .ok (.to b, some (.errorsNew (ascii "invalid scan source"))) := by
  cases raw with
  | nil => exact absurd rfl hnil
  | bytes data => exact absurd rfl (hbytes data)
  | string s => exact absurd rfl (hstr s)
  | _ => simp [DataJSON.Scan, GoValue.isNil]

/-- Witness of C11 (amended): a `time.Time` raw value. -/
theorem DataJSON.scan_unsupported_fixed_error_witness :
    DataJSON.Scan (.to none) (.time GoTime.zero) =
      .ok (.to none, some (.errorsNew (ascii "invalid scan source"))) :=
  DataJSON.scan_unsupported_fixed_error none (.time GoTime.zero)
    (fun h => by cases h) (fun _ h => by cases h) (fun _ h => by cases h)

/-! ## MustGet and the presence flag of Get -/

theorem get_eq_index (d : DataJSON) (key : GoString) :
    DataJSON.Get d key = DataJSON.index d key := by
  cases d with
  | none => rfl
  | some es =>
    simp only [DataJSON.Get, DataJSON.index]
    cases mapLookup es key <;> rfl

/-- C12: `MustGet(key)` returns the value `Get(key)` returns when the key is present (a
stored nil included), and panics exactly when the key is absent; the panic message is
`Key "` followed by the key and `" does not exist`, so it contains the key's text. -/
theorem DataJSON.mustGet_spec (d : DataJSON) (key : GoString) :
    (∀ v, DataJSON.Get d key = (v, true) → DataJSON.MustGet d key = .ok v) ∧
    ((DataJSON.Get d key).2 = false →
      DataJSON.MustGet d key =
        .error (.custom (ascii "Key \"" ++ key ++ ascii "\" does not exist"))) ∧
    ((∃ p, DataJSON.MustGet d key = .error p) ↔ (DataJSON.index d key).2 = false) ∧
    (∀ msg, DataJSON.MustGet d key = .error (.custom msg) →
      ∃ before after, msg = before ++ key ++ after) ∧
    (∀ p, DataJSON.MustGet d key = .error p → ∃ msg, p = .custom msg) ∧
    DataJSON.MustGet (some [(key, .nil)]) key = .ok .nil := by
  rw [← get_eq_index]
  rcases hg : DataJSON.Get d key with ⟨val, ok⟩
  cases ok with
  | true =>
    have hm : DataJSON.MustGet d key = .ok val := by simp [DataJSON.MustGet, hg]
    refine ⟨?_, ?_, ?_, ?_, ?_, ?_⟩
    · intro v hv
      injection hv with h1 _
      rw [hm, h1]
    · intro h; cases h
    · rw [hm]
      constructor
      · rintro ⟨p, hp⟩; cases hp
      · intro h; cases h
    · intro msg h; rw [hm] at h; cases h
    · intro p h; rw [hm] at h; cases h
    · simp [DataJSON.MustGet, DataJSON.Get, DataJSON.index, mapLookup]
  | false =>
    have hm : DataJSON.MustGet d key =
        .error (.custom (ascii "Key \"" ++ key ++ ascii "\" does not exist")) := by
      simp [DataJSON.MustGet, hg]
    refine ⟨?_, ?_, ?_, ?_, ?_, ?_⟩
    · intro v hv; cases hv
    · intro _; exact hm
    · rw [hm]
      exact ⟨fun _ => rfl, fun _ => ⟨_, rfl⟩⟩
    · intro msg h
      rw [hm] at h
      injection h with h
      injection h with h
      exact ⟨ascii "Key \"", ascii "\" does not exist", h.symm⟩
    · intro p h
      rw [hm] at h
      injection h with h
      exact ⟨_, h.symm⟩
    · simp [DataJSON.MustGet, DataJSON.Get, DataJSON.index, mapLookup]

/-- C13 (counterexample): in the bag with the single entry `"a" = nil`, `Get("a")` (key
present with a stored nil) has the flag `true` and `Get("b")` (key absent) has the flag
`false`, while the returned value is nil in both cases. -/
theorem DataJSON.get_flag_tells_absent_from_nil :
    DataJSON.Get (some [(ascii "a", .nil)]) (ascii "a") = (.nil, true) ∧
    DataJSON.Get (some [(ascii "a", .nil)]) (ascii "b") = (.nil, false) ∧
    (DataJSON.Get (some [(ascii "a", .nil)]) (ascii "a")).2 ≠
      (DataJSON.Get (some [(ascii "a", .nil)]) (ascii "b")).2 ∧
    (DataJSON.Get (some [(ascii "a", .nil)]) (ascii "a")).1 =
      (DataJSON.Get (some [(ascii "a", .nil)]) (ascii "b")).1 := by
  refine ⟨rfl, rfl, ?_, rfl⟩
  intro h
  have h2 : true = false := h
  cases h2

/-- C13 (amended): the flag of `Get` is `true` exactly when the key is in the map, so it is
`false` for an absent key and `true` for a key stored with nil; the value returned is nil
in both cases, so they are told apart by the flag and not by a test of the value. -/
theorem DataJSON.get_flag_is_presence (d : DataJSON) (key : GoString) :
    ((DataJSON.Get d key).2 = true ↔ ∃ es v, d = some es ∧ mapLookup es key = some v) ∧
    ((DataJSON.Get d key).2 = false → DataJSON.Get d key = (.nil, false)) ∧
    (∀ es, d = some es → mapLookup es key = some .nil → DataJSON.Get d key = (.nil, true)) := by
  cases d with
  | none =>
    refine ⟨⟨?_, ?_⟩, fun _ => rfl, ?_⟩
    · intro h; cases h
    · rintro ⟨es, v, h, _⟩
      cases h
    · intro es h; cases h
  | some es =>
    cases hl : mapLookup es key with
    | none =>
      have hg : DataJSON.Get (some es) key = (.nil, false) := by
        simp [DataJSON.Get, DataJSON.index, hl]
      rw [hg]
      refine ⟨⟨?_, ?_⟩, fun _ => rfl, ?_⟩
      · intro h; cases h
      · rintro ⟨es', v, h, hv⟩
        injection h with h
        subst h
        rw [hl] at hv
        cases hv
      · intro es' h hv
        injection h with h
        subst h
        rw [hl] at hv
        cases hv
    | some v =>
      have hg : DataJSON.Get (some es) key = (v, true) := by
        simp [DataJSON.Get, DataJSON.index, hl]
      rw [hg]
      refine ⟨⟨fun _ => ⟨es, v, rfl, hl⟩, fun _ => rfl⟩, ?_, ?_⟩
      · intro h; cases h
      · intro es' h hv
        injection h with h
        subst h
        rw [hl] at hv
        injection hv with hv
        rw [hv]

/-! ## The nil bag, IsNull and IsEmpty -/

theorem equals_of_len_zero (d x : DataJSON) (hd : DataJSON.entries d = []) :
    DataJSON.Equals d x = .ok (decide (DataJSON.len x = 0)) := by
  cases d with
  | none =>
    unfold DataJSON.Equals
    generalize DataJSON.len x = n
    cases n <;> rfl
  | some es =>
    have hes : es = [] := hd
    subst hes
    unfold DataJSON.Equals
    generalize DataJSON.len x = n
    cases n <;> rfl

/-- C14: on the nil bag the read operations give what they give on the allocated empty
bag and do not fail: for every key `Get` returns `(nil, false)`, each typed accessor
returns its zero value, `IsEmpty()` is true, and for every bag `x` the call `Equals(x)`
returns normally, with the same result on the nil bag and on the allocated empty bag
(true exactly when `x` has no entry). -/
theorem DataJSON.nil_bag_reads_as_empty (key : GoString) (x : DataJSON) :
    (DataJSON.Get none key = (.nil, false) ∧ DataJSON.Get (some []) key = (.nil, false)) ∧
    (DataJSON.GetString none key = [] ∧ DataJSON.GetString (some []) key = []) ∧
    (DataJSON.GetBool none key = false ∧ DataJSON.GetBool (some []) key = false) ∧
    (DataJSON.GetInt none key = 0 ∧ DataJSON.GetInt (some []) key = 0) ∧
    (DataJSON.GetInt64 none key = 0 ∧ DataJSON.GetInt64 (some []) key = 0) ∧
    (DataJSON.GetFloat64 none key = Float64.zero ∧
      DataJSON.GetFloat64 (some []) key = Float64.zero) ∧
    (DataJSON.GetTime none key = GoTime.zero ∧ DataJSON.GetTime (some []) key = GoTime.zero) ∧
    (DataJSON.GetDuration none key = 0 ∧ DataJSON.GetDuration (some []) key = 0) ∧
    (DataJSON.GetStringSlice none key = none ∧ DataJSON.GetStringSlice (some []) key = none) ∧
    (DataJSON.GetStringMap none key = none ∧ DataJSON.GetStringMap (some []) key = none) ∧
    (DataJSON.GetStringMapString none key = none ∧
      DataJSON.GetStringMapString (some []) key = none) ∧
    (DataJSON.GetStringMapStringSlice none key = none ∧
      DataJSON.GetStringMapStringSlice (some []) key = none) ∧
    (DataJSON.IsEmpty none = true ∧ DataJSON.IsEmpty (some []) = true) ∧
    DataJSON.Equals none x = .ok (decide (DataJSON.len x = 0)) ∧
    DataJSON.Equals none x = DataJSON.Equals (some []) x := by
  refine ⟨⟨rfl, rfl⟩, ⟨rfl, rfl⟩, ⟨rfl, rfl⟩, ⟨rfl, rfl⟩, ⟨rfl, rfl⟩, ⟨rfl, rfl⟩, ⟨rfl, rfl⟩,
    ⟨rfl, rfl⟩, ⟨rfl, rfl⟩, ⟨rfl, rfl⟩, ⟨rfl, rfl⟩, ⟨rfl, rfl⟩, ⟨rfl, rfl⟩,
    equals_of_len_zero none x rfl, ?_⟩
  rw [equals_of_len_zero none x rfl, equals_of_len_zero (some []) x rfl]

/-- C15: `IsEmpty()` is true if and only if `IsNull()` is true or the bag has no entry; so
`IsNull()` implies `IsEmpty()`, and an allocated bag with an entry is neither null nor
empty. -/
theorem DataJSON.isEmpty_iff (b : DataJSON) :
    (DataJSON.IsEmpty b = true ↔ DataJSON.IsNull b = true ∨ DataJSON.len b = 0) ∧
    (DataJSON.IsNull b = true → DataJSON.IsEmpty b = true) ∧
    (∀ e es, b = some (e :: es) → DataJSON.IsNull b = false ∧ DataJSON.IsEmpty b = false) := by
  refine ⟨?_, ?_, ?_⟩
  · simp [DataJSON.IsEmpty]
  · intro h
    simp [DataJSON.IsEmpty, h]
  · intro e es h
    subst h
    simp [DataJSON.IsEmpty, DataJSON.IsNull, DataJSON.len]

/-! ## Errors leave the bag as it was -/

/-- C19: whenever `UnmarshalJSON` or `Scan` returns an error, the bag holds what it held
before the call, nil or allocated, entry by entry. -/
theorem DataJSON.error_leaves_bag (b : DataJSON) :
    (∀ data p err, DataJSON.UnmarshalJSON (.to b) data = .ok (p, some err) → p = .to b) ∧
    (∀ raw p err, DataJSON.Scan (.to b) raw = .ok (p, some err) → p = .to b) := by
  have hum : ∀ data p err,
      DataJSON.UnmarshalJSON (.to b) data = .ok (p, some err) → p = .to b := by
    intro data p err h
    unfold DataJSON.UnmarshalJSON at h
    cases hj : jsonUnmarshal data [] with
    | error e =>
      simp [hj] at h
      exact h.1.symm
    | ok ref => simp [hj] at h
  refine ⟨hum, ?_⟩
  intro raw p err h
  cases raw with
  | nil => simp [DataJSON.Scan, GoValue.isNil] at h
  | bytes data =>
    rw [scan_bytes_eq] at h
    exact hum data p err h
  | string s => simp [DataJSON.Scan, GoValue.isNil] at h
  | _ =>
    simp [DataJSON.Scan, GoValue.isNil] at h
    exact h.1.symm

/-! ## Equals on bags with different keys -/

/-- C20: `Equals` is not equality of key sets: when two bags have the same number of
entries and no key of the first is a key of the second, `Equals` returns true; on the
bags `{"a": 1}` and `{"b": 2}` it returns true in both directions. -/
theorem DataJSON.equals_disjoint_keys :
    (∀ es es' : List (GoString × GoValue), es.length = es'.length →
      (∀ e ∈ es, mapLookup es' e.1 = none) →
      DataJSON.Equals (some es) (some es') = .ok true) ∧
    DataJSON.Equals (some [(ascii "a", .int 1)]) (some [(ascii "b", .int 2)]) = .ok true ∧
    DataJSON.Equals (some [(ascii "b", .int 2)]) (some [(ascii "a", .int 1)]) = .ok true ∧
    (DataJSON.Get (some [(ascii "a", .int 1)]) (ascii "a")).2 ≠
      (DataJSON.Get (some [(ascii "b", .int 2)]) (ascii "a")).2 := by
  refine ⟨?_, rfl, rfl, ?_⟩
  · intro es es' hlen hdis
    have hloop : ∀ l : List (GoString × GoValue), (∀ e ∈ l, mapLookup es' e.1 = none) →
        DataJSON.equalsLoop (some es') l = .ok true := by
      intro l
      induction l with
      | nil => intro _; rfl
      | cons e l ih =>
        intro h
        obtain ⟨k, v⟩ := e
        have hk : mapLookup es' k = none := h (k, v) (List.mem_cons_self _ _)
        simp only [DataJSON.equalsLoop, DataJSON.index, hk]
        exact ih (fun e he => h e (List.mem_cons_of_mem _ he))
    simp [DataJSON.Equals, DataJSON.len, hlen, hloop es hdis]
  · intro h
    have h2 : true = false := h
    cases h2

/-- Witness of C19: the text `[1,2,3]` is rejected and the bag keeps its entry. -/
theorem DataJSON.error_leaves_bag_witness :
    DataJSON.UnmarshalJSON (.to (some [(ascii "a", .bool true)])) (ascii "[1,2,3]") =
      .ok (.to (some [(ascii "a", .bool true)]), some (.unmarshalTypeErr (ascii "array"))) ∧
    (Ptr.to (some [(ascii "a", .bool true)]) : Ptr DataJSON) =
      .to (some [(ascii "a", .bool true)]) :=
  ⟨rfl, (DataJSON.error_leaves_bag (some [(ascii "a", .bool true)])).1 (ascii "[1,2,3]")
    (.to (some [(ascii "a", .bool true)])) (.unmarshalTypeErr (ascii "array")) rfl⟩

/-! ## Equals on bags of scalars -/

theorem interfaceEq_scalar (v v2 : GoValue) (h : v.isScalar = true) :
    ∃ r, GoValue.interfaceEq v v2 = .ok r := by
  cases v <;> simp [GoValue.isScalar] at h <;> cases v2 <;> exact ⟨_, rfl⟩

theorem equalsLoop_scalars (meta : DataJSON) (l : List (GoString × GoValue))
    (hl : ∀ e ∈ l, e.2.isScalar = true) :
    ∃ r, DataJSON.equalsLoop meta l = .ok r ∧
      (r = true ↔ ∀ e ∈ l, ∀ v2, DataJSON.index meta e.1 = (v2, true) →
        GoValue.interfaceEq e.2 v2 = .ok true) := by
  induction l with
  | nil => exact ⟨true, rfl, by simp⟩
  | cons e l ih =>
    obtain ⟨k, v⟩ := e
    obtain ⟨r, hr, hiff⟩ := ih (fun e he => hl e (List.mem_cons_of_mem _ he))
    have hv : v.isScalar = true := hl (k, v) (List.mem_cons_self _ _)
    rcases hi : DataJSON.index meta k with ⟨v2, ok⟩
    cases ok with
    | false =>
      refine ⟨r, by simp only [DataJSON.equalsLoop, hi]; exact hr, ?_⟩
      rw [hiff]
      constructor
      · intro h e he w hw
        rcases List.mem_cons.mp he with he | he
        · subst he
          rw [hi] at hw
          cases hw
        · exact h e he w hw
      · intro h e he w hw
        exact h e (List.mem_cons_of_mem _ he) w hw
    | true =>
      obtain ⟨q, hq⟩ := interfaceEq_scalar v v2 hv
      cases q with
      | false =>
        refine ⟨false, by simp only [DataJSON.equalsLoop, hi, hq], ?_⟩
        constructor
        · intro h; cases h
        · intro h
          have := h (k, v) (List.mem_cons_self _ _) v2 hi
          rw [hq] at this
          cases this
      | true =>
        refine ⟨r, by simp only [DataJSON.equalsLoop, hi, hq]; exact hr, ?_⟩
        rw [hiff]
        constructor
        · intro h e he w hw
          rcases List.mem_cons.mp he with he | he
          · subst he
            rw [hi] at hw
            injection hw with hw _
            subst hw
            exact hq
          · exact h e he w hw
        · intro h e he w hw
          exact h e (List.mem_cons_of_mem _ he) w hw

/-! ## Equals of a bag with itself -/

/-- C17 (the code at the failing inputs): the test `&d == &meta` compares the addresses of
the receiver and of the parameter, two distinct variables, and never holds, so a bag
compared with itself goes through the loop: the bag with the single entry `"x" = NaN`
is not equal to itself, and on the bag with the single entry `"x" = []interface{}{}`
the comparison `v != v2` panics. -/
theorem DataJSON.equals_self_fails :
    DataJSON.Equals (some [(ascii "x", .float64 Float64.nan)])
      (some [(ascii "x", .float64 Float64.nan)]) = .ok false ∧
    DataJSON.Equals (some [(ascii "x", .slice (some []))])
      (some [(ascii "x", .slice (some []))]) = .error .uncomparable ∧
    DataJSON.Equals (some [(ascii "x", .stringMap (some []))])
      (some [(ascii "x", .stringMap (some []))]) = .error .uncomparable :=
  ⟨rfl, rfl, rfl⟩

/-! ## Decoded numbers are not NaN -/

theorem roundFloat64_bits_lt (num den : Nat) (f : Float64)
    (h : roundFloat64 false num den = some f) : f.bits < 2047 * 2 ^ 52 := by
  unfold roundFloat64 at h
  by_cases h0 : num = 0
  · simp [h0] at h
    rw [← h]
    norm_num
  · simp [h0] at h
    obtain ⟨h1, h2⟩ := h
    subst h2
    simpa using h1

theorem roundFloat64_not_nan (neg : Bool) (num den : Nat) (f : Float64)
    (h : roundFloat64 neg num den = some f) : f.isNaN = false := by
  rw [roundFloat64_sign] at h
  cases hr : roundFloat64 false num den with
  | none => simp [hr] at h
  | some g =>
    have hg := roundFloat64_bits_lt num den g hr
    simp [hr] at h
    rw [← h]
    have hlt : g.bits < 9218868437227405312 := by norm_num at hg; exact hg
    have hexp : ((if neg = true then 9223372036854775808 else 0) + g.bits) /
        4503599627370496 % 2048 ≠ 2047 := by
      cases neg <;> simp <;> omega
    simp only [Float64.isNaN, Float64.expField, Bool.and_eq_false_imp, decide_eq_true_eq]
    intro hc
    norm_num at hc
    exact absurd hc hexp

theorem parseFloat64_not_nan (lit : List Nat) (f : Float64)
    (h : parseFloat64 lit = some f) : f.isNaN = false := by
  unfold parseFloat64 at h
  simp only [decimalToFloat64] at h
  split at h
  · exact roundFloat64_not_nan _ _ _ _ h
  · exact roundFloat64_not_nan _ _ _ _ h

theorem float64_eq_self (f : Float64) (h : f.isNaN = false) : Float64.eq f f = true := by
  simp [Float64.eq, h]

/-! ## A decoded map has its keys in order -/

theorem strLt_total : ∀ (a b : GoString), strLt a b = false → strLt b a = false → a = b
  | [], [], _, _ => rfl
  | [], _ :: _, h, _ => by simp [strLt] at h
  | _ :: _, [], _, h => by simp [strLt] at h
  | x :: xs, y :: ys, h1, h2 => by
    simp only [strLt] at h1 h2
    by_cases hxy : x < y
    · simp [hxy] at h1
    · by_cases hyx : y < x
      · simp [hyx] at h2
      · simp only [hxy, hyx, if_false] at h1 h2
        have hx : x = y := by omega
        rw [hx, strLt_total xs ys h1 h2]

theorem keysSorted_cons {α : Type} (e : GoString × α) (l : List (GoString × α))
    (hlt : ∀ x ∈ l, strLt e.1 x.1 = true) (hl : keysSorted l = true) :
    keysSorted (e :: l) = true := by
  cases l with
  | nil => rfl
  | cons e2 l' =>
    simp only [keysSorted, Bool.and_eq_true]
    exact ⟨hlt e2 (List.mem_cons_self _ _), hl⟩

theorem mapInsert_mem {α : Type} (es : List (GoString × α)) (k : GoString) (v : α) :
    ∀ x ∈ mapInsert es k v, x = (k, v) ∨ x ∈ es := by
  induction es with
  | nil =>
    intro x hx
    simp only [mapInsert, List.mem_singleton] at hx
    exact Or.inl hx
  | cons e rest ih =>
    obtain ⟨k1, v1⟩ := e
    intro x hx
    simp only [mapInsert] at hx
    split at hx
    · rcases List.mem_cons.mp hx with h | h
      · exact Or.inl h
      · exact Or.inr (List.mem_cons_of_mem _ h)
    · split at hx
      · rcases List.mem_cons.mp hx with h | h
        · exact Or.inl h
        · exact Or.inr h
      · rcases List.mem_cons.mp hx with h | h
        · exact Or.inr (h ▸ List.mem_cons_self _ _)
        · rcases ih x h with h' | h'
          · exact Or.inl h'
          · exact Or.inr (List.mem_cons_of_mem _ h')

theorem mapInsert_keysSorted {α : Type} (es : List (GoString × α)) (k : GoString) (v : α)
    (h : keysSorted es = true) : keysSorted (mapInsert es k v) = true := by
  induction es with
  | nil => rfl
  | cons e rest ih =>
    obtain ⟨k1, v1⟩ := e
    have htail := keysSorted_tail _ _ h
    have hhead := keysSorted_head_lt _ _ h
    simp only [mapInsert]
    split
    · rename_i hk
      exact keysSorted_cons _ _ (fun x hx => by rw [← hk]; exact hhead x hx) htail
    · rename_i hk
      split
      · rename_i hlt
        simp only [keysSorted, Bool.and_eq_true]
        exact ⟨hlt, h⟩
      · rename_i hlt
        refine keysSorted_cons _ _ ?_ (ih htail)
        intro x hx
        rcases mapInsert_mem rest k v x hx with hx' | hx'
        · subst hx'
          cases hc : strLt k1 k with
          | true => rfl
          | false =>
            have hlt' : strLt k k1 = false := by simpa using hlt
            exact absurd (strLt_total k1 k hc hlt') hk
        · exact hhead x hx'

theorem mapLookup_of_mem_sorted {α : Type} (es : List (GoString × α))
    (h : keysSorted es = true) : ∀ e ∈ es, mapLookup es e.1 = some e.2 := by
  induction es with
  | nil => intro e he; cases he
  | cons e1 rest ih =>
    intro e he
    obtain ⟨k1, v1⟩ := e1
    rcases List.mem_cons.mp he with he' | he'
    · subst he'
      simp [mapLookup]
    · have hlt := keysSorted_head_lt _ _ h e he'
      have hne : k1 ≠ e.1 := by
        intro hc
        simp only at hlt
        rw [hc, strLt_irrefl] at hlt
        cases hlt
      simp only [mapLookup, hne, if_false]
      exact ih (keysSorted_tail _ _ h) e he'

theorem toInterfaceMap_invariant (P : GoValue → Prop)
    (hP : ∀ x v, JSON.toInterface x = .ok v → P v) (ms : List (GoString × JSON)) :
    ∀ (acc es : List (GoString × GoValue)), JSON.toInterfaceMap acc ms = .ok es →
      keysSorted acc = true → (∀ e ∈ acc, P e.2) →
      keysSorted es = true ∧ ∀ e ∈ es, P e.2 := by
  induction ms with
  | nil =>
    intro acc es h hs hp
    simp only [JSON.toInterfaceMap] at h
    injection h with h
    subst h
    exact ⟨hs, hp⟩
  | cons m ms ih =>
    intro acc es h hs hp
    obtain ⟨k, x⟩ := m
    simp only [JSON.toInterfaceMap] at h
    cases hx : JSON.toInterface x with
    | error e => simp [hx] at h
    | ok v =>
      simp only [hx] at h
      refine ih (mapInsert acc k v) es h (mapInsert_keysSorted acc k v hs) ?_
      intro e he
      rcases mapInsert_mem acc k v e he with he' | he'
      · subst he'
        exact hP x v hx
      · exact hp e he'

/-! ## Equals on two bags decoded from one text -/

theorem toInterface_self_eq (x : JSON) (v : GoValue) (h : JSON.toInterface x = .ok v) :
    (v.isScalar = true ∧ GoValue.interfaceEq v v = .ok true) ∨
    (v.isScalar = false ∧ GoValue.interfaceEq v v = .error .uncomparable) := by
  cases x with
  | null =>
    simp only [JSON.toInterface] at h
    injection h with h
    subst h
    exact Or.inl ⟨rfl, rfl⟩
  | bool b =>
    simp only [JSON.toInterface] at h
    injection h with h
    subst h
    exact Or.inl ⟨rfl, by simp [GoValue.interfaceEq]⟩
  | number lit =>
    simp only [JSON.toInterface] at h
    cases hf : parseFloat64 lit with
    | none => simp [hf] at h
    | some f =>
      simp [hf] at h
      subst h
      exact Or.inl ⟨rfl, by
        simp [GoValue.interfaceEq, float64_eq_self f (parseFloat64_not_nan lit f hf)]⟩
  | string s =>
    simp only [JSON.toInterface] at h
    injection h with h
    subst h
    exact Or.inl ⟨rfl, by simp [GoValue.interfaceEq]⟩
  | array xs =>
    simp only [JSON.toInterface] at h
    cases hl : JSON.toInterfaceList xs with
    | error e => simp [hl] at h
    | ok vs =>
      simp [hl] at h
      subst h
      exact Or.inr ⟨rfl, rfl⟩
  | object ms =>
    simp only [JSON.toInterface] at h
    cases hm : JSON.toInterfaceMap [] ms with
    | error e => simp [hm] at h
    | ok es =>
      simp [hm] at h
      subst h
      exact Or.inr ⟨rfl, rfl⟩

theorem equalsLoop_self (es : List (GoString × GoValue)) (hs : keysSorted es = true)
    (l : List (GoString × GoValue)) (hsub : ∀ e ∈ l, e ∈ es)
    (hP : ∀ e ∈ l, (e.2.isScalar = true ∧ GoValue.interfaceEq e.2 e.2 = .ok true) ∨
      (e.2.isScalar = false ∧ GoValue.interfaceEq e.2 e.2 = .error .uncomparable)) :
    ((∀ e ∈ l, e.2.isScalar = true) → DataJSON.equalsLoop (some es) l = .ok true) ∧
    ((∃ e ∈ l, e.2.isScalar = false) →
      DataJSON.equalsLoop (some es) l = .error .uncomparable) := by
  induction l with
  | nil =>
    refine ⟨fun _ => rfl, ?_⟩
    rintro ⟨e, he, _⟩
    cases he
  | cons e l ih =>
    obtain ⟨k, v⟩ := e
    have ih' := ih (fun e he => hsub e (List.mem_cons_of_mem _ he))
      (fun e he => hP e (List.mem_cons_of_mem _ he))
    have hidx : DataJSON.index (some es) k = (v, true) := by
      have := mapLookup_of_mem_sorted es hs (k, v) (hsub _ (List.mem_cons_self _ _))
      simp only at this
      simp [DataJSON.index, this]
    rcases hP (k, v) (List.mem_cons_self _ _) with ⟨hsc, heq⟩ | ⟨hsc, heq⟩
    · simp only at hsc heq
      have hstep : DataJSON.equalsLoop (some es) ((k, v) :: l) =
          DataJSON.equalsLoop (some es) l := by
        simp only [DataJSON.equalsLoop, hidx, heq]
      rw [hstep]
      refine ⟨fun h => ih'.1 (fun e he => h e (List.mem_cons_of_mem _ he)), ?_⟩
      rintro ⟨e, he, hne⟩
      rcases List.mem_cons.mp he with he' | he'
      · subst he'
        simp only at hne
        rw [hsc] at hne
        cases hne
      · exact ih'.2 ⟨e, he', hne⟩
    · simp only at hsc heq
      have hstep : DataJSON.equalsLoop (some es) ((k, v) :: l) = .error .uncomparable := by
        simp only [DataJSON.equalsLoop, hidx, heq]
      rw [hstep]
      refine ⟨fun h => ?_, fun _ => rfl⟩
      have := h (k, v) (List.mem_cons_self _ _)
      simp only at this
      rw [hsc] at this
      cases this

theorem equals_same_len (a : DataJSON) :
    DataJSON.Equals a a =
      DataJSON.equalsLoop a (DataJSON.entries a) := by
  cases a with
  | none => rfl
  | some es =>
    unfold DataJSON.Equals
    simp [DataJSON.entries]

/-- C18 (counterexample): the text `{"x":[1]}` is decoded successfully, into a bag that
holds a `[]interface{}` at `"x"`; `Equals` on two bags decoded from it panics, since
`v != v2` compares two interface values of an uncomparable dynamic type. -/
theorem DataJSON.equals_decoded_nested_panics :
    DataJSON.UnmarshalJSON (.to (some [])) docNested =
      .ok (.to (some [(ascii "x", .slice (some [.float64 Float64.one]))]), none) ∧
    DataJSON.UnmarshalJSON (.to none) docNested =
      .ok (.to (some [(ascii "x", .slice (some [.float64 Float64.one]))]), none) ∧
    DataJSON.Equals (some [(ascii "x", .slice (some [.float64 Float64.one]))])
      (some [(ascii "x", .slice (some [.float64 Float64.one]))]) = .error .uncomparable :=
  ⟨rfl, rfl, rfl⟩

/-- C18 (amended): two bags decoded by `UnmarshalJSON` from the same text hold the same
entries; when no value of the decoded bag is a nested sequence or mapping (every value
is nil, a boolean, a number or a string), `Equals` on the two bags returns true; when
some value is a nested sequence or mapping, `Equals` panics on the comparison of that
value. -/
theorem DataJSON.equals_decoded (x y a b : DataJSON) (data : List Nat)
    (ha : DataJSON.UnmarshalJSON (.to x) data = .ok (.to a, none))
    (hb : DataJSON.UnmarshalJSON (.to y) data = .ok (.to b, none)) :
    a = b ∧
    ((∀ e ∈ DataJSON.entries a, e.2.isScalar = true) → DataJSON.Equals a b = .ok true) ∧
    ((∃ e ∈ DataJSON.entries a, e.2.isScalar = false) →
      DataJSON.Equals a b = .error .uncomparable) := by
  have hja := unmarshal_ok_cases x a data ha
  have hjb := unmarshal_ok_cases y b data hb
  have hab : a = b := by
    rw [hja] at hjb
    injection hjb
  subst hab
  refine ⟨rfl, ?_⟩
  rw [equals_same_len]
  rcases jsonUnmarshal_ok_shape data a hja with ⟨_, hn⟩ | ⟨ms, es, _, hm, hsome⟩
  · subst hn
    refine ⟨fun _ => rfl, ?_⟩
    rintro ⟨e, he, _⟩
    cases he
  · subst hsome
    obtain ⟨hs, hP⟩ := toInterfaceMap_invariant
      (fun v => (v.isScalar = true ∧ GoValue.interfaceEq v v = .ok true) ∨
        (v.isScalar = false ∧ GoValue.interfaceEq v v = .error .uncomparable))
      toInterface_self_eq ms [] es hm rfl (fun e he => by cases he)
    exact equalsLoop_self es hs es (fun e he => he) hP

/-- Witness of C18 (amended): two bags decoded from `{"a":1,"b":"x","c":true}`. -/
theorem DataJSON.equals_decoded_witness :
    DataJSON.UnmarshalJSON (.to none) docABC =
      .ok (.to (some [(ascii "a", .float64 Float64.one), (ascii "b", .string (ascii "x")),
        (ascii "c", .bool true)]), none) ∧
    DataJSON.Equals
      (some [(ascii "a", .float64 Float64.one), (ascii "b", .string (ascii "x")),
        (ascii "c", .bool true)])
      (some [(ascii "a", .float64 Float64.one), (ascii "b", .string (ascii "x")),
        (ascii "c", .bool true)]) = .ok true :=
  ⟨rfl, (DataJSON.equals_decoded none (some [(ascii "old", .nil)])
    (some [(ascii "a", .float64 Float64.one), (ascii "b", .string (ascii "x")),
      (ascii "c", .bool true)])
    (some [(ascii "a", .float64 Float64.one), (ascii "b", .string (ascii "x")),
      (ascii "c", .bool true)]) docABC rfl rfl).2.1
    (fun e he => by
      simp only [DataJSON.entries, List.mem_cons, List.mem_singleton] at he
      rcases he with he | he | he | he
      · subst he; rfl
      · subst he; rfl
      · subst he; rfl
      · cases he)⟩

/-! ## Equals on bags of scalars: the result -/

theorem float64_eq_spec (f g : Float64) :
    Float64.eq f g =
      (!f.isNaN && !g.isNaN &&
        (decide (f.bits % 2 ^ 64 = g.bits % 2 ^ 64) ||
          (decide (f.bits % 2 ^ 63 = 0) && decide (g.bits % 2 ^ 63 = 0)))) := by
  simp only [Float64.eq]
  cases hf : f.isNaN <;> cases hg : g.isNaN <;> simp
  by_cases hz : f.bits % 9223372036854775808 = 0 ∧ g.bits % 9223372036854775808 = 0
  · simp [hz]
  · by_cases he : f.bits % 18446744073709551616 = g.bits % 18446744073709551616
    · simp [he]
    · simp only [hz, he, if_false, decide_False, Bool.false_or]
      by_cases h1 : f.bits % 9223372036854775808 = 0
      · have h2 : ¬ g.bits % 9223372036854775808 = 0 := fun h2 => hz ⟨h1, h2⟩
        simp [h2]
      · simp [h1]

theorem interfaceEq_sameScalar (v w : GoValue) (h : v.isScalar = true) :
    GoValue.interfaceEq v w = .ok (GoValue.sameScalar v w) := by
  cases v <;> simp [GoValue.isScalar] at h <;> cases w <;>
    simp only [GoValue.interfaceEq, GoValue.sameScalar]
  all_goals first
    | rfl
    | (congr 1; exact float64_eq_spec _ _)
    | (congr 1; rw [Bool.eq_iff_iff]; simp)

theorem mem_of_mapLookup {α : Type} (es : List (GoString × α)) (k : GoString) (v : α)
    (h : mapLookup es k = some v) : (k, v) ∈ es := by
  induction es with
  | nil => simp [mapLookup] at h
  | cons e rest ih =>
    obtain ⟨k1, v1⟩ := e
    simp only [mapLookup] at h
    split at h
    · rename_i hk
      injection h with h
      rw [hk, h]
      exact List.mem_cons_self _ _
    · exact List.mem_cons_of_mem _ (ih h)

theorem index_iff_mem (b : DataJSON) (hb : keysSorted (DataJSON.entries b) = true)
    (k : GoString) (w : GoValue) :
    DataJSON.index b k = (w, true) ↔ (k, w) ∈ DataJSON.entries b := by
  cases b with
  | none =>
    constructor
    · intro h; cases h
    · intro h; cases h
  | some es =>
    have hes : keysSorted es = true := hb
    constructor
    · intro h
      simp only [DataJSON.index] at h
      cases hl : mapLookup es k with
      | none => simp [hl] at h
      | some v =>
        simp [hl] at h
        rw [← h]
        exact mem_of_mapLookup es k v hl
    · intro h
      have hl := mapLookup_of_mem_sorted es hes (k, w) h
      simp only at hl
      simp [DataJSON.index, hl]

theorem len_eq_entries_length (a : DataJSON) :
    DataJSON.len a = (DataJSON.entries a).length := by
  cases a <;> rfl

/-- C16: for bags whose values are scalars (nil, booleans, numbers, strings) `Equals`
returns normally, and it returns true if and only if the two bags have the same number
of entries and, for every key that is in both bags, the two stored values are equal:
of the same dynamic type and the same value, for `float64` neither being a NaN (Go
`==`). A key that is in one bag only is not compared. Only the values of the receiver
need to be scalars; each bag holds a key once. -/
theorem DataJSON.equals_scalars_iff (a b : DataJSON)
    (ha : ∀ e ∈ DataJSON.entries a, e.2.isScalar = true)
    (hb : keysSorted (DataJSON.entries b) = true) :
    ∃ r, DataJSON.Equals a b = .ok r ∧
      (r = true ↔ (DataJSON.entries a).length = (DataJSON.entries b).length ∧
        ∀ k v w, (k, v) ∈ DataJSON.entries a → (k, w) ∈ DataJSON.entries b →
          GoValue.sameScalar v w = true) := by
  have hconv : (∀ e ∈ DataJSON.entries a, ∀ v2, DataJSON.index b e.1 = (v2, true) →
        GoValue.interfaceEq e.2 v2 = .ok true) ↔
      (∀ k v w, (k, v) ∈ DataJSON.entries a → (k, w) ∈ DataJSON.entries b →
        GoValue.sameScalar v w = true) := by
    constructor
    · intro h k v w hv hw
      have h1 := h (k, v) hv w ((index_iff_mem b hb k w).mpr hw)
      rw [interfaceEq_sameScalar v w (ha (k, v) hv)] at h1
      injection h1
    · intro h e he w hw
      obtain ⟨k, v⟩ := e
      rw [interfaceEq_sameScalar v w (ha (k, v) he)]
      rw [h k v w he ((index_iff_mem b hb k w).mp hw)]
  rw [← len_eq_entries_length, ← len_eq_entries_length, ← hconv]
  by_cases hlen : DataJSON.len a = DataJSON.len b
  · cases a with
    | none =>
      refine ⟨true, ?_, ?_⟩
      · unfold DataJSON.Equals
        rw [hlen]
        simp
      · simp [hlen, DataJSON.entries]
    | some es =>
      obtain ⟨r, hr, hiff⟩ := equalsLoop_scalars b es ha
      refine ⟨r, ?_, ?_⟩
      · unfold DataJSON.Equals
        rw [hlen]
        simp [hr]
      · rw [hiff]
        simp [hlen, DataJSON.entries]
  · refine ⟨false, ?_, ?_⟩
    · unfold DataJSON.Equals
      simp [hlen]
    · constructor
      · intro h; cases h
      · intro h; exact absurd h.1 hlen

/-- Witness of C16: `{"a": 1, "b": "x"}` and `{"a": 2, "c": true}` have the same number
of entries and hold different values at their common key `"a"`: `Equals` returns
false; with `{"a": 1, "c": true}`, equal at the common key, it returns true. -/
theorem DataJSON.equals_scalars_iff_witness :
    DataJSON.Equals (some [(ascii "a", .int 1), (ascii "b", .string (ascii "x"))])
      (some [(ascii "a", .int 2), (ascii "c", .bool true)]) = .ok false ∧
    DataJSON.Equals (some [(ascii "a", .int 1), (ascii "b", .string (ascii "x"))])
      (some [(ascii "a", .int 1), (ascii "c", .bool true)]) = .ok true := by
  have hA : ∀ e ∈ DataJSON.entries
      (some [(ascii "a", .int 1), (ascii "b", .string (ascii "x"))]),
      e.2.isScalar = true := by
    intro e he
    simp only [DataJSON.entries, List.mem_cons, List.mem_singleton] at he
    rcases he with he | he | he
    · subst he; rfl
    · subst he; rfl
    · cases he
  constructor
  · obtain ⟨r, hr, hiff⟩ := DataJSON.equals_scalars_iff
      (some [(ascii "a", .int 1), (ascii "b", .string (ascii "x"))])
      (some [(ascii "a", .int 2), (ascii "c", .bool true)]) hA rfl
    cases r with
    | false => exact hr
    | true =>
      have h := (hiff.mp rfl).2 (ascii "a") (.int 1) (.int 2)
        (List.mem_cons_self _ _) (List.mem_cons_self _ _)
      cases h
  · obtain ⟨r, hr, hiff⟩ := DataJSON.equals_scalars_iff
      (some [(ascii "a", .int 1), (ascii "b", .string (ascii "x"))])
      (some [(ascii "a", .int 1), (ascii "c", .bool true)]) hA rfl
    have hr' : r = true := by
      rw [hiff]
      refine ⟨rfl, ?_⟩
      intro k v w hv hw
      simp only [DataJSON.entries, List.mem_cons, List.mem_singleton, Prod.mk.injEq,
        List.not_mem_nil, or_false] at hv hw
      rcases hv with ⟨hk, hv⟩ | ⟨hk, hv⟩ <;> rcases hw with ⟨hk', hw⟩ | ⟨hk', hw⟩
      · subst hv; subst hw; rfl
      · rw [hk] at hk'; exact absurd hk' (by decide)
      · rw [hk] at hk'; exact absurd hk' (by decide)
      · rw [hk] at hk'; exact absurd hk' (by decide)
    rw [hr'] at hr
    exact hr
